import Mathlib

/-!
# StateDelta: the durable log record of the graph database

A shallow embedding of `src/database/state_delta.{hpp,cpp}`: the record type, its
factories, `StateDelta::Encode`, `StateDelta::Decode` and `StateDelta::Apply`, together
with the hashed file reader / writer and the primitive codec they run on.

Machine integers are natural numbers or integers with explicit reductions modulo `2^64`.
A byte is a natural number below 256; a `std::string` is the list of its bytes.
-/

set_option autoImplicit false

namespace durability

/-! ## Raw integers as bytes -/

/-- The `k` low-order bytes of `n`, least significant first: the raw bytes of a POD value
on the little-endian host (`HashedFileWriter::WriteValue`). -/
def leBytes : Nat → Nat → List Nat
  | 0, _ => []
  | k + 1, n => (n % 256) :: leBytes k (n / 256)

/-- The number whose little-endian bytes are `bs`. -/
def leValue : List Nat → Nat
  | [] => 0
  | b :: bs => b + 256 * leValue bs

/-- The `k` low-order bytes of `n`, most significant first: network byte order, used by the
primitive codec for payloads and sizes. -/
def beBytes : Nat → Nat → List Nat
  | 0, _ => []
  | k + 1, n => (n / 256 ^ k % 256) :: beBytes k n

/-- The number whose big-endian bytes are `bs`. -/
def beValue (bs : List Nat) : Nat :=
  bs.foldl (fun acc b => acc * 256 + b) 0

/-- The conversion `static_cast<int64_t>(u)` of an unsigned 64-bit value. -/
def toInt64 (u : Nat) : Int :=
  if u % 2 ^ 64 < 2 ^ 63 then ((u % 2 ^ 64 : Nat) : Int) else ((u % 2 ^ 64 : Nat) : Int) - 2 ^ 64

/-- The conversion of a signed 64-bit value to an unsigned 64-bit one. -/
def toUInt64 (i : Int) : Nat :=
  (i % 2 ^ 64).toNat

/-! ## Hashed file writer and reader -/

/-- Modelled from the spec: the hasher behind `HashedFileWriter` / `HashedFileReader`
(`durability/hashed_file_{writer,reader}.hpp`) is not among the sources. The spec asks for a
deterministic 64-bit rolling hash over the bytes, identical on both sides, and fixes no
particular function, so the start value and the per-byte update are parameters. -/
structure Hasher where
  init : Nat
  update : Nat → Nat → Nat

/-- One byte absorbed into the 64-bit digest. -/
def Hasher.step (H : Hasher) (h b : Nat) : Nat :=
  H.update h b % 2 ^ 64

/-- The digest after absorbing `bs`, in order, starting from digest `h`. -/
def Hasher.run (H : Hasher) (h : Nat) (bs : List Nat) : Nat :=
  bs.foldl H.step h

/-- The digest of a fresh reader or writer. -/
def Hasher.start (H : Hasher) : Nat :=
  H.init % 2 ^ 64

/-- Modelled from the spec: `HashedFileWriter` (`durability/hashed_file_writer.hpp`, not among
the sources): an append-only byte sink with a rolling hash over all bytes ever written.
`out` holds the bytes written so far. -/
structure HashedFileWriter where
  out : List Nat
  hash : Nat
deriving DecidableEq, Repr

/-- A writer on an empty file. -/
def HashedFileWriter.fresh (H : Hasher) : HashedFileWriter :=
  ⟨[], H.start⟩

/-- Appends the bytes and updates the hash. -/
def HashedFileWriter.Write (H : Hasher) (w : HashedFileWriter) (data : List Nat) :
    HashedFileWriter :=
  ⟨w.out ++ data, H.run w.hash data⟩

/-- The member `WriteValue` at a 64-bit value: appends its raw little-endian bytes and
updates the hash. -/
def HashedFileWriter.WriteValue (H : Hasher) (w : HashedFileWriter) (v : Nat) :
    HashedFileWriter :=
  w.Write H (leBytes 8 v)

/-- Modelled from the spec: `HashedFileReader` (`durability/hashed_file_reader.hpp`, not among
the sources): the dual of the writer, a sequential reader that keeps the same hash over the
bytes consumed. `input` holds the bytes not yet consumed. -/
structure HashedFileReader where
  input : List Nat
  hash : Nat
deriving DecidableEq, Repr

/-- A reader positioned at the start of the bytes `bs`. -/
def HashedFileReader.fresh (H : Hasher) (bs : List Nat) : HashedFileReader :=
  ⟨bs, H.start⟩

/-- Reads `n` bytes. On a short read the stream is exhausted and the read fails; otherwise the
bytes are consumed and, when `hashed`, absorbed into the hash. -/
def HashedFileReader.Read (H : Hasher) (n : Nat) (hashed : Bool) (r : HashedFileReader) :
    Option (List Nat) × HashedFileReader :=
  if n ≤ r.input.length then
    (some (r.input.take n),
      ⟨r.input.drop n, if hashed then H.run r.hash (r.input.take n) else r.hash⟩)
  else (none, ⟨[], r.hash⟩)

/-- The member `ReadType` at a 64-bit value: eight raw little-endian bytes. -/
def HashedFileReader.ReadType (H : Hasher) (hashed : Bool) (r : HashedFileReader) :
    Option Nat × HashedFileReader :=
  match r.Read H 8 hashed with
  | (some bs, r') => (some (leValue bs), r')
  | (none, r') => (none, r')

end durability

/-! ## Property values and the primitive codec -/

/-- The value of a property (`storage/property_value.hpp`, not among the sources), with the
variants the spec lists: Null, Bool, Int, Float, String, List and Map. A double is held as its
64-bit pattern. A map is held as the list of its entries in iteration order. -/
inductive PropertyValue where
  | null
  | bool (b : Bool)
  | int (i : Int)
  | double (bits : Nat)
  | string (s : List Nat)
  | list (vs : List PropertyValue)
  | map (kvs : List (List Nat × PropertyValue))
deriving Repr

/-- The value a decoder hands out (`communication::bolt::DecodedValue`). The codec of this
development produces the seven property kinds only, so the decoded value is represented by
the property value it converts to. -/
abbrev DecodedValue := PropertyValue

namespace communication.bolt

open durability

/-! ### Encoding

Modelled from the spec: the primitive encoder (`communication/bolt/v1/encoder/primitive_encoder.hpp`)
is not among the sources. The spec asks for typed, self-describing values: a one-byte tag, then
the payload; strings, lists and maps carry their size before their content. The tag values and
the size classes are those of the Bolt v1 wire format that the include path names; payloads and
sizes are big-endian. -/

/-- Marker bytes of the scalar types. -/
def Marker.Null : Nat := 0xC0
def Marker.Float64 : Nat := 0xC1
def Marker.False : Nat := 0xC2
def Marker.True : Nat := 0xC3
def Marker.Int64 : Nat := 0xCB

/-- The three sized types. -/
inductive Sized where
  | String
  | List
  | Map
deriving DecidableEq, Repr

/-- Marker of a sized value below 16 elements; the size is added to it. -/
def MarkerTiny : Sized → Nat
  | .String => 0x80
  | .List => 0x90
  | .Map => 0xA0

/-- Marker announcing a one-byte size. -/
def Marker8 : Sized → Nat
  | .String => 0xD0
  | .List => 0xD4
  | .Map => 0xD8

/-- Marker announcing a two-byte size. -/
def Marker16 : Sized → Nat
  | .String => 0xD1
  | .List => 0xD5
  | .Map => 0xD9

/-- Marker announcing a four-byte size. -/
def Marker32 : Sized → Nat
  | .String => 0xD2
  | .List => 0xD6
  | .Map => 0xDA

/-- Bytes of `WriteInt`: the 64-bit marker, then the two's complement payload. -/
def encodeInt (i : Int) : List Nat :=
  Marker.Int64 :: beBytes 8 (toUInt64 i)

/-- Bytes of `WriteTypeSize`: the smallest size class that holds `size`. -/
def encodeTypeSize (size : Nat) (typ : Sized) : List Nat :=
  if size ≤ 15 then [MarkerTiny typ + size]
  else if size ≤ 255 then [Marker8 typ, size]
  else if size ≤ 65535 then Marker16 typ :: beBytes 2 size
  else Marker32 typ :: beBytes 4 size

/-- Bytes of `WriteString`: the size, then the bytes of the string. -/
def encodeString (s : List Nat) : List Nat :=
  encodeTypeSize s.length .String ++ s

mutual
/-- Bytes of `WritePropertyValue`. -/
def encodePropertyValue : PropertyValue → List Nat
  | .null => [Marker.Null]
  | .bool b => [if b then Marker.True else Marker.False]
  | .int i => encodeInt i
  | .double bits => Marker.Float64 :: beBytes 8 bits
  | .string s => encodeString s
  | .list vs => encodeTypeSize vs.length .List ++ encodeValues vs
  | .map kvs => encodeTypeSize kvs.length .Map ++ encodeEntries kvs
/-- The elements of a list, one after the other. -/
def encodeValues : List PropertyValue → List Nat
  | [] => []
  | v :: vs => encodePropertyValue v ++ encodeValues vs
/-- The entries of a map, each as its key string and its value. -/
def encodeEntries : List (List Nat × PropertyValue) → List Nat
  | [] => []
  | (k, v) :: kvs => encodeString k ++ encodePropertyValue v ++ encodeEntries kvs
end

/-- The primitive encoder over a hashed writer: `WriteInt`. -/
def PrimitiveEncoder.WriteInt (H : Hasher) (w : HashedFileWriter) (value : Int) :
    HashedFileWriter :=
  w.Write H (encodeInt value)

/-- The primitive encoder over a hashed writer: `WriteString`. -/
def PrimitiveEncoder.WriteString (H : Hasher) (w : HashedFileWriter) (value : List Nat) :
    HashedFileWriter :=
  w.Write H (encodeString value)

/-- The primitive encoder over a hashed writer: `WritePropertyValue`. -/
def PrimitiveEncoder.WritePropertyValue (H : Hasher) (w : HashedFileWriter)
    (value : PropertyValue) : HashedFileWriter :=
  w.Write H (encodePropertyValue value)

/-! ### Decoding -/

/-- What a decoding step may raise. -/
inductive DecodeError where
  | DecodedValueException
  | ifstream_failure
deriving DecidableEq, Repr

/-- How a decoding step ends: control goes on with a value, the step gives up (a reader
returns `false`, `Decode` returns `nullopt`), or an exception propagates. -/
inductive Flow (α : Type) where
  | next (a : α)
  | failed
  | raised (e : DecodeError)
deriving Repr

/-- A decoding step over the hashed reader. -/
def DecodeM (α : Type) : Type :=
  HashedFileReader → Flow α × HashedFileReader

/-- Sequencing of decoding steps: the second runs only when the first went on. -/
def DecodeM.bind {α β : Type} (m : DecodeM α) (f : α → DecodeM β) : DecodeM β :=
  fun r =>
    match m r with
    | (.next a, r') => f a r'
    | (.failed, r') => (.failed, r')
    | (.raised e, r') => (.raised e, r')

instance : Monad DecodeM where
  pure a := fun r => (.next a, r)
  bind := DecodeM.bind

/-- The step that gives up. -/
def DecodeM.fail {α : Type} : DecodeM α :=
  fun r => (.failed, r)

/-- The step that raises `e`. -/
def DecodeM.raise {α : Type} (e : DecodeError) : DecodeM α :=
  fun r => (.raised e, r)

/-- Reads `n` hashed bytes from the stream. -/
def readBytes (H : Hasher) (n : Nat) : DecodeM (List Nat) :=
  fun r =>
    match r.Read H n true with
    | (some bs, r') => (.next bs, r')
    | (none, r') => (.failed, r')

/-- Runs `step` `n` times and collects the results in order. -/
def readN {α : Type} (step : DecodeM α) : Nat → DecodeM (List α)
  | 0 => pure []
  | n + 1 => do
    let a ← step
    let as ← readN step n
    pure (a :: as)

/-- The sized type and the size class a marker byte announces: the size itself for a tiny
marker, otherwise the number of size bytes that follow. -/
def sizeClass (m : Nat) : Option (Sized × (Nat ⊕ Nat)) :=
  if 0x80 ≤ m ∧ m ≤ 0x8F then some (.String, .inl (m - 0x80))
  else if 0x90 ≤ m ∧ m ≤ 0x9F then some (.List, .inl (m - 0x90))
  else if 0xA0 ≤ m ∧ m ≤ 0xAF then some (.Map, .inl (m - 0xA0))
  else if m = 0xD0 then some (.String, .inr 1)
  else if m = 0xD1 then some (.String, .inr 2)
  else if m = 0xD2 then some (.String, .inr 4)
  else if m = 0xD4 then some (.List, .inr 1)
  else if m = 0xD5 then some (.List, .inr 2)
  else if m = 0xD6 then some (.List, .inr 4)
  else if m = 0xD8 then some (.Map, .inr 1)
  else if m = 0xD9 then some (.Map, .inr 2)
  else if m = 0xDA then some (.Map, .inr 4)
  else none

/-- Reads the size of a sized value of the given class. -/
def readSize (H : Hasher) : Nat ⊕ Nat → DecodeM Nat
  | .inl n => pure n
  | .inr k => do
    let bs ← readBytes H k
    pure (beValue bs)

/-- A map entry: a value that must be a string, then a value. -/
def readEntry (value : DecodeM DecodedValue) : DecodeM (List Nat × DecodedValue) := do
  let k ← value
  match k with
  | .string s => do
    let v ← value
    pure (s, v)
  | _ => DecodeM.fail

/-- The decoder's `ReadValue` with a bound on the nesting depth: reads the marker byte and
dispatches on it. It gives up on a short read and on a marker that announces none of the
values the encoder writes. -/
def readValueAux (H : Hasher) : Nat → DecodeM DecodedValue
  | 0 => DecodeM.fail
  | fuel + 1 => do
    let mb ← readBytes H 1
    let m := mb.headD 0
    if m = Marker.Null then pure .null
    else if m = Marker.False then pure (.bool false)
    else if m = Marker.True then pure (.bool true)
    else if m = Marker.Int64 then do
      let bs ← readBytes H 8
      pure (.int (toInt64 (beValue bs)))
    else if m = Marker.Float64 then do
      let bs ← readBytes H 8
      pure (.double (beValue bs))
    else
      match sizeClass m with
      | none => DecodeM.fail
      | some (typ, cls) => do
        let n ← readSize H cls
        match typ with
        | .String => do
          let s ← readBytes H n
          pure (.string s)
        | .List => do
          let vs ← readN (readValueAux H fuel) n
          pure (.list vs)
        | .Map => do
          let kvs ← readN (readEntry (readValueAux H fuel)) n
          pure (.map kvs)

/-- The decoder's `ReadValue`. Every level of nesting consumes a marker byte, so a depth
bound above the number of bytes left never cuts a value short. -/
def Decoder.ReadValue (H : Hasher) : DecodeM DecodedValue :=
  fun r => readValueAux H (r.input.length + 1) r

/-- The accessor `ValueInt` of a decoded value: raises when the value is not an integer. -/
def ValueInt : DecodedValue → DecodeM Int
  | .int i => pure i
  | _ => DecodeM.raise .DecodedValueException

/-- The accessor `ValueString` of a decoded value: raises when the value is not a string. -/
def ValueString : DecodedValue → DecodeM (List Nat)
  | .string s => pure s
  | _ => DecodeM.raise .DecodedValueException

end communication.bolt

namespace database

open durability communication.bolt

/-! ## The record -/

/-- The enumeration `StateDelta::Type`, in declaration order (values 0 to 15). An object of the
enumeration can hold any value of its underlying type `int`; `unknown v` stands for a value `v`
outside the enumerators. -/
inductive DeltaType where
  | TRANSACTION_BEGIN
  | TRANSACTION_COMMIT
  | TRANSACTION_ABORT
  | CREATE_VERTEX
  | CREATE_EDGE
  | ADD_OUT_EDGE
  | REMOVE_OUT_EDGE
  | ADD_IN_EDGE
  | REMOVE_IN_EDGE
  | SET_PROPERTY_VERTEX
  | SET_PROPERTY_EDGE
  | ADD_LABEL
  | REMOVE_LABEL
  | REMOVE_VERTEX
  | REMOVE_EDGE
  | BUILD_INDEX
  | unknown (v : Int)
deriving DecidableEq, Repr

/-- The conversion `static_cast<int64_t>(type)`. -/
def DeltaType.toInt64 : DeltaType → Int
  | .TRANSACTION_BEGIN => 0
  | .TRANSACTION_COMMIT => 1
  | .TRANSACTION_ABORT => 2
  | .CREATE_VERTEX => 3
  | .CREATE_EDGE => 4
  | .ADD_OUT_EDGE => 5
  | .REMOVE_OUT_EDGE => 6
  | .ADD_IN_EDGE => 7
  | .REMOVE_IN_EDGE => 8
  | .SET_PROPERTY_VERTEX => 9
  | .SET_PROPERTY_EDGE => 10
  | .ADD_LABEL => 11
  | .REMOVE_LABEL => 12
  | .REMOVE_VERTEX => 13
  | .REMOVE_EDGE => 14
  | .BUILD_INDEX => 15
  | .unknown v => v

/-- The signed 32-bit value a 64-bit integer narrows to. -/
def toInt32 (i : Int) : Int :=
  if i % 2 ^ 32 < 2 ^ 31 then i % 2 ^ 32 else i % 2 ^ 32 - 2 ^ 32

/-- The conversion `static_cast<enum StateDelta::Type>(i)` of a 64-bit integer: the value is
narrowed to the underlying type and is not checked against the enumerators. -/
def DeltaType.ofInt64 (i : Int) : DeltaType :=
  let v := toInt32 i
  if v = 0 then .TRANSACTION_BEGIN
  else if v = 1 then .TRANSACTION_COMMIT
  else if v = 2 then .TRANSACTION_ABORT
  else if v = 3 then .CREATE_VERTEX
  else if v = 4 then .CREATE_EDGE
  else if v = 5 then .ADD_OUT_EDGE
  else if v = 6 then .REMOVE_OUT_EDGE
  else if v = 7 then .ADD_IN_EDGE
  else if v = 8 then .REMOVE_IN_EDGE
  else if v = 9 then .SET_PROPERTY_VERTEX
  else if v = 10 then .SET_PROPERTY_EDGE
  else if v = 11 then .ADD_LABEL
  else if v = 12 then .REMOVE_LABEL
  else if v = 13 then .REMOVE_VERTEX
  else if v = 14 then .REMOVE_EDGE
  else if v = 15 then .BUILD_INDEX
  else .unknown v

/-- The struct `StateDelta`: one record holds every possible field and `type` selects the ones
that are meaningful. Transaction ids, gids and addresses (their raw storage) are unsigned
64-bit values. The storage type of `storage::EdgeType`, `storage::Property` and
`storage::Label` is declared outside the sources; these are unsigned values of at most 64
bits and are held at 64 bits. -/
structure StateDelta where
  type : DeltaType
  transaction_id : Nat
  vertex_id : Nat
  edge_id : Nat
  edge_address : Nat
  vertex_from_id : Nat
  vertex_from_address : Nat
  vertex_to_id : Nat
  vertex_to_address : Nat
  edge_type : Nat
  edge_type_name : List Nat
  property : Nat
  property_name : List Nat
  value : PropertyValue
  label : Nat
  label_name : List Nat
deriving Repr

/-- The constructor `StateDelta(type, tx_id)`: the remaining members are default-initialised;
the integer members, which the source leaves indeterminate, are held at zero. The zero is a
value of the model only: what is stated of the code observes the members that the code
assigns. -/
def StateDelta.init (type : DeltaType) (tx_id : Nat) : StateDelta :=
  { type := type, transaction_id := tx_id, vertex_id := 0, edge_id := 0, edge_address := 0,
    vertex_from_id := 0, vertex_from_address := 0, vertex_to_id := 0, vertex_to_address := 0,
    edge_type := 0, edge_type_name := [], property := 0, property_name := [],
    value := .null, label := 0, label_name := [] }

/-! ## Factories -/

def StateDelta.TxBegin (tx_id : Nat) : StateDelta :=
  StateDelta.init .TRANSACTION_BEGIN tx_id

def StateDelta.TxCommit (tx_id : Nat) : StateDelta :=
  StateDelta.init .TRANSACTION_COMMIT tx_id

def StateDelta.TxAbort (tx_id : Nat) : StateDelta :=
  StateDelta.init .TRANSACTION_ABORT tx_id

def StateDelta.CreateVertex (tx_id vertex_id : Nat) : StateDelta :=
  { StateDelta.init .CREATE_VERTEX tx_id with vertex_id := vertex_id }

def StateDelta.CreateEdge (tx_id edge_id vertex_from_id vertex_to_id edge_type : Nat)
    (edge_type_name : List Nat) : StateDelta :=
  { StateDelta.init .CREATE_EDGE tx_id with
    edge_id := edge_id, vertex_from_id := vertex_from_id, vertex_to_id := vertex_to_id,
    edge_type := edge_type, edge_type_name := edge_type_name }

/-- The factory `AddOutEdge`. `is_remote` is the member of `storage::Address` (declared outside
the sources) that tells a global address from a local one by its raw storage. A failed `CHECK`
ends the program: no delta is produced. -/
def StateDelta.AddOutEdge (is_remote : Nat → Bool) (tx_id vertex_id vertex_to_address
    edge_address edge_type : Nat) : Option StateDelta :=
  if is_remote vertex_to_address && is_remote edge_address then
    some { StateDelta.init .ADD_OUT_EDGE tx_id with
      vertex_id := vertex_id, vertex_to_address := vertex_to_address,
      edge_address := edge_address, edge_type := edge_type }
  else none

/-- The factory `RemoveOutEdge`; the `CHECK` is on the edge address. -/
def StateDelta.RemoveOutEdge (is_remote : Nat → Bool) (tx_id vertex_id edge_address : Nat) :
    Option StateDelta :=
  if is_remote edge_address then
    some { StateDelta.init .REMOVE_OUT_EDGE tx_id with
      vertex_id := vertex_id, edge_address := edge_address }
  else none

/-- The factory `AddInEdge`; the `CHECK` is on both addresses. -/
def StateDelta.AddInEdge (is_remote : Nat → Bool) (tx_id vertex_id vertex_from_address
    edge_address edge_type : Nat) : Option StateDelta :=
  if is_remote vertex_from_address && is_remote edge_address then
    some { StateDelta.init .ADD_IN_EDGE tx_id with
      vertex_id := vertex_id, vertex_from_address := vertex_from_address,
      edge_address := edge_address, edge_type := edge_type }
  else none

/-- The factory `RemoveInEdge`; the `CHECK` is on the edge address. -/
def StateDelta.RemoveInEdge (is_remote : Nat → Bool) (tx_id vertex_id edge_address : Nat) :
    Option StateDelta :=
  if is_remote edge_address then
    some { StateDelta.init .REMOVE_IN_EDGE tx_id with
      vertex_id := vertex_id, edge_address := edge_address }
  else none

def StateDelta.PropsSetVertex (tx_id vertex_id property : Nat) (property_name : List Nat)
    (value : PropertyValue) : StateDelta :=
  { StateDelta.init .SET_PROPERTY_VERTEX tx_id with
    vertex_id := vertex_id, property := property, property_name := property_name,
    value := value }

def StateDelta.PropsSetEdge (tx_id edge_id property : Nat) (property_name : List Nat)
    (value : PropertyValue) : StateDelta :=
  { StateDelta.init .SET_PROPERTY_EDGE tx_id with
    edge_id := edge_id, property := property, property_name := property_name, value := value }

def StateDelta.AddLabel (tx_id vertex_id label : Nat) (label_name : List Nat) : StateDelta :=
  { StateDelta.init .ADD_LABEL tx_id with
    vertex_id := vertex_id, label := label, label_name := label_name }

def StateDelta.RemoveLabel (tx_id vertex_id label : Nat) (label_name : List Nat) :
    StateDelta :=
  { StateDelta.init .REMOVE_LABEL tx_id with
    vertex_id := vertex_id, label := label, label_name := label_name }

def StateDelta.RemoveVertex (tx_id vertex_id : Nat) : StateDelta :=
  { StateDelta.init .REMOVE_VERTEX tx_id with vertex_id := vertex_id }

def StateDelta.RemoveEdge (tx_id edge_id : Nat) : StateDelta :=
  { StateDelta.init .REMOVE_EDGE tx_id with edge_id := edge_id }

def StateDelta.BuildIndex (tx_id label : Nat) (label_name : List Nat) (property : Nat)
    (property_name : List Nat) : StateDelta :=
  { StateDelta.init .BUILD_INDEX tx_id with
    label := label, label_name := label_name, property := property,
    property_name := property_name }

/-! ## Encode -/

/-- The switch of `StateDelta::Encode`: the fields written for the type of the delta. -/
def StateDelta.EncodeFields (H : Hasher) (d : StateDelta) (w : HashedFileWriter) :
    HashedFileWriter :=
  match d.type with
  | .TRANSACTION_BEGIN => w
  | .TRANSACTION_COMMIT => w
  | .TRANSACTION_ABORT => w
  | .CREATE_VERTEX => PrimitiveEncoder.WriteInt H w (toInt64 d.vertex_id)
  | .CREATE_EDGE =>
    let w := PrimitiveEncoder.WriteInt H w (toInt64 d.edge_id)
    let w := PrimitiveEncoder.WriteInt H w (toInt64 d.vertex_from_id)
    let w := PrimitiveEncoder.WriteInt H w (toInt64 d.vertex_to_id)
    let w := PrimitiveEncoder.WriteInt H w (toInt64 d.edge_type)
    PrimitiveEncoder.WriteString H w d.edge_type_name
  | .ADD_OUT_EDGE =>
    let w := PrimitiveEncoder.WriteInt H w (toInt64 d.vertex_id)
    let w := PrimitiveEncoder.WriteInt H w (toInt64 d.vertex_to_address)
    let w := PrimitiveEncoder.WriteInt H w (toInt64 d.edge_address)
    PrimitiveEncoder.WriteInt H w (toInt64 d.edge_type)
  | .REMOVE_OUT_EDGE =>
    let w := PrimitiveEncoder.WriteInt H w (toInt64 d.vertex_id)
    PrimitiveEncoder.WriteInt H w (toInt64 d.edge_address)
  | .ADD_IN_EDGE =>
    let w := PrimitiveEncoder.WriteInt H w (toInt64 d.vertex_id)
    let w := PrimitiveEncoder.WriteInt H w (toInt64 d.vertex_from_address)
    let w := PrimitiveEncoder.WriteInt H w (toInt64 d.edge_address)
    PrimitiveEncoder.WriteInt H w (toInt64 d.edge_type)
  | .REMOVE_IN_EDGE =>
    let w := PrimitiveEncoder.WriteInt H w (toInt64 d.vertex_id)
    PrimitiveEncoder.WriteInt H w (toInt64 d.edge_address)
  | .SET_PROPERTY_VERTEX =>
    let w := PrimitiveEncoder.WriteInt H w (toInt64 d.vertex_id)
    let w := PrimitiveEncoder.WriteInt H w (toInt64 d.property)
    let w := PrimitiveEncoder.WriteString H w d.property_name
    PrimitiveEncoder.WritePropertyValue H w d.value
  | .SET_PROPERTY_EDGE =>
    let w := PrimitiveEncoder.WriteInt H w (toInt64 d.edge_id)
    let w := PrimitiveEncoder.WriteInt H w (toInt64 d.property)
    let w := PrimitiveEncoder.WriteString H w d.property_name
    PrimitiveEncoder.WritePropertyValue H w d.value
  | .ADD_LABEL =>
    let w := PrimitiveEncoder.WriteInt H w (toInt64 d.vertex_id)
    let w := PrimitiveEncoder.WriteInt H w (toInt64 d.label)
    PrimitiveEncoder.WriteString H w d.label_name
  | .REMOVE_LABEL =>
    let w := PrimitiveEncoder.WriteInt H w (toInt64 d.vertex_id)
    let w := PrimitiveEncoder.WriteInt H w (toInt64 d.label)
    PrimitiveEncoder.WriteString H w d.label_name
  | .REMOVE_VERTEX => PrimitiveEncoder.WriteInt H w (toInt64 d.vertex_id)
  | .REMOVE_EDGE => PrimitiveEncoder.WriteInt H w (toInt64 d.edge_id)
  | .BUILD_INDEX =>
    let w := PrimitiveEncoder.WriteInt H w (toInt64 d.label)
    let w := PrimitiveEncoder.WriteString H w d.label_name
    let w := PrimitiveEncoder.WriteInt H w (toInt64 d.property)
    PrimitiveEncoder.WriteString H w d.property_name
  | .unknown _ => w

/-- The member `StateDelta::Encode`: the type, the transaction id, the fields of the type,
then the hash of the writer as a raw 64-bit value. -/
def StateDelta.Encode (H : Hasher) (d : StateDelta) (writer : HashedFileWriter) :
    HashedFileWriter :=
  let w := PrimitiveEncoder.WriteInt H writer d.type.toInt64
  let w := PrimitiveEncoder.WriteInt H w (toInt64 d.transaction_id)
  let w := d.EncodeFields H w
  w.WriteValue H w.hash

/-! ## Decode -/

/-- The macro `DECODE_MEMBER(member, ValueInt)` and `DECODE_MEMBER_CAST(member, ValueInt, T)`:
returns `nullopt` when no value can be read, raises when the value is not an integer, and
converts the 64-bit integer to the unsigned member. -/
def DECODE_MEMBER_INT (H : Hasher) : DecodeM Nat := do
  let dv ← Decoder.ReadValue H
  let i ← ValueInt dv
  pure (toUInt64 i)

/-- The macro `DECODE_MEMBER(member, ValueString)`. -/
def DECODE_MEMBER_STRING (H : Hasher) : DecodeM (List Nat) := do
  let dv ← Decoder.ReadValue H
  ValueString dv

/-- The two statements that read the property value: returns `nullopt` when no value can be
read, then converts the decoded value to a `PropertyValue`. -/
def DECODE_VALUE (H : Hasher) : DecodeM PropertyValue := do
  let dv ← Decoder.ReadValue H
  pure dv

/-- The switch of `StateDelta::Decode`: the members read for the type decoded so far. -/
def StateDelta.DecodeFields (H : Hasher) (r_val : StateDelta) : DecodeM StateDelta :=
  match r_val.type with
  | .TRANSACTION_BEGIN => pure r_val
  | .TRANSACTION_COMMIT => pure r_val
  | .TRANSACTION_ABORT => pure r_val
  | .CREATE_VERTEX => do
    let vertex_id ← DECODE_MEMBER_INT H
    pure { r_val with vertex_id := vertex_id }
  | .CREATE_EDGE => do
    let edge_id ← DECODE_MEMBER_INT H
    let vertex_from_id ← DECODE_MEMBER_INT H
    let vertex_to_id ← DECODE_MEMBER_INT H
    let edge_type ← DECODE_MEMBER_INT H
    let edge_type_name ← DECODE_MEMBER_STRING H
    pure { r_val with edge_id := edge_id, vertex_from_id := vertex_from_id,
                      vertex_to_id := vertex_to_id, edge_type := edge_type,
                      edge_type_name := edge_type_name }
  | .ADD_OUT_EDGE => do
    let vertex_id ← DECODE_MEMBER_INT H
    let vertex_to_address ← DECODE_MEMBER_INT H
    let edge_address ← DECODE_MEMBER_INT H
    let edge_type ← DECODE_MEMBER_INT H
    pure { r_val with vertex_id := vertex_id, vertex_to_address := vertex_to_address,
                      edge_address := edge_address, edge_type := edge_type }
  | .REMOVE_OUT_EDGE => do
    let vertex_id ← DECODE_MEMBER_INT H
    let edge_address ← DECODE_MEMBER_INT H
    pure { r_val with vertex_id := vertex_id, edge_address := edge_address }
  | .ADD_IN_EDGE => do
    let vertex_id ← DECODE_MEMBER_INT H
    let vertex_from_address ← DECODE_MEMBER_INT H
    let edge_address ← DECODE_MEMBER_INT H
    let edge_type ← DECODE_MEMBER_INT H
    pure { r_val with vertex_id := vertex_id, vertex_from_address := vertex_from_address,
                      edge_address := edge_address, edge_type := edge_type }
  | .REMOVE_IN_EDGE => do
    let vertex_id ← DECODE_MEMBER_INT H
    let edge_address ← DECODE_MEMBER_INT H
    pure { r_val with vertex_id := vertex_id, edge_address := edge_address }
  | .SET_PROPERTY_VERTEX => do
    let vertex_id ← DECODE_MEMBER_INT H
    let property ← DECODE_MEMBER_INT H
    let property_name ← DECODE_MEMBER_STRING H
    let value ← DECODE_VALUE H
    pure { r_val with vertex_id := vertex_id, property := property,
                      property_name := property_name, value := value }
  | .SET_PROPERTY_EDGE => do
    let edge_id ← DECODE_MEMBER_INT H
    let property ← DECODE_MEMBER_INT H
    let property_name ← DECODE_MEMBER_STRING H
    let value ← DECODE_VALUE H
    pure { r_val with edge_id := edge_id, property := property,
                      property_name := property_name, value := value }
  | .ADD_LABEL => do
    let vertex_id ← DECODE_MEMBER_INT H
    let label ← DECODE_MEMBER_INT H
    let label_name ← DECODE_MEMBER_STRING H
    pure { r_val with vertex_id := vertex_id, label := label, label_name := label_name }
  | .REMOVE_LABEL => do
    let vertex_id ← DECODE_MEMBER_INT H
    let label ← DECODE_MEMBER_INT H
    let label_name ← DECODE_MEMBER_STRING H
    pure { r_val with vertex_id := vertex_id, label := label, label_name := label_name }
  | .REMOVE_VERTEX => do
    let vertex_id ← DECODE_MEMBER_INT H
    pure { r_val with vertex_id := vertex_id }
  | .REMOVE_EDGE => do
    let edge_id ← DECODE_MEMBER_INT H
    pure { r_val with edge_id := edge_id }
  | .BUILD_INDEX => do
    let label ← DECODE_MEMBER_INT H
    let label_name ← DECODE_MEMBER_STRING H
    let property ← DECODE_MEMBER_INT H
    let property_name ← DECODE_MEMBER_STRING H
    pure { r_val with label := label, label_name := label_name, property := property,
                      property_name := property_name }
  | .unknown _ => pure r_val

/-- The part of `StateDelta::Decode` before the hash is verified: the type, the transaction
id and the members of the type, read into a default-constructed delta. -/
def StateDelta.DecodeRecord (H : Hasher) : DecodeM StateDelta := do
  let dv ← Decoder.ReadValue H
  let t ← ValueInt dv
  let transaction_id ← DECODE_MEMBER_INT H
  StateDelta.DecodeFields H (StateDelta.init (DeltaType.ofInt64 t) transaction_id)

/-- The verification at the end of `StateDelta::Decode`: the hash of the reader is taken, one
raw 64-bit value is read (and hashed), and the two are compared. -/
def StateDelta.VerifyHash (H : Hasher) : DecodeM Unit :=
  fun reader =>
    let decoder_hash := reader.hash
    match reader.ReadType H true with
    | (none, reader') => (.failed, reader')
    | (some encoded_hash, reader') =>
      if decoder_hash ≠ encoded_hash then (.failed, reader') else (.next (), reader')

/-- The body of the `try` block of `StateDelta::Decode`. -/
def StateDelta.DecodeBody (H : Hasher) : DecodeM StateDelta := do
  let r_val ← StateDelta.DecodeRecord H
  StateDelta.VerifyHash H
  pure r_val

/-- The function `StateDelta::Decode`: the delta read from the reader, or `nullopt`; both
exceptions are caught and turned into `nullopt`. The reader is returned as the call leaves
it. -/
def StateDelta.Decode (H : Hasher) (reader : HashedFileReader) :
    Option StateDelta × HashedFileReader :=
  match StateDelta.DecodeBody H reader with
  | (.next r_val, reader') => (some r_val, reader')
  | (.failed, reader') => (none, reader')
  | (.raised .DecodedValueException, reader') => (none, reader')
  | (.raised .ifstream_failure, reader') => (none, reader')

/-! ## Apply -/

/-- One call on the database accessor, with its arguments. `V` and `E` are the vertex and edge
accessors that the lookups hand out. -/
inductive DbaCall (V E : Type) where
  | InsertVertex (gid : Nat)
  | FindVertex (gid : Nat) (current_state : Bool)
  | FindEdge (gid : Nat) (current_state : Bool)
  | EdgeType (name : List Nat)
  | Property (name : List Nat)
  | Label (name : List Nat)
  | InsertEdge (src dst : V) (edge_type : Nat) (gid : Nat)
  | VertexPropsSet (vertex : V) (property : Nat) (value : PropertyValue)
  | EdgePropsSet (edge : E) (property : Nat) (value : PropertyValue)
  | add_label (vertex : V) (label : Nat)
  | remove_label (vertex : V) (label : Nat)
  | DetachRemoveVertex (vertex : V)
  | RemoveEdge (edge : E)

/-- Modelled from the spec: `GraphDbAccessor` (`database/graph_db_accessor.hpp`, not among the
sources) as the capability set the spec names: vertex and edge insertion and removal, lookup by
id, property set, label add and remove, and the name-to-id mappers. `σ` is the state of the
database behind the accessor. -/
structure GraphDbAccessor (σ V E : Type) where
  InsertVertex : σ → Nat → σ
  FindVertex : σ → Nat → Bool → Option V
  FindEdge : σ → Nat → Bool → Option E
  EdgeType : σ → List Nat → Nat × σ
  Property : σ → List Nat → Nat × σ
  Label : σ → List Nat → Nat × σ
  InsertEdge : σ → V → V → Nat → Nat → σ
  VertexPropsSet : σ → V → Nat → PropertyValue → σ
  EdgePropsSet : σ → E → Nat → PropertyValue → σ
  add_label : σ → V → Nat → σ
  remove_label : σ → V → Nat → σ
  DetachRemoveVertex : σ → V → σ
  RemoveEdge : σ → E → σ

/-- How a call of `Apply` ends: it returns, the program is ended by `LOG(FATAL)` or a failed
`DCHECK`, or an empty optional is dereferenced (a failed `DCHECK` in a build without them). -/
inductive ApplyOutcome where
  | returned
  | fatal
  | undefined
deriving DecidableEq, Repr

/-- What a call of `Apply` did: how it ended, the state of the database, and the accessor calls
it made, in order. -/
structure ApplyResult (σ V E : Type) where
  outcome : ApplyOutcome
  state : σ
  calls : List (DbaCall V E)

/-- The outcome of `DCHECK(x)` on an empty optional `x`: fatal where `DCHECK` is compiled in
(`dcheck`), the dereference of an empty optional otherwise. -/
def dcheckFailed (dcheck : Bool) : ApplyOutcome :=
  if dcheck then .fatal else .undefined

/-- The member `StateDelta::Apply` on an accessor `dba` over the database state `s`.
`LOG(FATAL)` ends the program, so control never leaves a case through it. -/
def StateDelta.Apply {σ V E : Type} (dcheck : Bool) (dba : GraphDbAccessor σ V E)
    (d : StateDelta) (s : σ) : ApplyResult σ V E :=
  match d.type with
  | .TRANSACTION_BEGIN => ⟨.fatal, s, []⟩
  | .TRANSACTION_COMMIT => ⟨.fatal, s, []⟩
  | .TRANSACTION_ABORT => ⟨.fatal, s, []⟩
  | .CREATE_VERTEX =>
    ⟨.returned, dba.InsertVertex s d.vertex_id, [.InsertVertex d.vertex_id]⟩
  | .CREATE_EDGE =>
    let lookups : List (DbaCall V E) :=
      [.FindVertex d.vertex_from_id true, .FindVertex d.vertex_to_id true]
    match dba.FindVertex s d.vertex_from_id true, dba.FindVertex s d.vertex_to_id true with
    | some src, some dst =>
      let (et, s1) := dba.EdgeType s d.edge_type_name
      ⟨.returned, dba.InsertEdge s1 src dst et d.edge_id,
        lookups ++ [.EdgeType d.edge_type_name, .InsertEdge src dst et d.edge_id]⟩
    | _, _ => ⟨dcheckFailed dcheck, s, lookups⟩
  | .ADD_OUT_EDGE => ⟨.fatal, s, []⟩
  | .REMOVE_OUT_EDGE => ⟨.fatal, s, []⟩
  | .ADD_IN_EDGE => ⟨.fatal, s, []⟩
  | .REMOVE_IN_EDGE => ⟨.fatal, s, []⟩
  | .SET_PROPERTY_VERTEX =>
    match dba.FindVertex s d.vertex_id true with
    | some vertex =>
      let (p, s1) := dba.Property s d.property_name
      ⟨.returned, dba.VertexPropsSet s1 vertex p d.value,
        [.FindVertex d.vertex_id true, .Property d.property_name,
          .VertexPropsSet vertex p d.value]⟩
    | none => ⟨dcheckFailed dcheck, s, [.FindVertex d.vertex_id true]⟩
  | .SET_PROPERTY_EDGE =>
    match dba.FindEdge s d.edge_id true with
    | some edge =>
      let (p, s1) := dba.Property s d.property_name
      ⟨.returned, dba.EdgePropsSet s1 edge p d.value,
        [.FindEdge d.edge_id true, .Property d.property_name, .EdgePropsSet edge p d.value]⟩
    | none => ⟨dcheckFailed dcheck, s, [.FindEdge d.edge_id true]⟩
  | .ADD_LABEL =>
    match dba.FindVertex s d.vertex_id true with
    | some vertex =>
      let (l, s1) := dba.Label s d.label_name
      ⟨.returned, dba.add_label s1 vertex l,
        [.FindVertex d.vertex_id true, .Label d.label_name, .add_label vertex l]⟩
    | none => ⟨dcheckFailed dcheck, s, [.FindVertex d.vertex_id true]⟩
  | .REMOVE_LABEL =>
    match dba.FindVertex s d.vertex_id true with
    | some vertex =>
      let (l, s1) := dba.Label s d.label_name
      ⟨.returned, dba.remove_label s1 vertex l,
        [.FindVertex d.vertex_id true, .Label d.label_name, .remove_label vertex l]⟩
    | none => ⟨dcheckFailed dcheck, s, [.FindVertex d.vertex_id true]⟩
  | .REMOVE_VERTEX =>
    match dba.FindVertex s d.vertex_id true with
    | some vertex =>
      ⟨.returned, dba.DetachRemoveVertex s vertex,
        [.FindVertex d.vertex_id true, .DetachRemoveVertex vertex]⟩
    | none => ⟨dcheckFailed dcheck, s, [.FindVertex d.vertex_id true]⟩
  | .REMOVE_EDGE =>
    match dba.FindEdge s d.edge_id true with
    | some edge =>
      ⟨.returned, dba.RemoveEdge s edge, [.FindEdge d.edge_id true, .RemoveEdge edge]⟩
    | none => ⟨dcheckFailed dcheck, s, [.FindEdge d.edge_id true]⟩
  | .BUILD_INDEX => ⟨.fatal, s, []⟩
  | .unknown _ => ⟨.returned, s, []⟩

end database

/-! ## Well-formed inputs -/

namespace communication.bolt

/-- A marker byte that announces no scalar. -/
def notScalar (m : Nat) : Prop :=
  m ≠ Marker.Null ∧ m ≠ Marker.False ∧ m ≠ Marker.True ∧ m ≠ Marker.Int64 ∧
    m ≠ Marker.Float64

end communication.bolt

namespace database

open durability communication.bolt

mutual
/-- A property value whose integers are signed 64-bit values, whose doubles are 64-bit
patterns, and whose strings, lists and maps have sizes that the 32-bit size field of the codec
holds. -/
def wfValue : PropertyValue → Bool
  | .null => true
  | .bool _ => true
  | .int i => decide (-2 ^ 63 ≤ i) && decide (i < 2 ^ 63)
  | .double bits => decide (bits < 2 ^ 64)
  | .string s => decide (s.length < 2 ^ 32)
  | .list vs => decide (vs.length < 2 ^ 32) && wfValues vs
  | .map kvs => decide (kvs.length < 2 ^ 32) && wfEntries kvs
/-- Every element is well formed. -/
def wfValues : List PropertyValue → Bool
  | [] => true
  | v :: vs => wfValue v && wfValues vs
/-- Every key fits the size field and every value is well formed. -/
def wfEntries : List (List Nat × PropertyValue) → Bool
  | [] => true
  | (k, v) :: kvs => decide (k.length < 2 ^ 32) && wfValue v && wfEntries kvs
end

mutual
/-- The nesting depth of a value: the depth bound its decoding needs, less one. -/
def depthValue : PropertyValue → Nat
  | .null => 0
  | .bool _ => 0
  | .int _ => 0
  | .double _ => 0
  | .string _ => 0
  | .list vs => depthValues vs + 1
  | .map kvs => depthEntries kvs + 1
/-- The greatest depth among the elements. -/
def depthValues : List PropertyValue → Nat
  | [] => 0
  | v :: vs => max (depthValue v) (depthValues vs)
/-- The greatest depth among the values of the entries. -/
def depthEntries : List (List Nat × PropertyValue) → Nat
  | [] => 0
  | (_, v) :: kvs => max (depthValue v) (depthEntries kvs)
end

end database

namespace communication.bolt

open durability

/-- A step that, whenever it goes on, has consumed an initial segment of the input and has
absorbed exactly those bytes into the hash. -/
def Consumes (H : Hasher) {α : Type} (m : DecodeM α) : Prop :=
  ∀ r a r', m r = (.next a, r') →
    ∃ c, r.input = c ++ r'.input ∧ r'.hash = H.run r.hash c

/-- A step that, whenever it goes on, goes on in the same way when more bytes follow the
input. -/
def Extends {α : Type} (m : DecodeM α) : Prop :=
  ∀ r a r' q, m r = (.next a, r') →
    m ⟨r.input ++ q, r.hash⟩ = (.next a, ⟨r'.input ++ q, r'.hash⟩)

end communication.bolt

namespace communication.bolt

open durability

/-- The step `m'` goes on wherever `m` does, in the same way. -/
def Refines {α : Type} (m m' : DecodeM α) : Prop :=
  ∀ r a r', m r = (.next a, r') → m' r = (.next a, r')

end communication.bolt

namespace database

open durability communication.bolt

/-! ## The statements: inputs, required fields, streams -/

/-- One of the sixteen enumerators. -/
def DeltaType.known : DeltaType → Bool
  | .unknown _ => false
  | _ => true

/-- A delta a program can hold and the codec can carry: the type is an enumerator, the
unsigned members are 64-bit values, the names have sizes that the 32-bit size field of the
codec holds, and the property value is well formed. -/
def StateDelta.wf (d : StateDelta) : Prop :=
  d.type.known = true ∧ d.transaction_id < 2 ^ 64 ∧ d.vertex_id < 2 ^ 64 ∧ d.edge_id < 2 ^ 64 ∧
  d.edge_address < 2 ^ 64 ∧ d.vertex_from_id < 2 ^ 64 ∧ d.vertex_from_address < 2 ^ 64 ∧
  d.vertex_to_id < 2 ^ 64 ∧ d.vertex_to_address < 2 ^ 64 ∧ d.edge_type < 2 ^ 64 ∧
  d.property < 2 ^ 64 ∧ d.label < 2 ^ 64 ∧ d.edge_type_name.length < 2 ^ 32 ∧
  d.property_name.length < 2 ^ 32 ∧ d.label_name.length < 2 ^ 32 ∧ wfValue d.value = true

instance (d : StateDelta) : Decidable d.wf := by
  unfold StateDelta.wf
  infer_instance

/-- The table of the spec, "required fields beyond kind and transaction id": `r` has the type
and the transaction id of `d` and agrees with `d` on every field that the type of `d`
requires. -/
def StateDelta.agreesOnRequired (d r : StateDelta) : Prop :=
  r.type = d.type ∧ r.transaction_id = d.transaction_id ∧
  match d.type with
  | .TRANSACTION_BEGIN => True
  | .TRANSACTION_COMMIT => True
  | .TRANSACTION_ABORT => True
  | .CREATE_VERTEX => r.vertex_id = d.vertex_id
  | .CREATE_EDGE =>
    r.edge_id = d.edge_id ∧ r.vertex_from_id = d.vertex_from_id ∧
    r.vertex_to_id = d.vertex_to_id ∧ r.edge_type = d.edge_type ∧
    r.edge_type_name = d.edge_type_name
  | .ADD_OUT_EDGE =>
    r.vertex_id = d.vertex_id ∧ r.vertex_to_address = d.vertex_to_address ∧
    r.edge_address = d.edge_address ∧ r.edge_type = d.edge_type
  | .REMOVE_OUT_EDGE => r.vertex_id = d.vertex_id ∧ r.edge_address = d.edge_address
  | .ADD_IN_EDGE =>
    r.vertex_id = d.vertex_id ∧ r.vertex_from_address = d.vertex_from_address ∧
    r.edge_address = d.edge_address ∧ r.edge_type = d.edge_type
  | .REMOVE_IN_EDGE => r.vertex_id = d.vertex_id ∧ r.edge_address = d.edge_address
  | .SET_PROPERTY_VERTEX =>
    r.vertex_id = d.vertex_id ∧ r.property = d.property ∧
    r.property_name = d.property_name ∧ r.value = d.value
  | .SET_PROPERTY_EDGE =>
    r.edge_id = d.edge_id ∧ r.property = d.property ∧
    r.property_name = d.property_name ∧ r.value = d.value
  | .ADD_LABEL =>
    r.vertex_id = d.vertex_id ∧ r.label = d.label ∧ r.label_name = d.label_name
  | .REMOVE_LABEL =>
    r.vertex_id = d.vertex_id ∧ r.label = d.label ∧ r.label_name = d.label_name
  | .REMOVE_VERTEX => r.vertex_id = d.vertex_id
  | .REMOVE_EDGE => r.edge_id = d.edge_id
  | .BUILD_INDEX =>
    r.label = d.label ∧ r.label_name = d.label_name ∧ r.property = d.property ∧
    r.property_name = d.property_name
  | .unknown _ => True

/-- One value handed to the primitive encoder. -/
inductive Field where
  | Int (i : Int)
  | String (s : List Nat)
  | Value (v : PropertyValue)

/-- The bytes of one field. -/
def Field.encode : Field → List Nat
  | .Int i => encodeInt i
  | .String s => encodeString s
  | .Value v => encodePropertyValue v

/-- The bytes of a sequence of fields, in order. -/
def encodeFieldList : List Field → List Nat
  | [] => []
  | f :: fs => f.encode ++ encodeFieldList fs

/-- The schedule of the spec: the fields of each kind, in the order in which they are
written, after the type and the transaction id. -/
def StateDelta.schedule (d : StateDelta) : List Field :=
  match d.type with
  | .TRANSACTION_BEGIN => []
  | .TRANSACTION_COMMIT => []
  | .TRANSACTION_ABORT => []
  | .CREATE_VERTEX => [.Int (toInt64 d.vertex_id)]
  | .CREATE_EDGE =>
    [.Int (toInt64 d.edge_id), .Int (toInt64 d.vertex_from_id), .Int (toInt64 d.vertex_to_id),
      .Int (toInt64 d.edge_type), .String d.edge_type_name]
  | .ADD_OUT_EDGE =>
    [.Int (toInt64 d.vertex_id), .Int (toInt64 d.vertex_to_address),
      .Int (toInt64 d.edge_address), .Int (toInt64 d.edge_type)]
  | .REMOVE_OUT_EDGE => [.Int (toInt64 d.vertex_id), .Int (toInt64 d.edge_address)]
  | .ADD_IN_EDGE =>
    [.Int (toInt64 d.vertex_id), .Int (toInt64 d.vertex_from_address),
      .Int (toInt64 d.edge_address), .Int (toInt64 d.edge_type)]
  | .REMOVE_IN_EDGE => [.Int (toInt64 d.vertex_id), .Int (toInt64 d.edge_address)]
  | .SET_PROPERTY_VERTEX =>
    [.Int (toInt64 d.vertex_id), .Int (toInt64 d.property), .String d.property_name,
      .Value d.value]
  | .SET_PROPERTY_EDGE =>
    [.Int (toInt64 d.edge_id), .Int (toInt64 d.property), .String d.property_name,
      .Value d.value]
  | .ADD_LABEL => [.Int (toInt64 d.vertex_id), .Int (toInt64 d.label), .String d.label_name]
  | .REMOVE_LABEL => [.Int (toInt64 d.vertex_id), .Int (toInt64 d.label), .String d.label_name]
  | .REMOVE_VERTEX => [.Int (toInt64 d.vertex_id)]
  | .REMOVE_EDGE => [.Int (toInt64 d.edge_id)]
  | .BUILD_INDEX =>
    [.Int (toInt64 d.label), .String d.label_name, .Int (toInt64 d.property),
      .String d.property_name]
  | .unknown _ => []

/-- The bytes of a record before its hash word: the type, the transaction id, then the
schedule of the kind. -/
def StateDelta.fieldBytes (d : StateDelta) : List Nat :=
  encodeFieldList (.Int d.type.toInt64 :: .Int (toInt64 d.transaction_id) :: d.schedule)

/-- The bytes of a record written when the hash of the writer is `h`: the fields, then the
hash word. -/
def StateDelta.recordBytes (H : Hasher) (h : Nat) (d : StateDelta) : List Nat :=
  d.fieldBytes ++ leBytes 8 (H.run h d.fieldBytes)

/-- The delta that `Decode` builds for a record of `d`: the type, the transaction id and the
members that the switch assigns, in a default-constructed delta. -/
def StateDelta.stored (d : StateDelta) : StateDelta :=
  let r_val := StateDelta.init d.type d.transaction_id
  match d.type with
  | .TRANSACTION_BEGIN => r_val
  | .TRANSACTION_COMMIT => r_val
  | .TRANSACTION_ABORT => r_val
  | .CREATE_VERTEX => { r_val with vertex_id := d.vertex_id }
  | .CREATE_EDGE =>
    { r_val with edge_id := d.edge_id, vertex_from_id := d.vertex_from_id,
                 vertex_to_id := d.vertex_to_id, edge_type := d.edge_type,
                 edge_type_name := d.edge_type_name }
  | .ADD_OUT_EDGE =>
    { r_val with vertex_id := d.vertex_id, vertex_to_address := d.vertex_to_address,
                 edge_address := d.edge_address, edge_type := d.edge_type }
  | .REMOVE_OUT_EDGE => { r_val with vertex_id := d.vertex_id, edge_address := d.edge_address }
  | .ADD_IN_EDGE =>
    { r_val with vertex_id := d.vertex_id, vertex_from_address := d.vertex_from_address,
                 edge_address := d.edge_address, edge_type := d.edge_type }
  | .REMOVE_IN_EDGE => { r_val with vertex_id := d.vertex_id, edge_address := d.edge_address }
  | .SET_PROPERTY_VERTEX =>
    { r_val with vertex_id := d.vertex_id, property := d.property,
                 property_name := d.property_name, value := d.value }
  | .SET_PROPERTY_EDGE =>
    { r_val with edge_id := d.edge_id, property := d.property,
                 property_name := d.property_name, value := d.value }
  | .ADD_LABEL =>
    { r_val with vertex_id := d.vertex_id, label := d.label, label_name := d.label_name }
  | .REMOVE_LABEL =>
    { r_val with vertex_id := d.vertex_id, label := d.label, label_name := d.label_name }
  | .REMOVE_VERTEX => { r_val with vertex_id := d.vertex_id }
  | .REMOVE_EDGE => { r_val with edge_id := d.edge_id }
  | .BUILD_INDEX =>
    { r_val with label := d.label, label_name := d.label_name, property := d.property,
                 property_name := d.property_name }
  | .unknown _ => r_val

/-- The deltas written in order through one writer. -/
def EncodeAll (H : Hasher) (ds : List StateDelta) (w : HashedFileWriter) : HashedFileWriter :=
  ds.foldl (fun w d => d.Encode H w) w

/-- The results of `n` successive calls of `Decode` on one reader, and the reader after the
last call. -/
def DecodeSeq (H : Hasher) : Nat → HashedFileReader → List (Option StateDelta) × HashedFileReader
  | 0, r => ([], r)
  | n + 1, r =>
    let first := StateDelta.Decode H r
    let others := DecodeSeq H n first.2
    (first.1 :: others.1, others.2)

end database

namespace database

open durability communication.bolt

/-- The bytes of the records of `ds` written in order by a writer whose hash is `h`. -/
def streamBytes (H : Hasher) : Nat → List StateDelta → List Nat
  | _, [] => []
  | h, d :: ds => d.recordBytes H h ++ streamBytes H (H.run h (d.recordBytes H h)) ds

/-- The bytes with bit `bit` of the byte at position `pos` flipped. -/
def flipBit : List Nat → Nat → Nat → List Nat
  | [], _, _ => []
  | b :: bs, 0, bit => (b ^^^ 2 ^ bit) :: bs
  | b :: bs, pos + 1, bit => b :: flipBit bs pos bit

end database

/-! ## Sample inputs -/

namespace database

open durability communication.bolt

/-- A polynomial rolling hash: an instance of the hasher parameter. -/
def sampleHasher : Hasher :=
  ⟨0, fun h b => h * 3137 + b + 1⟩

/-- A nested property value. -/
def sampleValue : PropertyValue :=
  .map [([97], .list [.int (-5), .string [104, 105], .null, .bool true, .double 4611686018427387904]),
    ([98], .map [])]

/-- The delta `PropsSetVertex(42, 7, 3, "age", sampleValue)`. -/
def sampleDelta : StateDelta :=
  StateDelta.PropsSetVertex 42 7 3 [97, 103, 101] sampleValue

/-- A transaction of three records. -/
def sampleLog : List StateDelta :=
  [StateDelta.TxBegin 42, StateDelta.CreateVertex 42 7, StateDelta.TxCommit 42]

/-- The delta `CreateVertex(42, 7)` with members set that its type does not require. -/
def sampleDeltaPadded : StateDelta :=
  { StateDelta.CreateVertex 42 7 with edge_id := 99, label_name := [76], value := .bool true }

/-- An accessor over the list of the vertex ids of the database, without edges. -/
def sampleAccessor : GraphDbAccessor (List Nat) Nat Nat where
  InsertVertex s gid := gid :: s
  FindVertex s gid _ := if gid ∈ s then some gid else none
  FindEdge _ _ _ := none
  EdgeType s _ := (0, s)
  Property s _ := (0, s)
  Label s _ := (0, s)
  InsertEdge s _ _ _ _ := s
  VertexPropsSet s _ _ _ := s
  EdgePropsSet s _ _ _ := s
  add_label s _ _ := s
  remove_label s _ _ := s
  DetachRemoveVertex s v := s.filter (fun x => x ≠ v)
  RemoveEdge s _ := s

end database

namespace durability

/-- A hash update that is injective in the running digest, for every byte absorbed, and that
yields a different digest whenever one of the eight bits of the absorbed byte is flipped. -/
def Hasher.Injective (H : Hasher) : Prop :=
  (∀ h h' b, h < 2 ^ 64 → h' < 2 ^ 64 → H.step h b = H.step h' b → h = h') ∧
  (∀ h b bit, h < 2 ^ 64 → bit < 8 → H.step h (b ^^^ 2 ^ bit) ≠ H.step h b)

end durability

namespace database

open durability communication.bolt

/-- The position in the stream of the first byte of record `k`: the number of bytes that the
records before it occupy. -/
def recordStart (H : Hasher) (ds : List StateDelta) (k : Nat) : Nat :=
  (EncodeAll H (ds.take k) (HashedFileWriter.fresh H)).out.length

/-- The reader over the bytes `bs` after it has consumed and hashed their first `pos` bytes. -/
def readerAt (H : Hasher) (bs : List Nat) (pos : Nat) : HashedFileReader :=
  ⟨bs.drop pos, H.run H.start (bs.take pos)⟩

/-- The delta `AddLabel(42, 7, 3, "Person_jlsxtmlhc06jkz2or")`: the last eight bytes of the
name are the hash word of the record that the first sixteen would make. -/
def craftedDelta : StateDelta :=
  StateDelta.AddLabel 42 7 3
    [80, 101, 114, 115, 111, 110, 95, 106, 108, 115, 120, 116, 109, 108, 104, 99,
      48, 54, 106, 107, 122, 50, 111, 114]

end database

namespace database

open durability communication.bolt

/-- The delta `AddLabel(42, 7, 3, name)` whose name is `name16` followed by the hash word that
a writer with the hasher `H` would put after the record of `AddLabel(42, 7, 3, name16)`. -/
def craftedFor (H : Hasher) (name16 : List Nat) : StateDelta :=
  StateDelta.AddLabel 42 7 3
    (name16 ++ leBytes 8 (H.run H.start (StateDelta.AddLabel 42 7 3 name16).fieldBytes))

end database

namespace database

open durability communication.bolt

/-! ## The statements about `Apply` -/

/-- The accessor calls that change the graph: insertions, property and label changes, and
removals. Lookups and the name-to-id mappers are not among them. -/
def DbaCall.isMutation {V E : Type} : DbaCall V E → Bool
  | .InsertVertex _ => true
  | .InsertEdge _ _ _ _ => true
  | .VertexPropsSet _ _ _ => true
  | .EdgePropsSet _ _ _ => true
  | .add_label _ _ => true
  | .remove_label _ _ => true
  | .DetachRemoveVertex _ => true
  | .RemoveEdge _ => true
  | _ => false

/-- The database state after one accessor call: lookups leave it as it is, a mapper may
register the name, a mutation is applied. -/
def runCall {σ V E : Type} (dba : GraphDbAccessor σ V E) (s : σ) : DbaCall V E → σ
  | .InsertVertex gid => dba.InsertVertex s gid
  | .FindVertex _ _ => s
  | .FindEdge _ _ => s
  | .EdgeType name => (dba.EdgeType s name).2
  | .Property name => (dba.Property s name).2
  | .Label name => (dba.Label s name).2
  | .InsertEdge src dst et gid => dba.InsertEdge s src dst et gid
  | .VertexPropsSet v p value => dba.VertexPropsSet s v p value
  | .EdgePropsSet e p value => dba.EdgePropsSet s e p value
  | .add_label v l => dba.add_label s v l
  | .remove_label v l => dba.remove_label s v l
  | .DetachRemoveVertex v => dba.DetachRemoveVertex s v
  | .RemoveEdge e => dba.RemoveEdge s e

/-- The table of the spec for the kinds that `Apply` carries out: the one mutation that
corresponds to the kind, on the vertex or edge that the recorded id refers to, with the
property, label or edge type that the recorded name resolves to. It is absent when the kind is
none of these or when a referenced vertex or edge does not exist. -/
def expectedMutation {σ V E : Type} (dba : GraphDbAccessor σ V E) (d : StateDelta) (s : σ) :
    Option (DbaCall V E) :=
  match d.type with
  | .CREATE_VERTEX => some (.InsertVertex d.vertex_id)
  | .CREATE_EDGE =>
    match dba.FindVertex s d.vertex_from_id true, dba.FindVertex s d.vertex_to_id true with
    | some src, some dst =>
      some (.InsertEdge src dst (dba.EdgeType s d.edge_type_name).1 d.edge_id)
    | _, _ => none
  | .SET_PROPERTY_VERTEX =>
    (dba.FindVertex s d.vertex_id true).map
      (fun v => .VertexPropsSet v (dba.Property s d.property_name).1 d.value)
  | .SET_PROPERTY_EDGE =>
    (dba.FindEdge s d.edge_id true).map
      (fun e => .EdgePropsSet e (dba.Property s d.property_name).1 d.value)
  | .ADD_LABEL =>
    (dba.FindVertex s d.vertex_id true).map
      (fun v => .add_label v (dba.Label s d.label_name).1)
  | .REMOVE_LABEL =>
    (dba.FindVertex s d.vertex_id true).map
      (fun v => .remove_label v (dba.Label s d.label_name).1)
  | .REMOVE_VERTEX => (dba.FindVertex s d.vertex_id true).map (fun v => .DetachRemoveVertex v)
  | .REMOVE_EDGE => (dba.FindEdge s d.edge_id true).map (fun e => .RemoveEdge e)
  | _ => none

/-- The delta `BuildIndex(77, 1, "L", 2, "p")`. -/
def sampleBuildIndex : StateDelta :=
  StateDelta.BuildIndex 77 1 [76] 2 [112]

/-- The delta `CreateEdge(42, 10, 7, 8, 0, "E")`: an edge with id 10 from vertex 7 to
vertex 8. -/
def sampleCreateEdge : StateDelta :=
  StateDelta.CreateEdge 42 10 7 8 0 [69]

/-- A record whose kind discriminator is 16, one past the last enumerator: `Int(16)`,
`Int(42)` and the hash word of the sample hasher over these eighteen bytes. -/
def unknownKindRecord : List Nat :=
  [203, 0, 0, 0, 0, 0, 0, 0, 16, 203, 0, 0, 0, 0, 0, 0, 0, 42] ++
    leBytes 8 (sampleHasher.run sampleHasher.start
      [203, 0, 0, 0, 0, 0, 0, 0, 16, 203, 0, 0, 0, 0, 0, 0, 0, 42])

end database

namespace communication.bolt

open durability

/-- The encoder over a hashed writer: `WriteList`, the size of the list and then its values, one
after the other. -/
def PrimitiveEncoder.WriteList (H : Hasher) (w : HashedFileWriter)
    (value : List PropertyValue) : HashedFileWriter :=
  w.Write H (encodeTypeSize value.length .List ++ encodeValues value)

end communication.bolt

namespace durability

open communication.bolt database

/-! ## Snapshots (`durability/distributed/snapshooter.cpp`) -/

/-- The constant `durability::kVersion` (`durability/distributed/version.hpp`, not among the
sources); the source asserts statically that it is 6. -/
def kVersion : Int := 6

/-- What `Encode` reads from the database and from the accessor of the snapshotting
transaction. The types behind it are declared outside the sources, so the values are taken as
they are handed to the encoder: the two generator counts, the id of the transaction and its
snapshot (the transaction ids, in the order the snapshot iterates them), the index keys as
pairs of a label and a property with the two name lookups, and the vertices and edges in the
order the accessor iterates them, with the Cypher id of an edge. -/
structure SnapshotView (V E : Type) where
  VertexGeneratorLocalCount : Int
  EdgeGeneratorLocalCount : Int
  transaction_id : Nat
  snapshot : List Nat
  GetIndicesKeys : List (Nat × Nat)
  LabelName : Nat → List Nat
  PropertyName : Nat → List Nat
  Vertices : List V
  Edges : List E
  CypherId : E → Int

/-- The parts of the snapshot format that are declared outside the sources: the magic bytes
`kSnapshotMagic`, the bytes `SnapshotEncoder::WriteSnapshotVertex` writes for a vertex and the
bytes `WriteEdge(glue::ToBoltEdge(edge))` writes for an edge. -/
structure SnapshotFormat (V E : Type) where
  kSnapshotMagic : List Nat
  WriteSnapshotVertex : V → List Nat
  WriteEdge : E → List Nat

/-- The body of the `try` block of `Encode`, statement by statement, on the writer `buffer`;
`buffer.Close()` leaves the bytes as they are. The two loops that fill `tx_snapshot` and
`index_vec` append to a vector, the two loops over the vertices and the edges write and
count. -/
def EncodeBody {V E : Type} (H : Hasher) (fmt : SnapshotFormat V E) (db : SnapshotView V E)
    (worker_id : Int) (buffer : HashedFileWriter) : HashedFileWriter :=
  let vertex_num : Nat := 0
  let edge_num : Nat := 0
  let buffer := buffer.Write H fmt.kSnapshotMagic
  let buffer := PrimitiveEncoder.WriteInt H buffer kVersion
  let buffer := PrimitiveEncoder.WriteInt H buffer worker_id
  let buffer := PrimitiveEncoder.WriteInt H buffer db.VertexGeneratorLocalCount
  let buffer := PrimitiveEncoder.WriteInt H buffer db.EdgeGeneratorLocalCount
  let buffer := PrimitiveEncoder.WriteInt H buffer (toInt64 db.transaction_id)
  let tx_snapshot : List PropertyValue :=
    db.snapshot.foldl (fun acc tx => acc ++ [.int (toInt64 tx)]) []
  let buffer := PrimitiveEncoder.WriteList H buffer tx_snapshot
  let index_vec : List PropertyValue :=
    db.GetIndicesKeys.foldl
      (fun acc key => acc ++ [.string (db.LabelName key.1), .string (db.PropertyName key.2)]) []
  let buffer := PrimitiveEncoder.WriteList H buffer index_vec
  let afterVertices := db.Vertices.foldl
    (fun (st : HashedFileWriter × Nat) vertex =>
      (st.1.Write H (fmt.WriteSnapshotVertex vertex), st.2 + 1)) (buffer, vertex_num)
  let afterEdges := db.Edges.foldl
    (fun (st : HashedFileWriter × Nat) edge =>
      (PrimitiveEncoder.WriteInt H (st.1.Write H (fmt.WriteEdge edge)) (db.CypherId edge),
        st.2 + 1)) (afterVertices.1, edge_num)
  let buffer := afterEdges.1
  let buffer := buffer.WriteValue H afterVertices.2
  let buffer := buffer.WriteValue H afterEdges.2
  buffer.WriteValue H buffer.hash

/-- The layout of a snapshot as the spec lists it, up to the hash word: magic bytes, version,
worker id, the two generator counts, the transaction id, the list of the transaction ids of the
snapshot, the flat list of label name and property name of every index key, the vertex
records, the edge records each followed by its Cypher id, and the two counts of the trailer. -/
def snapshotLayout {V E : Type} (fmt : SnapshotFormat V E) (db : SnapshotView V E)
    (worker_id : Int) : List Nat :=
  fmt.kSnapshotMagic
    ++ encodeInt 6
    ++ encodeInt worker_id
    ++ encodeInt db.VertexGeneratorLocalCount
    ++ encodeInt db.EdgeGeneratorLocalCount
    ++ encodeInt (toInt64 db.transaction_id)
    ++ encodePropertyValue (.list (db.snapshot.map (fun tx => .int (toInt64 tx))))
    ++ encodePropertyValue (.list (db.GetIndicesKeys.flatMap
        (fun key => [.string (db.LabelName key.1), .string (db.PropertyName key.2)])))
    ++ db.Vertices.flatMap fmt.WriteSnapshotVertex
    ++ db.Edges.flatMap (fun edge => fmt.WriteEdge edge ++ encodeInt (db.CypherId edge))
    ++ leBytes 8 db.Vertices.length
    ++ leBytes 8 db.Edges.length

/-! ### The directories

A directory is the list of the paths in it, in the order `fs::directory_iterator` hands them
out; a directory that does not exist is `none`. The file system is the one of the C++ library
without operating-system errors: `fs::remove` deletes the path and returns whether it was
there. -/

/-- The call `fs::exists(p)` for a path of the directory. -/
def FileExists {P : Type} [DecidableEq P] (dir : List P) (p : P) : Bool :=
  decide (p ∈ dir)

/-- The call `fs::remove(p)` for a path of the directory: whether the path was there, and the
directory afterwards. -/
def RemoveFile {P : Type} [DecidableEq P] (dir : List P) (p : P) : Bool × List P :=
  (decide (p ∈ dir), dir.erase p)

/-- What the storage device lets the program do: whether a missing directory can be created,
and how many bytes a file takes before a write raises `std::ifstream::failure` (`none`: no
write fails). -/
structure Disk where
  canCreateDir : Bool
  capacity : Option Nat

/-- The call `utils::EnsureDir(dir)` (`utils/file.hpp`, not among the sources): true when the
directory is there or could be created. -/
def EnsureDir {P : Type} (disk : Disk) (dir : Option (List P)) : Bool × Option (List P) :=
  match dir with
  | some files => (true, some files)
  | none => if disk.canCreateDir then (true, some []) else (false, none)

/-- How a procedure ends: it returns, a check ends the program, or the behaviour is
undefined. -/
inductive Outcome where
  | returned
  | fatal
  | undefined
deriving DecidableEq, Repr

/-- The function `Encode`: the writer opens (creates) the snapshot file, the body writes it; when
a write raises, the handler removes the file if it exists and `Encode` returns false. The
result is paired with the snapshot directory afterwards. -/
def Encode {P V E : Type} [DecidableEq P] (H : Hasher) (fmt : SnapshotFormat V E) (disk : Disk)
    (snapshot_file : P) (db : SnapshotView V E) (worker_id : Int) (dir : List P) :
    Bool × List P :=
  let opened := if snapshot_file ∈ dir then dir else dir ++ [snapshot_file]
  let bytes := (EncodeBody H fmt db worker_id (HashedFileWriter.fresh H)).out
  let raised :=
    match disk.capacity with
    | some c => decide (c < bytes.length)
    | none => false
  if raised then
    if FileExists opened snapshot_file then
      -- a removal that returns false is logged only
      (false, (RemoveFile opened snapshot_file).2)
    else (false, opened)
  else (true, opened)

/-- Result of `RemoveOldSnapshots` and of `RemoveOldWals`: how the call ends, the directory
afterwards, and the paths handed to `fs::remove`, in order. -/
structure RemoveResult (P : Type) where
  outcome : Outcome
  dir : Option (List P)
  removed : List P

/-- The loop of `RemoveOldSnapshots` over the positions `i`: reads `files[i]` and removes it. A
position outside `files` is read out of bounds. -/
def removeLoop {P : Type} [DecidableEq P] (files : List P) :
    List Nat → List P → List P → RemoveResult P
  | [], dir, removed => ⟨.returned, some dir, removed⟩
  | i :: rest, dir, removed =>
    match files[i]? with
    | none => ⟨.undefined, some dir, removed⟩
    | some file => removeLoop files rest (RemoveFile dir file).2 (removed ++ [file])

/-- The function `RemoveOldSnapshots`. `max_retained` is an `int`; the number of files is
converted to `int`, and the loop bound is a difference of two `int`s, which must not
overflow. -/
def RemoveOldSnapshots {P : Type} [LinearOrder P] (snapshot_dir : List P) (max_retained : Int) :
    RemoveResult P :=
  if max_retained = -1 then ⟨.returned, some snapshot_dir, []⟩
  else
    let files := snapshot_dir
    if toInt32 files.length ≤ max_retained then ⟨.returned, some snapshot_dir, []⟩
    else
      let files := files.insertionSort (· ≤ ·)
      let bound := toInt32 files.length - max_retained
      if 2 ^ 31 ≤ bound then ⟨.undefined, some snapshot_dir, []⟩
      else removeLoop files (List.range bound.toNat) snapshot_dir []

/-- The loop of `RemoveOldWals` over the entries of the directory. -/
def walLoop {P : Type} [DecidableEq P] (TransactionIdFromWalFilename : P → Option Nat)
    (dcheck : Bool) (min_trans_id : Nat) : List P → List P → List P → RemoveResult P
  | [], dir, removed => ⟨.returned, some dir, removed⟩
  | wal_file :: rest, dir, removed =>
    match TransactionIdFromWalFilename wal_file with
    | some tx_id =>
      if tx_id < min_trans_id then
        let result := (RemoveFile dir wal_file).1
        if dcheck && !result then
          ⟨.fatal, some (RemoveFile dir wal_file).2, removed ++ [wal_file]⟩
        else
          walLoop TransactionIdFromWalFilename dcheck min_trans_id rest
            (RemoveFile dir wal_file).2 (removed ++ [wal_file])
      else walLoop TransactionIdFromWalFilename dcheck min_trans_id rest dir removed
    | none => walLoop TransactionIdFromWalFilename dcheck min_trans_id rest dir removed

/-- The function `RemoveOldWals` for the transaction with id `id_` and snapshot `snapshot`.
`TransactionIdFromWalFilename` (`durability/paths.hpp`, not among the sources) is a
parameter; transaction ids are unsigned 64-bit values. -/
def RemoveOldWals {P : Type} [DecidableEq P] (TransactionIdFromWalFilename : P → Option Nat)
    (dcheck : Bool) (wal_dir : Option (List P)) (id_ : Nat) (snapshot : List Nat) :
    RemoveResult P :=
  match wal_dir with
  | none => ⟨.returned, none, []⟩
  | some files =>
    let min_trans_id :=
      match snapshot with
      | [] => (id_ + 1) % 2 ^ 64
      | front :: _ => front
    walLoop TransactionIdFromWalFilename dcheck min_trans_id files files []

/-- The bound of the spec: the least element of the snapshot set together with `T + 1`. -/
def minInteresting (T : Nat) (S : List Nat) : Nat :=
  S.foldl min (T + 1)

/-- The directories `snapshots/` and `wal/` under the durability directory. -/
structure DurabilityDir (P : Type) where
  snapshots : Option (List P)
  wal : Option (List P)

/-- The steps of `MakeSnapshot` that touch the directories. -/
inductive SnapshotCall (P : Type) where
  | EnsureDir
  | Encode (snapshot_file : P)
  | RemoveOldSnapshots
  | RemoveOldWals
  | remove (snapshot_file : P)
deriving DecidableEq, Repr

/-- Result of `MakeSnapshot`: how the call ends, the value returned (when it returns), the
directories afterwards and the steps taken. -/
structure MakeSnapshotResult (P : Type) where
  outcome : Outcome
  result : Bool
  dir : DurabilityDir P
  calls : List (SnapshotCall P)

/-- The function `MakeSnapshot`. `MakeSnapshotPath` (`durability/paths.hpp`, not among the
sources) names a file of the snapshot directory from the worker id and the transaction
id. -/
def MakeSnapshot {P V E : Type} [LinearOrder P] (H : Hasher) (fmt : SnapshotFormat V E)
    (disk : Disk) (TransactionIdFromWalFilename : P → Option Nat) (dcheck : Bool)
    (MakeSnapshotPath : Int → Nat → P) (db : SnapshotView V E) (worker_id : Int)
    (durability_dir : DurabilityDir P) (snapshot_max_retained : Int) : MakeSnapshotResult P :=
  match EnsureDir disk durability_dir.snapshots with
  | (true, some files) =>
    let durability_dir := { durability_dir with snapshots := some files }
    let snapshot_file := MakeSnapshotPath worker_id db.transaction_id
    if FileExists files snapshot_file then
      ⟨.returned, false, durability_dir, [.EnsureDir]⟩
    else
      match Encode H fmt disk snapshot_file db worker_id files with
      | (true, written) =>
        let olds := RemoveOldSnapshots written snapshot_max_retained
        match olds.outcome with
        | .returned =>
          let wals := RemoveOldWals TransactionIdFromWalFilename dcheck durability_dir.wal
            db.transaction_id db.snapshot
          ⟨wals.outcome, true, ⟨olds.dir, wals.dir⟩,
            [.EnsureDir, .Encode snapshot_file, .RemoveOldSnapshots, .RemoveOldWals]⟩
        | ended =>
          ⟨ended, true, { durability_dir with snapshots := olds.dir },
            [.EnsureDir, .Encode snapshot_file, .RemoveOldSnapshots]⟩
      | (false, failed) =>
        ⟨.returned, false,
          { durability_dir with snapshots := some (RemoveFile failed snapshot_file).2 },
          [.EnsureDir, .Encode snapshot_file, .remove snapshot_file]⟩
  | (_, dir) =>
    ⟨.returned, false, { durability_dir with snapshots := dir }, [.EnsureDir]⟩

/-! ### Sample inputs -/

/-- A format with the magic bytes "MGsn" in which a vertex is written as the byte of its id
and an edge as two bytes. -/
def sampleFormat : SnapshotFormat Nat Nat :=
  ⟨[77, 71, 115, 110], fun v => [v], fun e => [e, e]⟩

/-- A database with vertices 1, 2, 3, edges 4 and 5, one index key and the transactions 40 and
41 in the snapshot of transaction 50. -/
def sampleView : SnapshotView Nat Nat :=
  { VertexGeneratorLocalCount := 3, EdgeGeneratorLocalCount := 2, transaction_id := 50,
    snapshot := [40, 41], GetIndicesKeys := [(1, 2)], LabelName := fun l => [76, l],
    PropertyName := fun p => [112, p], Vertices := [1, 2, 3], Edges := [4, 5],
    CypherId := fun e => e }

/-- File names as numbers: snapshot files are named by the transaction id. -/
def samplePath (_worker_id : Int) (transaction_id : Nat) : Nat :=
  transaction_id

/-- WAL files are named by their first transaction id; names from 1000 on are not WAL
files. -/
def sampleWalId (p : Nat) : Option Nat :=
  if p < 1000 then some p else none

/-- A durability directory with three snapshots and four entries in the WAL directory. -/
def sampleDir : DurabilityDir Nat :=
  ⟨some [30, 10, 20], some [45, 12, 1001, 39]⟩

end durability

namespace communication.raft

/-! ## Raft over RPC (`communication/raft/rpc.hpp`) -/

/-- The enumeration `RpcType` (`communication/raft/network_common.hpp`, not among the sources),
with the two enumerators the source names; `unknown v` stands for a value outside the
enumerators, which the `default` branch of the handler receives. -/
inductive RpcType where
  | REQUEST_VOTE
  | APPEND_ENTRIES
  | unknown (v : Int)
deriving DecidableEq, Repr

/-- The wide record `PeerRpcRequest`: a type and one payload per type. The payload types are
parameters. -/
structure PeerRpcRequest (RV AE : Type) where
  type : RpcType
  request_vote : RV
  append_entries : AE

/-- The wide record `PeerRpcReply`: a type and one payload per type. -/
structure PeerRpcReply (RVR AER : Type) where
  type : RpcType
  request_vote : RVR
  append_entries : AER

/-- The two handlers of a `RaftMember` that the network calls; `σ` is the state of the
member. -/
structure RaftMember (σ RV RVR AE AER : Type) where
  OnRequestVote : σ → RV → RVR × σ
  OnAppendEntries : σ → AE → AER × σ

/-- What the handler registered by `Start` does besides building the reply: a call of a handler
of the member, or a line in the error log. -/
inductive HandlerCall (RV AE : Type) where
  | OnRequestVote (request : RV)
  | OnAppendEntries (request : AE)
  | LogError (type : RpcType)

/-- Result of the handler registered by `Start`: the pointer it returns (`none` for a null
pointer), the state of the member, and what it called, in order. -/
structure HandlerResult (σ RV RVR AE AER : Type) where
  reply : Option (PeerRpcReply RVR AER)
  state : σ
  calls : List (HandlerCall RV AE)

/-- The handler that `RpcNetwork::Start` registers on the server. `made` is the reply that
`std::make_unique<PeerRpcReply>()` constructs. -/
def RpcNetwork.StartHandler {σ RV RVR AE AER : Type} (member : RaftMember σ RV RVR AE AER)
    (made : PeerRpcReply RVR AER) (s : σ) (request : PeerRpcRequest RV AE) :
    HandlerResult σ RV RVR AE AER :=
  let reply := { made with type := request.type }
  match request.type with
  | .REQUEST_VOTE =>
    let r := member.OnRequestVote s request.request_vote
    ⟨some { reply with request_vote := r.1 }, r.2, [.OnRequestVote request.request_vote]⟩
  | .APPEND_ENTRIES =>
    let r := member.OnAppendEntries s request.append_entries
    ⟨some { reply with append_entries := r.1 }, r.2,
      [.OnAppendEntries request.append_entries]⟩
  | .unknown v => ⟨some reply, s, [.LogError (.unknown v)]⟩

/-- The member `SendRpc`. `Call` is the call on the client of the recipient
(`communication/rpc/client.hpp`): it yields a response or a null pointer; `κ` is the state of
the clients. The reference `reply` is returned as the call leaves it. -/
def RpcNetwork.SendRpc {κ M D RV RVR AE AER : Type}
    (Call : κ → M → D → PeerRpcRequest RV AE → Option (PeerRpcReply RVR AER) × κ)
    (clients : κ) (recipient : M) (request : PeerRpcRequest RV AE)
    (reply : PeerRpcReply RVR AER) (timeout : D) : Bool × PeerRpcReply RVR AER × κ :=
  match Call clients recipient timeout request with
  | (none, clients) => (false, reply, clients)
  | (some response, clients) => (true, response, clients)

/-- The member `SendRequestVote`. `req` and `rep` are the default-constructed request and reply
of the function. -/
def RpcNetwork.SendRequestVote {κ M D RV RVR AE AER : Type}
    (Call : κ → M → D → PeerRpcRequest RV AE → Option (PeerRpcReply RVR AER) × κ)
    (req : PeerRpcRequest RV AE) (rep : PeerRpcReply RVR AER)
    (clients : κ) (recipient : M) (request : RV) (reply : RVR) (timeout : D) :
    Bool × RVR × κ :=
  let req := { req with type := .REQUEST_VOTE, request_vote := request }
  match RpcNetwork.SendRpc Call clients recipient req rep timeout with
  | (false, _, clients) => (false, reply, clients)
  | (true, rep, clients) => (true, rep.request_vote, clients)

/-- The member `SendAppendEntries`. -/
def RpcNetwork.SendAppendEntries {κ M D RV RVR AE AER : Type}
    (Call : κ → M → D → PeerRpcRequest RV AE → Option (PeerRpcReply RVR AER) × κ)
    (req : PeerRpcRequest RV AE) (rep : PeerRpcReply RVR AER)
    (clients : κ) (recipient : M) (request : AE) (reply : AER) (timeout : D) :
    Bool × AER × κ :=
  let req := { req with type := .APPEND_ENTRIES, append_entries := request }
  match RpcNetwork.SendRpc Call clients recipient req rep timeout with
  | (false, _, clients) => (false, reply, clients)
  | (true, rep, clients) => (true, rep.append_entries, clients)

/-- A member that counts the requests it has seen: it grants a vote to an even term and
acknowledges an append with the number of requests so far. -/
def sampleMember : RaftMember Nat Nat Bool Nat Nat :=
  ⟨fun s term => (decide (term % 2 = 0), s + 1), fun s _ => (s, s + 1)⟩

/-- A reply with zeroes in its payloads. -/
def sampleReply : PeerRpcReply Bool Nat :=
  ⟨.REQUEST_VOTE, false, 0⟩

/-- A request with zeroes in its payloads. -/
def sampleRequest : PeerRpcRequest Nat Nat :=
  ⟨.REQUEST_VOTE, 0, 0⟩

/-- Clients on which a call to member 1 is answered by the sample member and a call to any
other member times out. -/
def sampleCall (clients : Nat) (recipient : Nat) (_timeout : Nat)
    (request : PeerRpcRequest Nat Nat) : Option (PeerRpcReply Bool Nat) × Nat :=
  if recipient = 1 then
    ((RpcNetwork.StartHandler sampleMember sampleReply clients request).reply,
      (RpcNetwork.StartHandler sampleMember sampleReply clients request).state)
  else (none, clients)

end communication.raft

namespace communication

open durability database

/-! ## The server (`communication/server.hpp`) -/

/-- The members of `Server` that the acceptor uses: the number of workers, `workers_.size()`,
and the rotation index `idx_`, an `int`. -/
structure Server where
  workers_size : Nat
  idx_ : Int
deriving DecidableEq, Repr

/-- The server once its `n` workers are started: `idx_` is 0. -/
def Server.init (n : Nat) : Server :=
  ⟨n, 0⟩

/-- Result of `OnData`: how the call ends, the server afterwards, and the call
`workers_[i]->AddConnection(connection)` it made, if any, as the position `i` and the
connection. -/
structure OnDataResult (C : Type) where
  outcome : Outcome
  server : Server
  added : Option (Nat × C)

/-- The member `ConnectionAcceptor::OnData`; `connection` is what `AcceptConnection()` yields.
In the comparison with `workers_.size()`, in the subscript and in the remainder the `int` is
converted to `size_t`; the sum `idx_ + 1` is an `int` and must not overflow, and the remainder
is converted back to `int`. -/
def ConnectionAcceptor.OnData {C : Type} (dcheck : Bool) (server : Server)
    (connection : Option C) : OnDataResult C :=
  if dcheck && !decide (toUInt64 server.idx_ < server.workers_size) then
    ⟨.fatal, server, none⟩
  else
    match connection with
    | none => ⟨.returned, server, none⟩
    | some c =>
      if toUInt64 server.idx_ < server.workers_size then
        if 2 ^ 31 ≤ server.idx_ + 1 then
          ⟨.undefined, server, some (toUInt64 server.idx_, c)⟩
        else
          ⟨.returned,
            { server with
              idx_ := toInt32 ((toUInt64 (server.idx_ + 1) % server.workers_size : Nat) : Int) },
            some (toUInt64 server.idx_, c)⟩
      else ⟨.undefined, server, none⟩

/-- The calls of `OnData` for a sequence of events on the listening socket, each with what the
accept yields: how the sequence ends, the server afterwards, and the calls of `AddConnection`
made, in order. -/
def Server.run {C : Type} (dcheck : Bool) :
    Server → List (Option C) → Outcome × Server × List (Nat × C)
  | server, [] => (.returned, server, [])
  | server, connection :: rest =>
    match ConnectionAcceptor.OnData dcheck server connection with
    | ⟨.returned, server1, added⟩ =>
      ((Server.run dcheck server1 rest).1, (Server.run dcheck server1 rest).2.1,
        added.toList ++ (Server.run dcheck server1 rest).2.2)
    | ⟨ended, server1, added⟩ => (ended, server1, added.toList)

end communication

namespace query

/-! ## Comparison of rows (`query/common.hpp`) -/

/-- The enumeration `Ordering` (`query/frontend/ast/ast.hpp`, not among the sources), with the
two enumerators the source names. -/
inductive Ordering where
  | ASC
  | DESC
deriving DecidableEq, Repr

/-- How a comparison ends: it returns a value, the `CHECK` ends the program, or an iterator is
read past the end. -/
inductive CompareResult where
  | returned (value : Bool)
  | fatal
  | undefined
deriving DecidableEq, Repr

/-- The loop of `TypedValueVectorCompare::operator()` and the return after it, on what is left
of the two vectors and of the orderings. `TypedValueCompare` (`impl::TypedValueCompare`,
declared only) is a parameter. -/
def compareLoop {T : Type} (TypedValueCompare : T → T → Bool) :
    List T → List T → List Ordering → CompareResult
  | a :: c1, b :: c2, o :: ordering =>
    if TypedValueCompare a b then .returned (decide (o = .ASC))
    else if TypedValueCompare b a then .returned (decide (o = .DESC))
    else compareLoop TypedValueCompare c1 c2 ordering
  | _ :: _, _ :: _, [] => .undefined
  | [], _ :: _, _ => .returned true
  | [], [], _ => .returned false
  | _ :: _, [], _ => .returned false

/-- The call operator of `TypedValueVectorCompare` with the member `ordering_`. -/
def TypedValueVectorCompare {T : Type} (TypedValueCompare : T → T → Bool)
    (ordering_ : List Ordering) (c1 c2 : List T) : CompareResult :=
  if c1.length ≤ ordering_.length ∧ c2.length ≤ ordering_.length then
    compareLoop TypedValueCompare c1 c2 ordering_
  else .fatal

end query

namespace durability

/-- The sample database seen by transaction 50 when no other transaction is in flight. -/
def sampleViewIdle : SnapshotView Nat Nat :=
  { sampleView with snapshot := [] }

end durability

/-! ## Lemmas: raw integers -/

namespace durability

theorem leBytes_length (k n : Nat) : (leBytes k n).length = k := by
  induction k generalizing n with
  | zero => rfl
  | succ k ih => simp [leBytes, ih]

theorem leValue_leBytes (k n : Nat) : leValue (leBytes k n) = n % 256 ^ k := by
  induction k generalizing n with
  | zero => simp [leBytes, leValue, Nat.mod_one]
  | succ k ih =>
    simp only [leBytes, leValue, ih]
    rw [pow_succ, Nat.mul_comm (256 ^ k) 256, Nat.mod_mul]

theorem beBytes_length (k n : Nat) : (beBytes k n).length = k := by
  induction k with
  | zero => rfl
  | succ k ih => simp [beBytes, ih]

theorem foldl_be (bs : List Nat) (a : Nat) :
    bs.foldl (fun acc b => acc * 256 + b) a = a * 256 ^ bs.length + beValue bs := by
  induction bs generalizing a with
  | nil => simp [beValue]
  | cons b bs ih =>
    simp only [List.foldl_cons, List.length_cons, beValue]
    rw [ih, ih (0 * 256 + b)]
    ring

theorem beValue_cons (b : Nat) (bs : List Nat) :
    beValue (b :: bs) = b * 256 ^ bs.length + beValue bs := by
  simp only [beValue, List.foldl_cons]
  rw [foldl_be, foldl_be bs 0]
  simp [beValue]

theorem beValue_beBytes (k n : Nat) : beValue (beBytes k n) = n % 256 ^ k := by
  induction k with
  | zero => simp [beBytes, beValue, Nat.mod_one]
  | succ k ih =>
    rw [beBytes, beValue_cons, ih, beBytes_length, pow_succ, Nat.mod_mul, Nat.mul_comm]
    omega

theorem toUInt64_toInt64 (u : Nat) (hu : u < 2 ^ 64) : toUInt64 (toInt64 u) = u := by
  unfold toUInt64 toInt64
  rw [Nat.mod_eq_of_lt hu]
  split <;> omega

theorem toInt64_toUInt64 (i : Int) (hlo : -2 ^ 63 ≤ i) (hhi : i < 2 ^ 63) :
    toInt64 (toUInt64 i) = i := by
  unfold toUInt64 toInt64
  have h1 : (i % 2 ^ 64).toNat < 2 ^ 64 := by omega
  rw [Nat.mod_eq_of_lt h1]
  split <;> omega

theorem toUInt64_lt (i : Int) : toUInt64 i < 2 ^ 64 := by
  unfold toUInt64
  omega

theorem Hasher.run_append (H : Hasher) (h : Nat) (a b : List Nat) :
    H.run h (a ++ b) = H.run (H.run h a) b := by
  simp [Hasher.run, List.foldl_append]

theorem Hasher.run_nil (H : Hasher) (h : Nat) : H.run h [] = h := rfl

theorem Hasher.run_cons (H : Hasher) (h b : Nat) (bs : List Nat) :
    H.run h (b :: bs) = H.run (H.step h b) bs := rfl

theorem Hasher.step_lt (H : Hasher) (h b : Nat) : H.step h b < 2 ^ 64 := by
  unfold Hasher.step
  omega

theorem Hasher.run_lt (H : Hasher) (h : Nat) (bs : List Nat) (hh : h < 2 ^ 64) :
    H.run h bs < 2 ^ 64 := by
  induction bs generalizing h with
  | nil => exact hh
  | cons b bs ih => exact ih _ (H.step_lt h b)

theorem Hasher.start_lt (H : Hasher) : H.start < 2 ^ 64 := by
  unfold Hasher.start
  omega

end durability

/-! ## Lemmas: decoding steps -/

namespace communication.bolt

open durability database

theorem DecodeM.pure_apply {α : Type} (a : α) (r : HashedFileReader) :
    (pure a : DecodeM α) r = (.next a, r) := rfl

theorem DecodeM.bind_apply {α β : Type} (m : DecodeM α) (f : α → DecodeM β)
    (r : HashedFileReader) :
    (m >>= f) r = match m r with
      | (.next a, r') => f a r'
      | (.failed, r') => (.failed, r')
      | (.raised e, r') => (.raised e, r') := rfl

theorem DecodeM.bind_next {α β : Type} (m : DecodeM α) (f : α → DecodeM β)
    (r r' : HashedFileReader) (a : α) (h : m r = (.next a, r')) :
    (m >>= f) r = f a r' := by
  rw [DecodeM.bind_apply, h]

theorem readBytes_append (H : Hasher) (bs rest : List Nat) (h n : Nat) (hn : bs.length = n) :
    readBytes H n ⟨bs ++ rest, h⟩ = (.next bs, ⟨rest, H.run h bs⟩) := by
  subst hn
  simp [readBytes, HashedFileReader.Read]

theorem readBytes_cons (H : Hasher) (b : Nat) (rest : List Nat) (h : Nat) :
    readBytes H 1 ⟨b :: rest, h⟩ = (.next [b], ⟨rest, H.run h [b]⟩) :=
  readBytes_append H [b] rest h 1 rfl

theorem sizeClass_tiny (typ : Sized) (n : Nat) (hn : n ≤ 15) :
    sizeClass (MarkerTiny typ + n) = some (typ, .inl n) := by
  cases typ
  · show sizeClass (0x80 + n) = some (.String, .inl n)
    unfold sizeClass
    rw [if_pos (by omega), Nat.add_sub_cancel_left]
  · show sizeClass (0x90 + n) = some (.List, .inl n)
    unfold sizeClass
    rw [if_neg (by omega), if_pos (by omega), Nat.add_sub_cancel_left]
  · show sizeClass (0xA0 + n) = some (.Map, .inl n)
    unfold sizeClass
    rw [if_neg (by omega), if_neg (by omega), if_pos (by omega), Nat.add_sub_cancel_left]

theorem sizeClass_8 (typ : Sized) : sizeClass (Marker8 typ) = some (typ, .inr 1) := by
  cases typ <;> rfl

theorem sizeClass_16 (typ : Sized) : sizeClass (Marker16 typ) = some (typ, .inr 2) := by
  cases typ <;> rfl

theorem sizeClass_32 (typ : Sized) : sizeClass (Marker32 typ) = some (typ, .inr 4) := by
  cases typ <;> rfl

theorem notScalar_tiny (typ : Sized) (n : Nat) (hn : n ≤ 15) : notScalar (MarkerTiny typ + n) := by
  cases typ <;>
    simp only [notScalar, MarkerTiny, Marker.Null, Marker.False, Marker.True, Marker.Int64,
      Marker.Float64] <;> omega

theorem notScalar_8 (typ : Sized) : notScalar (Marker8 typ) := by
  cases typ <;> simp [notScalar, Marker8, Marker.Null, Marker.False, Marker.True, Marker.Int64,
      Marker.Float64]

theorem notScalar_16 (typ : Sized) : notScalar (Marker16 typ) := by
  cases typ <;> simp [notScalar, Marker16, Marker.Null, Marker.False, Marker.True, Marker.Int64,
      Marker.Float64]

theorem notScalar_32 (typ : Sized) : notScalar (Marker32 typ) := by
  cases typ <;> simp [notScalar, Marker32, Marker.Null, Marker.False, Marker.True, Marker.Int64,
      Marker.Float64]

theorem readSize_inr (H : Hasher) (k n : Nat) (rest : List Nat) (h : Nat)
    (hn : n < 256 ^ k) :
    readSize H (.inr k) ⟨beBytes k n ++ rest, h⟩ = (.next n, ⟨rest, H.run h (beBytes k n)⟩) := by
  simp only [readSize]
  rw [DecodeM.bind_next _ _ _ _ _ (readBytes_append H _ rest h k (beBytes_length k n))]
  simp only [DecodeM.pure_apply, beValue_beBytes, Nat.mod_eq_of_lt hn]

/-- The marker and size that `encodeTypeSize` writes for a size below `2^32`: the first byte
is no scalar marker, it announces the sized type, and the size is read back from what
follows. -/
theorem encodeTypeSize_spec (H : Hasher) (n : Nat) (typ : Sized) (hn : n < 2 ^ 32) :
    ∃ m tl cls, encodeTypeSize n typ = m :: tl ∧ notScalar m ∧
      sizeClass m = some (typ, cls) ∧
      ∀ rest h, readSize H cls ⟨tl ++ rest, h⟩ = (.next n, ⟨rest, H.run h tl⟩) := by
  unfold encodeTypeSize
  by_cases h1 : n ≤ 15
  · exact ⟨MarkerTiny typ + n, [], .inl n, by simp [h1], notScalar_tiny typ n h1,
      sizeClass_tiny typ n h1, fun rest h => rfl⟩
  by_cases h2 : n ≤ 255
  · refine ⟨Marker8 typ, beBytes 1 n, .inr 1, ?_, notScalar_8 typ, sizeClass_8 typ,
      fun rest h => readSize_inr H 1 n rest h (by omega)⟩
    simp only [h1, h2, if_false, if_true, beBytes, pow_zero, Nat.div_one]
    rw [Nat.mod_eq_of_lt (by omega)]
  by_cases h3 : n ≤ 65535
  · exact ⟨Marker16 typ, beBytes 2 n, .inr 2, by simp [h1, h2, h3], notScalar_16 typ,
      sizeClass_16 typ, fun rest h => readSize_inr H 2 n rest h (by omega)⟩
  · exact ⟨Marker32 typ, beBytes 4 n, .inr 4, by simp [h1, h2, h3], notScalar_32 typ,
      sizeClass_32 typ, fun rest h => readSize_inr H 4 n rest h (by omega)⟩

end communication.bolt

/-! ## Lemmas: a value written is the value read -/

namespace communication.bolt

open durability database

theorem readValueAux_scalar_null (H : Hasher) (fuel : Nat) (inp : List Nat) (h : Nat) :
    readValueAux H (fuel + 1) ⟨Marker.Null :: inp, h⟩
      = (.next .null, ⟨inp, H.run h [Marker.Null]⟩) := by
  unfold readValueAux
  rw [DecodeM.bind_next _ _ _ _ _ (readBytes_cons H _ inp h)]
  rfl

theorem readValueAux_bool (H : Hasher) (fuel : Nat) (b : Bool) (inp : List Nat) (h : Nat) :
    readValueAux H (fuel + 1) ⟨(if b then Marker.True else Marker.False) :: inp, h⟩
      = (.next (.bool b), ⟨inp, H.run h [if b then Marker.True else Marker.False]⟩) := by
  unfold readValueAux
  rw [DecodeM.bind_next _ _ _ _ _ (readBytes_cons H _ inp h)]
  cases b <;> rfl

theorem readValueAux_int (H : Hasher) (fuel : Nat) (i : Int) (rest : List Nat) (h : Nat)
    (hlo : -2 ^ 63 ≤ i) (hhi : i < 2 ^ 63) :
    readValueAux H (fuel + 1) ⟨encodeInt i ++ rest, h⟩
      = (.next (.int i), ⟨rest, H.run h (encodeInt i)⟩) := by
  unfold readValueAux encodeInt
  rw [List.cons_append, DecodeM.bind_next _ _ _ _ _ (readBytes_cons H _ _ h)]
  simp only [List.headD_cons, Marker.Int64, Marker.Null, Marker.False, Marker.True,
    Nat.reduceEqDiff, if_false, if_true]
  rw [DecodeM.bind_next _ _ _ _ _ (readBytes_append H _ rest _ 8 (beBytes_length 8 _))]
  simp only [DecodeM.pure_apply, beValue_beBytes]
  rw [Nat.mod_eq_of_lt (by simpa using toUInt64_lt i), toInt64_toUInt64 i hlo hhi]
  rfl

theorem readValueAux_double (H : Hasher) (fuel : Nat) (bits : Nat) (rest : List Nat) (h : Nat)
    (hb : bits < 2 ^ 64) :
    readValueAux H (fuel + 1) ⟨Marker.Float64 :: beBytes 8 bits ++ rest, h⟩
      = (.next (.double bits), ⟨rest, H.run h (Marker.Float64 :: beBytes 8 bits)⟩) := by
  unfold readValueAux
  rw [List.cons_append, DecodeM.bind_next _ _ _ _ _ (readBytes_cons H _ _ h)]
  simp only [List.headD_cons, Marker.Int64, Marker.Null, Marker.False, Marker.True,
    Marker.Float64, Nat.reduceEqDiff, if_false, if_true]
  rw [DecodeM.bind_next _ _ _ _ _ (readBytes_append H _ rest _ 8 (beBytes_length 8 _))]
  simp only [DecodeM.pure_apply, beValue_beBytes]
  rw [Nat.mod_eq_of_lt (by simpa using hb)]
  rfl

/-- On a marker that announces a sized value, the decoder reads the size and then the
content of the announced type. -/
theorem readValueAux_sized (H : Hasher) (fuel m : Nat) (typ : Sized) (cls : Nat ⊕ Nat)
    (inp : List Nat) (h : Nat) (hns : notScalar m) (hsc : sizeClass m = some (typ, cls)) :
    readValueAux H (fuel + 1) ⟨m :: inp, h⟩
      = (readSize H cls >>= fun n =>
          match typ with
          | .String => readBytes H n >>= fun s => pure (.string s)
          | .List => readN (readValueAux H fuel) n >>= fun vs => pure (.list vs)
          | .Map => readN (readEntry (readValueAux H fuel)) n >>= fun kvs => pure (.map kvs))
          ⟨inp, H.run h [m]⟩ := by
  obtain ⟨h1, h2, h3, h4, h5⟩ := hns
  conv => lhs; unfold readValueAux
  rw [DecodeM.bind_next _ _ _ _ _ (readBytes_cons H _ _ h)]
  simp only [List.headD_cons, if_neg h1, if_neg h2, if_neg h3, if_neg h4, if_neg h5, hsc]

theorem readValueAux_string (H : Hasher) (fuel : Nat) (s rest : List Nat) (h : Nat)
    (hs : s.length < 2 ^ 32) :
    readValueAux H (fuel + 1) ⟨encodeString s ++ rest, h⟩
      = (.next (.string s), ⟨rest, H.run h (encodeString s)⟩) := by
  obtain ⟨m, tl, cls, heq, hns, hsc, hrs⟩ := encodeTypeSize_spec H s.length .String hs
  unfold encodeString
  rw [heq, List.cons_append, List.cons_append, readValueAux_sized H fuel m _ cls _ h hns hsc,
    List.append_assoc, DecodeM.bind_next _ _ _ _ _ (hrs _ _)]
  simp only
  rw [DecodeM.bind_next _ _ _ _ _ (readBytes_append H s rest _ _ rfl)]
  simp only [DecodeM.pure_apply, ← Hasher.run_append, List.singleton_append, List.cons_append,
    List.nil_append]

theorem readEntry_next (value : DecodeM DecodedValue) (r1 r2 r3 : HashedFileReader)
    (k : List Nat) (v : DecodedValue) (h1 : value r1 = (.next (.string k), r2))
    (h2 : value r2 = (.next v, r3)) : readEntry value r1 = (.next (k, v), r3) := by
  unfold readEntry
  rw [DecodeM.bind_next _ _ _ _ _ h1]
  simp only
  rw [DecodeM.bind_next _ _ _ _ _ h2]
  rfl

mutual
theorem readValueAux_encode (H : Hasher) : ∀ (v : PropertyValue) (fuel : Nat)
    (rest : List Nat) (h : Nat), wfValue v = true → depthValue v < fuel →
    readValueAux H fuel ⟨encodePropertyValue v ++ rest, h⟩
      = (.next v, ⟨rest, H.run h (encodePropertyValue v)⟩)
  | .null, fuel + 1, rest, h, _, _ => readValueAux_scalar_null H fuel rest h
  | .bool b, fuel + 1, rest, h, _, _ => readValueAux_bool H fuel b rest h
  | .int i, fuel + 1, rest, h, hw, _ => by
    simp only [wfValue, Bool.and_eq_true, decide_eq_true_eq] at hw
    exact readValueAux_int H fuel i rest h hw.1 hw.2
  | .double bits, fuel + 1, rest, h, hw, _ => by
    simp only [wfValue, decide_eq_true_eq] at hw
    exact readValueAux_double H fuel bits rest h hw
  | .string s, fuel + 1, rest, h, hw, _ => by
    simp only [wfValue, decide_eq_true_eq] at hw
    exact readValueAux_string H fuel s rest h hw
  | .list vs, fuel + 1, rest, h, hw, hd => by
    simp only [wfValue, Bool.and_eq_true, decide_eq_true_eq] at hw
    simp only [depthValue] at hd
    obtain ⟨m, tl, cls, heq, hns, hsc, hrs⟩ := encodeTypeSize_spec H vs.length .List hw.1
    simp only [encodePropertyValue]
    rw [heq, List.cons_append, List.cons_append,
      readValueAux_sized H fuel m _ cls _ h hns hsc,
      List.append_assoc, DecodeM.bind_next _ _ _ _ _ (hrs _ _)]
    simp only
    rw [DecodeM.bind_next _ _ _ _ _
      (readN_encodeValues H vs fuel rest _ hw.2 (by omega))]
    simp only [DecodeM.pure_apply, ← Hasher.run_append, List.singleton_append,
      List.cons_append, List.nil_append]
  | .map kvs, fuel + 1, rest, h, hw, hd => by
    simp only [wfValue, Bool.and_eq_true, decide_eq_true_eq] at hw
    simp only [depthValue] at hd
    obtain ⟨m, tl, cls, heq, hns, hsc, hrs⟩ := encodeTypeSize_spec H kvs.length .Map hw.1
    simp only [encodePropertyValue]
    rw [heq, List.cons_append, List.cons_append,
      readValueAux_sized H fuel m _ cls _ h hns hsc,
      List.append_assoc, DecodeM.bind_next _ _ _ _ _ (hrs _ _)]
    simp only
    rw [DecodeM.bind_next _ _ _ _ _
      (readN_encodeEntries H kvs fuel rest _ hw.2 (by omega))]
    simp only [DecodeM.pure_apply, ← Hasher.run_append, List.singleton_append,
      List.cons_append, List.nil_append]
theorem readN_encodeValues (H : Hasher) : ∀ (vs : List PropertyValue) (fuel : Nat)
    (rest : List Nat) (h : Nat), wfValues vs = true → depthValues vs < fuel →
    readN (readValueAux H fuel) vs.length ⟨encodeValues vs ++ rest, h⟩
      = (.next vs, ⟨rest, H.run h (encodeValues vs)⟩)
  | [], _, _, _, _, _ => rfl
  | v :: vs, fuel, rest, h, hw, hd => by
    simp only [wfValues, Bool.and_eq_true] at hw
    simp only [depthValues] at hd
    simp only [encodeValues, List.length_cons, readN, List.append_assoc]
    rw [DecodeM.bind_next _ _ _ _ _
      (readValueAux_encode H v fuel _ h hw.1 (by omega))]
    rw [DecodeM.bind_next _ _ _ _ _
      (readN_encodeValues H vs fuel rest _ hw.2 (by omega))]
    simp only [DecodeM.pure_apply, Hasher.run_append]
theorem readN_encodeEntries (H : Hasher) : ∀ (kvs : List (List Nat × PropertyValue))
    (fuel : Nat) (rest : List Nat) (h : Nat), wfEntries kvs = true → depthEntries kvs < fuel →
    readN (readEntry (readValueAux H fuel)) kvs.length ⟨encodeEntries kvs ++ rest, h⟩
      = (.next kvs, ⟨rest, H.run h (encodeEntries kvs)⟩)
  | [], _, _, _, _, _ => rfl
  | (k, v) :: kvs, fuel + 1, rest, h, hw, hd => by
    simp only [wfEntries, Bool.and_eq_true, decide_eq_true_eq] at hw
    simp only [depthEntries] at hd
    simp only [encodeEntries, List.length_cons, readN, List.append_assoc]
    rw [DecodeM.bind_next _ _ _ _ _ (readEntry_next _ _ _ _ k v
      (readValueAux_string H fuel k _ h hw.1.1)
      (readValueAux_encode H v (fuel + 1) _ _ hw.1.2 (by omega)))]
    rw [DecodeM.bind_next _ _ _ _ _
      (readN_encodeEntries H kvs (fuel + 1) rest _ hw.2 (by omega))]
    simp only [DecodeM.pure_apply, Hasher.run_append]
end

end communication.bolt

/-! ## Lemmas: what a decoding step consumes -/

namespace communication.bolt

open durability database

theorem DecodeM.bind_eq_next {α β : Type} (m : DecodeM α) (f : α → DecodeM β)
    (r r' : HashedFileReader) (b : β) (h : (m >>= f) r = (.next b, r')) :
    ∃ a r1, m r = (.next a, r1) ∧ f a r1 = (.next b, r') := by
  rw [DecodeM.bind_apply] at h
  rcases hm : m r with ⟨fl, r1⟩
  rw [hm] at h
  cases fl with
  | next a => exact ⟨a, r1, rfl, h⟩
  | failed => simp at h
  | raised e => simp at h

theorem consumes_pure (H : Hasher) {α : Type} (a : α) : Consumes H (pure a : DecodeM α) := by
  intro r a' r' h
  simp only [DecodeM.pure_apply, Prod.mk.injEq, Flow.next.injEq] at h
  exact ⟨[], by simp [← h.2], by simp [← h.2, Hasher.run_nil]⟩

theorem consumes_fail (H : Hasher) {α : Type} : Consumes H (DecodeM.fail : DecodeM α) := by
  intro r a r' h
  simp [DecodeM.fail] at h

theorem consumes_raise (H : Hasher) {α : Type} (e : DecodeError) :
    Consumes H (DecodeM.raise e : DecodeM α) := by
  intro r a r' h
  simp [DecodeM.raise] at h

theorem consumes_bind (H : Hasher) {α β : Type} {m : DecodeM α} {f : α → DecodeM β}
    (hm : Consumes H m) (hf : ∀ a, Consumes H (f a)) : Consumes H (m >>= f) := by
  intro r b r' h
  obtain ⟨a, r1, h1, h2⟩ := DecodeM.bind_eq_next m f r r' b h
  obtain ⟨c1, hc1, hh1⟩ := hm r a r1 h1
  obtain ⟨c2, hc2, hh2⟩ := hf a r1 b r' h2
  exact ⟨c1 ++ c2, by rw [hc1, hc2, List.append_assoc], by rw [hh2, hh1, Hasher.run_append]⟩

theorem readBytes_eq_next (H : Hasher) (n : Nat) (r r' : HashedFileReader) (bs : List Nat)
    (h : readBytes H n r = (.next bs, r')) :
    n ≤ r.input.length ∧ bs = r.input.take n ∧ r'.input = r.input.drop n ∧
      r'.hash = H.run r.hash (r.input.take n) := by
  unfold readBytes HashedFileReader.Read at h
  by_cases hn : n ≤ r.input.length
  · simp only [hn, if_true, Prod.mk.injEq, Flow.next.injEq] at h
    obtain ⟨h1, h2⟩ := h
    subst h2
    exact ⟨hn, h1.symm, rfl, rfl⟩
  · simp [hn] at h

theorem consumes_readBytes (H : Hasher) (n : Nat) : Consumes H (readBytes H n) := by
  intro r bs r' h
  obtain ⟨_, _, h3, h4⟩ := readBytes_eq_next H n r r' bs h
  exact ⟨r.input.take n, by rw [h3, List.take_append_drop], h4⟩

theorem extends_pure {α : Type} (a : α) : Extends (pure a : DecodeM α) := by
  intro r a' r' q h
  simp only [DecodeM.pure_apply, Prod.mk.injEq, Flow.next.injEq] at h
  simp [← h.2, h.1, DecodeM.pure_apply]

theorem extends_fail {α : Type} : Extends (DecodeM.fail : DecodeM α) := by
  intro r a r' q h
  simp [DecodeM.fail] at h

theorem extends_raise {α : Type} (e : DecodeError) : Extends (DecodeM.raise e : DecodeM α) := by
  intro r a r' q h
  simp [DecodeM.raise] at h

theorem extends_bind {α β : Type} {m : DecodeM α} {f : α → DecodeM β}
    (hm : Extends m) (hf : ∀ a, Extends (f a)) : Extends (m >>= f) := by
  intro r b r' q h
  obtain ⟨a, r1, h1, h2⟩ := DecodeM.bind_eq_next m f r r' b h
  rw [DecodeM.bind_next _ _ _ _ _ (hm r a r1 q h1)]
  exact hf a r1 b r' q h2

theorem extends_readBytes (H : Hasher) (n : Nat) : Extends (readBytes H n) := by
  intro r bs r' q h
  obtain ⟨h1, h2, h3, h4⟩ := readBytes_eq_next H n r r' bs h
  have hr' : r' = ⟨r.input.drop n, H.run r.hash (r.input.take n)⟩ := by
    cases r'; simp_all
  subst hr' h2
  simp only [communication.bolt.readBytes, HashedFileReader.Read, List.length_append]
  rw [if_pos (by omega)]
  simp only [if_true, List.take_append_of_le_length h1, List.drop_append_of_le_length h1]

theorem consumes_readN (H : Hasher) {α : Type} (step : DecodeM α) (hs : Consumes H step)
    (n : Nat) : Consumes H (readN step n) := by
  induction n with
  | zero => exact consumes_pure H _
  | succ n ih =>
    unfold communication.bolt.readN
    exact consumes_bind H hs (fun a => consumes_bind H ih (fun _ => consumes_pure H _))

theorem extends_readN {α : Type} (step : DecodeM α) (hs : Extends step) (n : Nat) :
    Extends (readN step n) := by
  induction n with
  | zero => exact extends_pure _
  | succ n ih =>
    unfold communication.bolt.readN
    exact extends_bind hs (fun a => extends_bind ih (fun _ => extends_pure _))

theorem consumes_readSize (H : Hasher) (cls : Nat ⊕ Nat) : Consumes H (readSize H cls) := by
  cases cls with
  | inl n => exact consumes_pure H _
  | inr k => exact consumes_bind H (consumes_readBytes H k) (fun _ => consumes_pure H _)

theorem extends_readSize (H : Hasher) (cls : Nat ⊕ Nat) : Extends (readSize H cls) := by
  cases cls with
  | inl n => exact extends_pure _
  | inr k => exact extends_bind (extends_readBytes H k) (fun _ => extends_pure _)

theorem consumes_readEntry (H : Hasher) (value : DecodeM DecodedValue)
    (hv : Consumes H value) : Consumes H (readEntry value) := by
  unfold communication.bolt.readEntry
  refine consumes_bind H hv (fun k => ?_)
  cases k
  case string s => exact consumes_bind H hv (fun _ => consumes_pure H _)
  all_goals exact consumes_fail H

theorem extends_readEntry (value : DecodeM DecodedValue) (hv : Extends value) :
    Extends (readEntry value) := by
  unfold communication.bolt.readEntry
  refine extends_bind hv (fun k => ?_)
  cases k
  case string s => exact extends_bind hv (fun _ => extends_pure _)
  all_goals exact extends_fail

theorem consumes_readValueAux (H : Hasher) (fuel : Nat) :
    Consumes H (readValueAux H fuel) := by
  induction fuel with
  | zero => unfold communication.bolt.readValueAux; exact consumes_fail H
  | succ fuel ih =>
    unfold communication.bolt.readValueAux
    refine consumes_bind H (consumes_readBytes H 1) (fun mb => ?_)
    simp only
    split_ifs
    · exact consumes_pure H _
    · exact consumes_pure H _
    · exact consumes_pure H _
    · exact consumes_bind H (consumes_readBytes H 8) (fun _ => consumes_pure H _)
    · exact consumes_bind H (consumes_readBytes H 8) (fun _ => consumes_pure H _)
    · split
      · exact consumes_fail H
      · rename_i typ cls _
        refine consumes_bind H (consumes_readSize H cls) (fun n => ?_)
        cases typ
        · exact consumes_bind H (consumes_readBytes H n) (fun _ => consumes_pure H _)
        · exact consumes_bind H (consumes_readN H _ ih n) (fun _ => consumes_pure H _)
        · exact consumes_bind H (consumes_readN H _ (consumes_readEntry H _ ih) n)
            (fun _ => consumes_pure H _)

theorem extends_readValueAux (H : Hasher) (fuel : Nat) : Extends (readValueAux H fuel) := by
  induction fuel with
  | zero => unfold communication.bolt.readValueAux; exact extends_fail
  | succ fuel ih =>
    unfold communication.bolt.readValueAux
    refine extends_bind (extends_readBytes H 1) (fun mb => ?_)
    simp only
    split_ifs
    · exact extends_pure _
    · exact extends_pure _
    · exact extends_pure _
    · exact extends_bind (extends_readBytes H 8) (fun _ => extends_pure _)
    · exact extends_bind (extends_readBytes H 8) (fun _ => extends_pure _)
    · split
      · exact extends_fail
      · rename_i typ cls _
        refine extends_bind (extends_readSize H cls) (fun n => ?_)
        cases typ
        · exact extends_bind (extends_readBytes H n) (fun _ => extends_pure _)
        · exact extends_bind (extends_readN _ ih n) (fun _ => extends_pure _)
        · exact extends_bind (extends_readN _ (extends_readEntry _ ih) n)
            (fun _ => extends_pure _)

end communication.bolt

/-! ## Lemmas: the depth bound of `ReadValue` -/

namespace communication.bolt

open durability database

theorem refines_rfl {α : Type} (m : DecodeM α) : Refines m m :=
  fun _ _ _ h => h

theorem refines_bind {α β : Type} {m m' : DecodeM α} {f f' : α → DecodeM β}
    (hm : Refines m m') (hf : ∀ a, Refines (f a) (f' a)) : Refines (m >>= f) (m' >>= f') := by
  intro r b r' h
  obtain ⟨a, r1, h1, h2⟩ := DecodeM.bind_eq_next m f r r' b h
  rw [DecodeM.bind_next _ _ _ _ _ (hm r a r1 h1)]
  exact hf a r1 b r' h2

theorem refines_readN {α : Type} (step step' : DecodeM α) (hs : Refines step step') (n : Nat) :
    Refines (readN step n) (readN step' n) := by
  induction n with
  | zero => exact refines_rfl _
  | succ n ih =>
    unfold communication.bolt.readN
    exact refines_bind hs (fun a => refines_bind ih (fun _ => refines_rfl _))

theorem refines_readEntry (value value' : DecodeM DecodedValue) (hv : Refines value value') :
    Refines (readEntry value) (readEntry value') := by
  unfold communication.bolt.readEntry
  refine refines_bind hv (fun k => ?_)
  cases k
  case string s => exact refines_bind hv (fun _ => refines_rfl _)
  all_goals exact refines_rfl _

theorem readValueAux_mono (H : Hasher) (f : Nat) :
    ∀ f', f ≤ f' → Refines (readValueAux H f) (readValueAux H f') := by
  induction f with
  | zero =>
    intro f' _ r a r' h
    simp [readValueAux, DecodeM.fail] at h
  | succ f ih =>
    intro f' hf
    obtain ⟨g, rfl⟩ : ∃ g, f' = g + 1 := ⟨f' - 1, by omega⟩
    have hg : f ≤ g := by omega
    unfold communication.bolt.readValueAux
    refine refines_bind (refines_rfl _) (fun mb => ?_)
    simp only
    split_ifs
    · exact refines_rfl _
    · exact refines_rfl _
    · exact refines_rfl _
    · exact refines_rfl _
    · exact refines_rfl _
    · split
      · exact refines_rfl _
      · rename_i typ cls _
        refine refines_bind (refines_rfl _) (fun n => ?_)
        cases typ
        · exact refines_rfl _
        · exact refines_bind (refines_readN _ _ (ih g hg) n) (fun _ => refines_rfl _)
        · exact refines_bind (refines_readN _ _ (refines_readEntry _ _ (ih g hg)) n)
            (fun _ => refines_rfl _)

theorem encodeTypeSize_length_pos (n : Nat) (typ : Sized) :
    1 ≤ (encodeTypeSize n typ).length := by
  unfold encodeTypeSize
  split_ifs <;> simp

mutual
theorem depthValue_le (v : PropertyValue) : depthValue v ≤ (encodePropertyValue v).length :=
  match v with
  | .null => by simp [depthValue]
  | .bool _ => by simp [depthValue]
  | .int _ => by simp [depthValue]
  | .double _ => by simp [depthValue]
  | .string _ => by simp [depthValue]
  | .list vs => by
    have h1 := depthValues_le vs
    have h2 := encodeTypeSize_length_pos vs.length .List
    simp only [depthValue, encodePropertyValue, List.length_append]
    omega
  | .map kvs => by
    have h1 := depthEntries_le kvs
    have h2 := encodeTypeSize_length_pos kvs.length .Map
    simp only [depthValue, encodePropertyValue, List.length_append]
    omega
theorem depthValues_le (vs : List PropertyValue) : depthValues vs ≤ (encodeValues vs).length :=
  match vs with
  | [] => by simp [depthValues]
  | v :: vs => by
    have h1 := depthValue_le v
    have h2 := depthValues_le vs
    simp only [depthValues, encodeValues, List.length_append]
    omega
theorem depthEntries_le (kvs : List (List Nat × PropertyValue)) :
    depthEntries kvs ≤ (encodeEntries kvs).length :=
  match kvs with
  | [] => by simp [depthEntries]
  | (k, v) :: kvs => by
    have h1 := depthValue_le v
    have h2 := depthEntries_le kvs
    simp only [depthEntries, encodeEntries, List.length_append]
    omega
end

/-- A well-formed value written by the encoder is read back by `ReadValue`, whatever
follows it; the reader has consumed and hashed exactly its bytes. -/
theorem ReadValue_encode (H : Hasher) (v : PropertyValue) (rest : List Nat) (h : Nat)
    (hw : wfValue v = true) :
    Decoder.ReadValue H ⟨encodePropertyValue v ++ rest, h⟩
      = (.next v, ⟨rest, H.run h (encodePropertyValue v)⟩) := by
  unfold Decoder.ReadValue
  apply readValueAux_encode H v _ rest h hw
  have := depthValue_le v
  simp only [List.length_append]
  omega

theorem ReadValue_encodeInt (H : Hasher) (i : Int) (rest : List Nat) (h : Nat)
    (hlo : -2 ^ 63 ≤ i) (hhi : i < 2 ^ 63) :
    Decoder.ReadValue H ⟨encodeInt i ++ rest, h⟩
      = (.next (.int i), ⟨rest, H.run h (encodeInt i)⟩) :=
  ReadValue_encode H (.int i) rest h (by simp only [wfValue, Bool.and_eq_true, decide_eq_true_eq]; exact ⟨hlo, hhi⟩)

theorem ReadValue_encodeString (H : Hasher) (s : List Nat) (rest : List Nat) (h : Nat)
    (hs : s.length < 2 ^ 32) :
    Decoder.ReadValue H ⟨encodeString s ++ rest, h⟩
      = (.next (.string s), ⟨rest, H.run h (encodeString s)⟩) :=
  ReadValue_encode H (.string s) rest h (by simp only [wfValue, decide_eq_true_eq]; exact hs)

theorem consumes_ReadValue (H : Hasher) : Consumes H (Decoder.ReadValue H) :=
  fun r a r' h => consumes_readValueAux H _ r a r' h

theorem extends_ReadValue (H : Hasher) : Extends (Decoder.ReadValue H) := by
  intro r a r' q h
  have h1 := extends_readValueAux H _ r a r' q h
  exact readValueAux_mono H _ _ (by simp) _ _ _ h1

theorem consumes_ValueInt (H : Hasher) (dv : DecodedValue) : Consumes H (ValueInt dv) := by
  cases dv
  case int i => exact consumes_pure H _
  all_goals exact consumes_raise H _

theorem consumes_ValueString (H : Hasher) (dv : DecodedValue) :
    Consumes H (ValueString dv) := by
  cases dv
  case string s => exact consumes_pure H _
  all_goals exact consumes_raise H _

theorem extends_ValueInt (dv : DecodedValue) : Extends (ValueInt dv) := by
  cases dv
  case int i => exact extends_pure _
  all_goals exact extends_raise _

theorem extends_ValueString (dv : DecodedValue) : Extends (ValueString dv) := by
  cases dv
  case string s => exact extends_pure _
  all_goals exact extends_raise _

end communication.bolt

/-! ## Lemmas: the depth bound never cuts a value short -/

namespace communication.bolt

open durability database

theorem DecodeM.bind_congr_at {α β : Type} (m m' : DecodeM α) (f f' : α → DecodeM β)
    (r : HashedFileReader) (hm : m r = m' r)
    (hf : ∀ a r1, m r = (.next a, r1) → f a r1 = f' a r1) :
    (m >>= f) r = (m' >>= f') r := by
  rw [DecodeM.bind_apply, DecodeM.bind_apply, ← hm]
  rcases h : m r with ⟨fl, r1⟩
  cases fl with
  | next a => exact hf a r1 h
  | failed => rfl
  | raised e => rfl

theorem consumes_length (H : Hasher) {α : Type} (m : DecodeM α) (hm : Consumes H m)
    (r r' : HashedFileReader) (a : α) (h : m r = (.next a, r')) :
    r'.input.length ≤ r.input.length := by
  obtain ⟨c, hc, _⟩ := hm r a r' h
  rw [hc, List.length_append]
  omega

theorem readN_congr (H : Hasher) {α : Type} (step step' : DecodeM α) (L : Nat)
    (hs : ∀ r : HashedFileReader, r.input.length ≤ L → step r = step' r)
    (hc : Consumes H step) :
    ∀ (n : Nat) (r : HashedFileReader), r.input.length ≤ L → readN step n r = readN step' n r := by
  intro n
  induction n with
  | zero => intro r _; rfl
  | succ n ih =>
    intro r hr
    unfold communication.bolt.readN
    apply DecodeM.bind_congr_at _ _ _ _ r (hs r hr)
    intro a r1 h1
    have hr1 : r1.input.length ≤ L := le_trans (consumes_length H step hc r r1 a h1) hr
    exact DecodeM.bind_congr_at _ _ _ _ r1 (ih r1 hr1) (fun _ _ _ => rfl)

theorem readEntry_congr (H : Hasher) (value value' : DecodeM DecodedValue) (L : Nat)
    (hs : ∀ r : HashedFileReader, r.input.length ≤ L → value r = value' r)
    (hc : Consumes H value) (r : HashedFileReader) (hr : r.input.length ≤ L) :
    readEntry value r = readEntry value' r := by
  unfold communication.bolt.readEntry
  apply DecodeM.bind_congr_at _ _ _ _ r (hs r hr)
  intro k r1 h1
  have hr1 : r1.input.length ≤ L := le_trans (consumes_length H value hc r r1 k h1) hr
  cases k
  case string s => exact DecodeM.bind_congr_at _ _ _ _ r1 (hs r1 hr1) (fun _ _ _ => rfl)
  all_goals rfl

/-- The outcome of `readValueAux` does not depend on the depth bound once the bound exceeds
the number of bytes left: the bound is never what stops the decoder. -/
theorem readValueAux_fuel (H : Hasher) (f : Nat) :
    ∀ (f' : Nat) (r : HashedFileReader), r.input.length < f → r.input.length < f' →
      readValueAux H f r = readValueAux H f' r := by
  induction f with
  | zero => intro f' r h; omega
  | succ f ih =>
    intro f' r hf hf'
    obtain ⟨g, rfl⟩ : ∃ g, f' = g + 1 := ⟨f' - 1, by omega⟩
    unfold communication.bolt.readValueAux
    apply DecodeM.bind_congr_at _ _ _ _ r rfl
    intro mb r1 h1
    obtain ⟨hn, _, hin, _⟩ := readBytes_eq_next H 1 r r1 mb h1
    have hr1 : r1.input.length < f ∧ r1.input.length < g := by
      rw [hin, List.length_drop]
      omega
    split_ifs
    · rfl
    · rfl
    · rfl
    · rfl
    · rfl
    · rcases hsc : sizeClass (mb.headD 0) with _ | ⟨typ, cls⟩
      · rfl
      · simp only
        apply DecodeM.bind_congr_at _ _ _ _ r1 rfl
        intro n r2 h2
        have hr2 : r2.input.length ≤ r1.input.length :=
          consumes_length H _ (consumes_readSize H cls) r1 r2 n h2
        have hstep : ∀ r3 : HashedFileReader, r3.input.length ≤ r2.input.length →
            readValueAux H f r3 = readValueAux H g r3 :=
          fun r3 h3 => ih g r3 (by omega) (by omega)
        cases typ
        · rfl
        · exact DecodeM.bind_congr_at _ _ _ _ r2
            (readN_congr H _ _ _ hstep (consumes_readValueAux H f) n r2 (le_refl _))
            (fun _ _ _ => rfl)
        · exact DecodeM.bind_congr_at _ _ _ _ r2
            (readN_congr H _ _ _
              (fun r3 h3 => readEntry_congr H _ _ _ hstep (consumes_readValueAux H f) r3 h3)
              (consumes_readEntry H _ (consumes_readValueAux H f)) n r2 (le_refl _))
            (fun _ _ _ => rfl)

/-- The decoder's `ReadValue` is `readValueAux` at any depth bound above the number of bytes
left. -/
theorem ReadValue_eq_aux (H : Hasher) (r : HashedFileReader) (f : Nat)
    (hf : r.input.length < f) : Decoder.ReadValue H r = readValueAux H f r :=
  readValueAux_fuel H _ f r (by omega) hf

end communication.bolt

/-! ## Lemmas: a record written is the record read -/

namespace database

open durability communication.bolt

theorem Write_Write (H : Hasher) (w : HashedFileWriter) (a b : List Nat) :
    (w.Write H a).Write H b = w.Write H (a ++ b) := by
  simp [HashedFileWriter.Write, Hasher.run_append]

theorem Write_nil (H : Hasher) (w : HashedFileWriter) : w.Write H [] = w := by
  simp [HashedFileWriter.Write, Hasher.run_nil]

/-- The switch of `Encode` writes the schedule of the kind. -/
theorem EncodeFields_eq (H : Hasher) (d : StateDelta) (w : HashedFileWriter) :
    d.EncodeFields H w = w.Write H (encodeFieldList d.schedule) := by
  unfold StateDelta.EncodeFields StateDelta.schedule
  split <;>
    simp only [PrimitiveEncoder.WriteInt, PrimitiveEncoder.WriteString,
      PrimitiveEncoder.WritePropertyValue, Write_Write, Write_nil, encodeFieldList,
      Field.encode, List.append_nil, List.append_assoc]

/-- The bytes and the hash that `Encode` leaves in the writer. -/
theorem Encode_eq (H : Hasher) (d : StateDelta) (w : HashedFileWriter) :
    d.Encode H w = w.Write H (d.recordBytes H w.hash) := by
  unfold StateDelta.Encode StateDelta.recordBytes StateDelta.fieldBytes
  simp only [EncodeFields_eq, PrimitiveEncoder.WriteInt, HashedFileWriter.WriteValue,
    Write_Write, encodeFieldList, Field.encode, List.append_assoc]
  simp only [HashedFileWriter.Write]

theorem DECODE_MEMBER_INT_encode (H : Hasher) (u : Nat) (rest : List Nat) (h : Nat)
    (hu : u < 2 ^ 64) :
    DECODE_MEMBER_INT H ⟨encodeInt (toInt64 u) ++ rest, h⟩
      = (.next u, ⟨rest, H.run h (encodeInt (toInt64 u))⟩) := by
  unfold DECODE_MEMBER_INT
  have hlo : -2 ^ 63 ≤ toInt64 u := by unfold toInt64; split <;> omega
  have hhi : toInt64 u < 2 ^ 63 := by unfold toInt64; split <;> omega
  rw [DecodeM.bind_next _ _ _ _ _ (ReadValue_encodeInt H _ rest h hlo hhi)]
  simp only [ValueInt]
  rw [DecodeM.bind_next _ _ _ _ _ (DecodeM.pure_apply _ _)]
  simp only [DecodeM.pure_apply, toUInt64_toInt64 u hu]

theorem DECODE_MEMBER_STRING_encode (H : Hasher) (s : List Nat) (rest : List Nat) (h : Nat)
    (hs : s.length < 2 ^ 32) :
    DECODE_MEMBER_STRING H ⟨encodeString s ++ rest, h⟩
      = (.next s, ⟨rest, H.run h (encodeString s)⟩) := by
  unfold DECODE_MEMBER_STRING
  rw [DecodeM.bind_next _ _ _ _ _ (ReadValue_encodeString H _ rest h hs)]
  rfl

theorem DECODE_VALUE_encode (H : Hasher) (v : PropertyValue) (rest : List Nat) (h : Nat)
    (hv : wfValue v = true) :
    DECODE_VALUE H ⟨encodePropertyValue v ++ rest, h⟩
      = (.next v, ⟨rest, H.run h (encodePropertyValue v)⟩) := by
  unfold DECODE_VALUE
  rw [DecodeM.bind_next _ _ _ _ _ (ReadValue_encode H _ rest h hv)]
  rfl

theorem ofInt64_toInt64 (t : DeltaType) (ht : t.known = true) :
    DeltaType.ofInt64 t.toInt64 = t := by
  cases t <;> first | rfl | simp [DeltaType.known] at ht

theorem toInt64_type_range (t : DeltaType) (ht : t.known = true) :
    -2 ^ 63 ≤ t.toInt64 ∧ t.toInt64 < 2 ^ 63 := by
  cases t <;> first | (simp [DeltaType.toInt64]; done) | simp [DeltaType.known] at ht

end database

namespace database

open durability communication.bolt

theorem DecodeFields_schedule (H : Hasher) (d : StateDelta) (hw : d.wf) (rest : List Nat)
    (h : Nat) :
    StateDelta.DecodeFields H (StateDelta.init d.type d.transaction_id)
        ⟨encodeFieldList d.schedule ++ rest, h⟩
      = (.next d.stored, ⟨rest, H.run h (encodeFieldList d.schedule)⟩) := by
  obtain ⟨type, tx, f1, f2, f3, f4, f5, f6, f7, f8, f9, f10, f11, f12, f13, f14⟩ := d
  obtain ⟨hk, htx, h1, h2, h3, h4, h5, h6, h7, h8, h9, h10, h11, h12, h13, h14⟩ := hw
  cases type <;>
    simp only [StateDelta.DecodeFields, StateDelta.schedule, StateDelta.stored,
      StateDelta.init, encodeFieldList, Field.encode, List.append_assoc, List.nil_append,
      List.append_nil]
  case TRANSACTION_BEGIN =>
    simp only [DecodeM.pure_apply, Hasher.run_nil, Hasher.run_append]
  case TRANSACTION_COMMIT =>
    simp only [DecodeM.pure_apply, Hasher.run_nil, Hasher.run_append]
  case TRANSACTION_ABORT =>
    simp only [DecodeM.pure_apply, Hasher.run_nil, Hasher.run_append]
  case CREATE_VERTEX =>
    rw [DecodeM.bind_next _ _ _ _ _ (DECODE_MEMBER_INT_encode H _ _ _ h1)]
    simp only [DecodeM.pure_apply, Hasher.run_nil, Hasher.run_append]
  case CREATE_EDGE =>
    rw [DecodeM.bind_next _ _ _ _ _ (DECODE_MEMBER_INT_encode H _ _ _ h2)]
    rw [DecodeM.bind_next _ _ _ _ _ (DECODE_MEMBER_INT_encode H _ _ _ h4)]
    rw [DecodeM.bind_next _ _ _ _ _ (DECODE_MEMBER_INT_encode H _ _ _ h6)]
    rw [DecodeM.bind_next _ _ _ _ _ (DECODE_MEMBER_INT_encode H _ _ _ h8)]
    rw [DecodeM.bind_next _ _ _ _ _ (DECODE_MEMBER_STRING_encode H _ _ _ h11)]
    simp only [DecodeM.pure_apply, Hasher.run_nil, Hasher.run_append]
  case ADD_OUT_EDGE =>
    rw [DecodeM.bind_next _ _ _ _ _ (DECODE_MEMBER_INT_encode H _ _ _ h1)]
    rw [DecodeM.bind_next _ _ _ _ _ (DECODE_MEMBER_INT_encode H _ _ _ h7)]
    rw [DecodeM.bind_next _ _ _ _ _ (DECODE_MEMBER_INT_encode H _ _ _ h3)]
    rw [DecodeM.bind_next _ _ _ _ _ (DECODE_MEMBER_INT_encode H _ _ _ h8)]
    simp only [DecodeM.pure_apply, Hasher.run_nil, Hasher.run_append]
  case REMOVE_OUT_EDGE =>
    rw [DecodeM.bind_next _ _ _ _ _ (DECODE_MEMBER_INT_encode H _ _ _ h1)]
    rw [DecodeM.bind_next _ _ _ _ _ (DECODE_MEMBER_INT_encode H _ _ _ h3)]
    simp only [DecodeM.pure_apply, Hasher.run_nil, Hasher.run_append]
  case ADD_IN_EDGE =>
    rw [DecodeM.bind_next _ _ _ _ _ (DECODE_MEMBER_INT_encode H _ _ _ h1)]
    rw [DecodeM.bind_next _ _ _ _ _ (DECODE_MEMBER_INT_encode H _ _ _ h5)]
    rw [DecodeM.bind_next _ _ _ _ _ (DECODE_MEMBER_INT_encode H _ _ _ h3)]
    rw [DecodeM.bind_next _ _ _ _ _ (DECODE_MEMBER_INT_encode H _ _ _ h8)]
    simp only [DecodeM.pure_apply, Hasher.run_nil, Hasher.run_append]
  case REMOVE_IN_EDGE =>
    rw [DecodeM.bind_next _ _ _ _ _ (DECODE_MEMBER_INT_encode H _ _ _ h1)]
    rw [DecodeM.bind_next _ _ _ _ _ (DECODE_MEMBER_INT_encode H _ _ _ h3)]
    simp only [DecodeM.pure_apply, Hasher.run_nil, Hasher.run_append]
  case SET_PROPERTY_VERTEX =>
    rw [DecodeM.bind_next _ _ _ _ _ (DECODE_MEMBER_INT_encode H _ _ _ h1)]
    rw [DecodeM.bind_next _ _ _ _ _ (DECODE_MEMBER_INT_encode H _ _ _ h9)]
    rw [DecodeM.bind_next _ _ _ _ _ (DECODE_MEMBER_STRING_encode H _ _ _ h12)]
    rw [DecodeM.bind_next _ _ _ _ _ (DECODE_VALUE_encode H _ _ _ h14)]
    simp only [DecodeM.pure_apply, Hasher.run_nil, Hasher.run_append]
  case SET_PROPERTY_EDGE =>
    rw [DecodeM.bind_next _ _ _ _ _ (DECODE_MEMBER_INT_encode H _ _ _ h2)]
    rw [DecodeM.bind_next _ _ _ _ _ (DECODE_MEMBER_INT_encode H _ _ _ h9)]
    rw [DecodeM.bind_next _ _ _ _ _ (DECODE_MEMBER_STRING_encode H _ _ _ h12)]
    rw [DecodeM.bind_next _ _ _ _ _ (DECODE_VALUE_encode H _ _ _ h14)]
    simp only [DecodeM.pure_apply, Hasher.run_nil, Hasher.run_append]
  case ADD_LABEL =>
    rw [DecodeM.bind_next _ _ _ _ _ (DECODE_MEMBER_INT_encode H _ _ _ h1)]
    rw [DecodeM.bind_next _ _ _ _ _ (DECODE_MEMBER_INT_encode H _ _ _ h10)]
    rw [DecodeM.bind_next _ _ _ _ _ (DECODE_MEMBER_STRING_encode H _ _ _ h13)]
    simp only [DecodeM.pure_apply, Hasher.run_nil, Hasher.run_append]
  case REMOVE_LABEL =>
    rw [DecodeM.bind_next _ _ _ _ _ (DECODE_MEMBER_INT_encode H _ _ _ h1)]
    rw [DecodeM.bind_next _ _ _ _ _ (DECODE_MEMBER_INT_encode H _ _ _ h10)]
    rw [DecodeM.bind_next _ _ _ _ _ (DECODE_MEMBER_STRING_encode H _ _ _ h13)]
    simp only [DecodeM.pure_apply, Hasher.run_nil, Hasher.run_append]
  case REMOVE_VERTEX =>
    rw [DecodeM.bind_next _ _ _ _ _ (DECODE_MEMBER_INT_encode H _ _ _ h1)]
    simp only [DecodeM.pure_apply, Hasher.run_nil, Hasher.run_append]
  case REMOVE_EDGE =>
    rw [DecodeM.bind_next _ _ _ _ _ (DECODE_MEMBER_INT_encode H _ _ _ h2)]
    simp only [DecodeM.pure_apply, Hasher.run_nil, Hasher.run_append]
  case BUILD_INDEX =>
    rw [DecodeM.bind_next _ _ _ _ _ (DECODE_MEMBER_INT_encode H _ _ _ h10)]
    rw [DecodeM.bind_next _ _ _ _ _ (DECODE_MEMBER_STRING_encode H _ _ _ h13)]
    rw [DecodeM.bind_next _ _ _ _ _ (DECODE_MEMBER_INT_encode H _ _ _ h9)]
    rw [DecodeM.bind_next _ _ _ _ _ (DECODE_MEMBER_STRING_encode H _ _ _ h12)]
    simp only [DecodeM.pure_apply, Hasher.run_nil, Hasher.run_append]
  case unknown v => simp [DeltaType.known] at hk

/-- What `Decode` reads before the hash word, on the fields of a well-formed delta. -/
theorem DecodeRecord_fieldBytes (H : Hasher) (d : StateDelta) (hw : d.wf) (rest : List Nat)
    (h : Nat) :
    StateDelta.DecodeRecord H ⟨d.fieldBytes ++ rest, h⟩
      = (.next d.stored, ⟨rest, H.run h d.fieldBytes⟩) := by
  have hk := hw.1
  have htx := hw.2.1
  have hr := toInt64_type_range d.type hk
  unfold StateDelta.DecodeRecord StateDelta.fieldBytes
  simp only [encodeFieldList, Field.encode, List.append_assoc]
  rw [DecodeM.bind_next _ _ _ _ _ (ReadValue_encodeInt H _ _ h hr.1 hr.2)]
  simp only [ValueInt]
  rw [DecodeM.bind_next _ _ _ _ _ (DecodeM.pure_apply _ _)]
  rw [DecodeM.bind_next _ _ _ _ _ (DECODE_MEMBER_INT_encode H _ _ _ htx)]
  rw [ofInt64_toInt64 d.type hk, DecodeFields_schedule H d hw]
  simp only [Hasher.run_append]

theorem VerifyHash_ok (H : Hasher) (x : Nat) (rest : List Nat) (hx : x < 2 ^ 64) :
    StateDelta.VerifyHash H ⟨leBytes 8 x ++ rest, x⟩
      = (.next (), ⟨rest, H.run x (leBytes 8 x)⟩) := by
  unfold StateDelta.VerifyHash HashedFileReader.ReadType HashedFileReader.Read
  have hl : (leBytes 8 x).length = 8 := leBytes_length 8 x
  simp only [List.length_append, hl, Nat.le_add_right, if_true,
    List.take_left' hl, List.drop_left' hl, leValue_leBytes]
  rw [Nat.mod_eq_of_lt (by simpa using hx)]
  simp

/-- The record of a well-formed delta, written at writer hash `h`, is decoded by a reader
at hash `h` to the stored form of the delta; the reader stops right after the record with the
hash of the writer. -/
theorem Decode_recordBytes (H : Hasher) (d : StateDelta) (hw : d.wf) (rest : List Nat)
    (h : Nat) (hh : h < 2 ^ 64) :
    StateDelta.Decode H ⟨d.recordBytes H h ++ rest, h⟩
      = (some d.stored, ⟨rest, H.run h (d.recordBytes H h)⟩) := by
  unfold StateDelta.Decode StateDelta.DecodeBody StateDelta.recordBytes
  rw [List.append_assoc, DecodeM.bind_next _ _ _ _ _ (DecodeRecord_fieldBytes H d hw _ h)]
  rw [DecodeM.bind_next _ _ _ _ _ (VerifyHash_ok H _ rest (H.run_lt h _ hh))]
  simp only [DecodeM.pure_apply, Hasher.run_append]

theorem agreesOnRequired_stored (d : StateDelta) : d.agreesOnRequired d.stored := by
  obtain ⟨type, tx, f1, f2, f3, f4, f5, f6, f7, f8, f9, f10, f11, f12, f13, f14⟩ := d
  cases type <;> simp [StateDelta.agreesOnRequired, StateDelta.stored, StateDelta.init]

end database

/-! ## Lemmas: streams of records -/

namespace database

open durability communication.bolt

theorem EncodeAll_eq (H : Hasher) (ds : List StateDelta) (w : HashedFileWriter) :
    EncodeAll H ds w = w.Write H (streamBytes H w.hash ds) := by
  induction ds generalizing w with
  | nil => simp [EncodeAll, streamBytes, Write_nil]
  | cons d ds ih =>
    have : EncodeAll H (d :: ds) w = EncodeAll H ds (d.Encode H w) := rfl
    rw [this, ih, Encode_eq, Write_Write]
    rfl

theorem EncodeAll_out_fresh (H : Hasher) (ds : List StateDelta) :
    (EncodeAll H ds (HashedFileWriter.fresh H)).out = streamBytes H H.start ds := by
  rw [EncodeAll_eq]
  simp [HashedFileWriter.Write, HashedFileWriter.fresh]

theorem streamBytes_append (H : Hasher) (h : Nat) (ds1 ds2 : List StateDelta) :
    streamBytes H h (ds1 ++ ds2)
      = streamBytes H h ds1 ++ streamBytes H (H.run h (streamBytes H h ds1)) ds2 := by
  induction ds1 generalizing h with
  | nil => simp [streamBytes, Hasher.run_nil]
  | cons d ds ih => simp [streamBytes, ih, Hasher.run_append]

theorem DecodeSeq_succ (H : Hasher) (n : Nat) (r : HashedFileReader) :
    DecodeSeq H (n + 1) r
      = ((StateDelta.Decode H r).1 :: (DecodeSeq H n (StateDelta.Decode H r).2).1,
          (DecodeSeq H n (StateDelta.Decode H r).2).2) := rfl

/-- The first records of a stream are decoded to their stored forms, whatever follows them. -/
theorem DecodeSeq_streamBytes (H : Hasher) (ds : List StateDelta) (hw : ∀ d ∈ ds, d.wf)
    (rest : List Nat) (h : Nat) (hh : h < 2 ^ 64) (n : Nat) :
    DecodeSeq H (ds.length + n) ⟨streamBytes H h ds ++ rest, h⟩
      = (ds.map (fun d => some d.stored)
          ++ (DecodeSeq H n ⟨rest, H.run h (streamBytes H h ds)⟩).1,
          (DecodeSeq H n ⟨rest, H.run h (streamBytes H h ds)⟩).2) := by
  induction ds generalizing h with
  | nil => simp [streamBytes, Hasher.run_nil]
  | cons d ds ih =>
    have hd : d.wf := hw d (List.mem_cons_self _ _)
    have hds : ∀ d' ∈ ds, d'.wf := fun d' hd' => hw d' (List.mem_cons_of_mem _ hd')
    have hlen : (d :: ds).length + n = (ds.length + n) + 1 := by simp; omega
    rw [hlen, DecodeSeq_succ]
    simp only [streamBytes, List.append_assoc]
    rw [Decode_recordBytes H d hd _ h hh]
    simp only
    rw [ih hds _ (H.run_lt h _ hh)]
    simp [Hasher.run_append]

/-- The results for the first `k` records of a stream do not depend on what follows the
records. -/
theorem DecodeSeq_take (H : Hasher) (ds : List StateDelta) (hw : ∀ d ∈ ds, d.wf)
    (rest : List Nat) (h : Nat) (hh : h < 2 ^ 64) (n k : Nat) (hk : k ≤ ds.length) :
    (DecodeSeq H n ⟨streamBytes H h ds ++ rest, h⟩).1.take k
      = ((ds.map (fun d => some d.stored)).take k).take n := by
  induction ds generalizing h n k with
  | nil =>
    have : k = 0 := by simpa using hk
    subst this
    simp
  | cons d ds ih =>
    have hd : d.wf := hw d (List.mem_cons_self _ _)
    have hds : ∀ d' ∈ ds, d'.wf := fun d' hd' => hw d' (List.mem_cons_of_mem _ hd')
    cases n with
    | zero => simp [DecodeSeq]
    | succ n =>
      cases k with
      | zero => simp
      | succ k =>
        rw [DecodeSeq_succ]
        simp only [streamBytes, List.append_assoc]
        rw [Decode_recordBytes H d hd _ h hh]
        simp only [List.map_cons, List.take_succ_cons]
        rw [ih hds _ (H.run_lt h _ hh) n k (by simpa using hk)]

theorem flipBit_append_right (a b : List Nat) (pos bit : Nat) (hpos : a.length ≤ pos) :
    flipBit (a ++ b) pos bit = a ++ flipBit b (pos - a.length) bit := by
  induction a generalizing pos with
  | nil => simp
  | cons x a ih =>
    obtain ⟨p, rfl⟩ : ∃ p, pos = p + 1 := ⟨pos - 1, by simp at hpos; omega⟩
    have h1 : flipBit (x :: a ++ b) (p + 1) bit = x :: flipBit (a ++ b) p bit := rfl
    rw [h1, ih p (by simpa using hpos)]
    simp

theorem forall2_agrees_stored (ds : List StateDelta) :
    List.Forall₂ StateDelta.agreesOnRequired ds (ds.map StateDelta.stored) := by
  induction ds with
  | nil => simp
  | cons d ds ih => exact List.Forall₂.cons (agreesOnRequired_stored d) ih

end database

/-! ## Lemmas: what `Decode` consumes -/

namespace database

open durability communication.bolt

theorem consumes_DECODE_MEMBER_INT (H : Hasher) : Consumes H (DECODE_MEMBER_INT H) :=
  consumes_bind H (consumes_ReadValue H)
    (fun dv => consumes_bind H (consumes_ValueInt H dv) (fun _ => consumes_pure H _))

theorem consumes_DECODE_MEMBER_STRING (H : Hasher) : Consumes H (DECODE_MEMBER_STRING H) :=
  consumes_bind H (consumes_ReadValue H) (fun dv => consumes_ValueString H dv)

theorem consumes_DECODE_VALUE (H : Hasher) : Consumes H (DECODE_VALUE H) :=
  consumes_bind H (consumes_ReadValue H) (fun _ => consumes_pure H _)

theorem extends_DECODE_MEMBER_INT (H : Hasher) : Extends (DECODE_MEMBER_INT H) :=
  extends_bind (extends_ReadValue H)
    (fun dv => extends_bind (extends_ValueInt dv) (fun _ => extends_pure _))

theorem extends_DECODE_MEMBER_STRING (H : Hasher) : Extends (DECODE_MEMBER_STRING H) :=
  extends_bind (extends_ReadValue H) (fun dv => extends_ValueString dv)

theorem extends_DECODE_VALUE (H : Hasher) : Extends (DECODE_VALUE H) :=
  extends_bind (extends_ReadValue H) (fun _ => extends_pure _)

theorem consumes_DecodeFields (H : Hasher) (r_val : StateDelta) :
    Consumes H (StateDelta.DecodeFields H r_val) := by
  unfold StateDelta.DecodeFields
  split <;>
    repeat' first
      | exact consumes_pure H _
      | exact consumes_DECODE_MEMBER_INT H
      | exact consumes_DECODE_MEMBER_STRING H
      | exact consumes_DECODE_VALUE H
      | apply consumes_bind H
      | intro _

theorem extends_DecodeFields (H : Hasher) (r_val : StateDelta) :
    Extends (StateDelta.DecodeFields H r_val) := by
  unfold StateDelta.DecodeFields
  split <;>
    repeat' first
      | exact extends_pure _
      | exact extends_DECODE_MEMBER_INT H
      | exact extends_DECODE_MEMBER_STRING H
      | exact extends_DECODE_VALUE H
      | apply extends_bind
      | intro _

theorem consumes_DecodeRecord (H : Hasher) : Consumes H (StateDelta.DecodeRecord H) :=
  consumes_bind H (consumes_ReadValue H) (fun dv =>
    consumes_bind H (consumes_ValueInt H dv) (fun _ =>
      consumes_bind H (consumes_DECODE_MEMBER_INT H) (fun _ => consumes_DecodeFields H _)))

theorem extends_DecodeRecord (H : Hasher) : Extends (StateDelta.DecodeRecord H) :=
  extends_bind (extends_ReadValue H) (fun dv =>
    extends_bind (extends_ValueInt dv) (fun _ =>
      extends_bind (extends_DECODE_MEMBER_INT H) (fun _ => extends_DecodeFields H _)))

/-- The verification goes on exactly when eight bytes follow and their value is the hash of
the reader; it consumes and hashes them. -/
theorem VerifyHash_eq_next (H : Hasher) (r r' : HashedFileReader) :
    StateDelta.VerifyHash H r = (.next (), r') ↔
      8 ≤ r.input.length ∧ leValue (r.input.take 8) = r.hash ∧
        r' = ⟨r.input.drop 8, H.run r.hash (r.input.take 8)⟩ := by
  unfold StateDelta.VerifyHash HashedFileReader.ReadType HashedFileReader.Read
  by_cases h8 : 8 ≤ r.input.length
  · simp only [h8, if_true, true_and]
    by_cases heq : r.hash = leValue (r.input.take 8)
    · rw [if_neg (by simpa using heq)]
      constructor
      · intro h
        simp only [Prod.mk.injEq, true_and] at h
        exact ⟨heq.symm, h.symm⟩
      · rintro ⟨_, h⟩
        rw [h]
    · rw [if_pos (by simpa using heq)]
      constructor
      · intro h
        simp at h
      · rintro ⟨h, _⟩
        exact absurd h.symm heq
  · simp [h8]

theorem consumes_VerifyHash (H : Hasher) : Consumes H (StateDelta.VerifyHash H) := by
  intro r a r' h
  obtain ⟨_, _, h3⟩ := (VerifyHash_eq_next H r r').1 h
  subst h3
  exact ⟨r.input.take 8, by simp, rfl⟩

theorem extends_VerifyHash (H : Hasher) : Extends (StateDelta.VerifyHash H) := by
  intro r a r' q h
  obtain ⟨h1, h2, h3⟩ := (VerifyHash_eq_next H r r').1 h
  subst h3
  cases a
  apply (VerifyHash_eq_next H _ _).2
  simp only [List.length_append, List.take_append_of_le_length h1,
    List.drop_append_of_le_length h1]
  exact ⟨by omega, h2, trivial⟩

theorem consumes_DecodeBody (H : Hasher) : Consumes H (StateDelta.DecodeBody H) :=
  consumes_bind H (consumes_DecodeRecord H) (fun _ =>
    consumes_bind H (consumes_VerifyHash H) (fun _ => consumes_pure H _))

theorem extends_DecodeBody (H : Hasher) : Extends (StateDelta.DecodeBody H) :=
  extends_bind (extends_DecodeRecord H) (fun _ =>
    extends_bind (extends_VerifyHash H) (fun _ => extends_pure _))

theorem Decode_eq_some (H : Hasher) (r r' : HashedFileReader) (d : StateDelta) :
    StateDelta.Decode H r = (some d, r') ↔ StateDelta.DecodeBody H r = (.next d, r') := by
  unfold StateDelta.Decode
  rcases hb : StateDelta.DecodeBody H r with ⟨fl, r1⟩
  cases fl with
  | next a => simp
  | failed => simp
  | raised e => cases e <;> simp

/-- The body of `Decode` goes on exactly when the record part does and the verification
that follows it does. -/
theorem DecodeBody_eq_next (H : Hasher) (r r' : HashedFileReader) (d : StateDelta) :
    StateDelta.DecodeBody H r = (.next d, r') ↔
      ∃ mid, StateDelta.DecodeRecord H r = (.next d, mid) ∧
        StateDelta.VerifyHash H mid = (.next (), r') := by
  constructor
  · intro h
    obtain ⟨a, mid, h1, h2⟩ := DecodeM.bind_eq_next _ _ r r' d h
    obtain ⟨u, r2, h3, h4⟩ := DecodeM.bind_eq_next _ _ mid r' d h2
    simp only [DecodeM.pure_apply, Prod.mk.injEq, Flow.next.injEq] at h4
    obtain ⟨rfl, rfl⟩ := h4
    exact ⟨mid, h1, h3⟩
  · rintro ⟨mid, h1, h2⟩
    unfold StateDelta.DecodeBody
    rw [DecodeM.bind_next _ _ _ _ _ h1, DecodeM.bind_next _ _ _ _ _ h2]
    rfl

end database

/-! ## Lemmas: a flipped bit and the hash -/

namespace database

open durability communication.bolt

theorem xor_two_pow_ne (b bit : Nat) : b ^^^ 2 ^ bit ≠ b := by
  intro h
  have h2 : b ^^^ 2 ^ bit = b ^^^ 0 := by rw [h, Nat.xor_zero]
  have h3 : 2 ^ bit = 0 := Nat.xor_right_injective h2
  exact absurd h3 (by positivity)

theorem flipBit_length (l : List Nat) (pos bit : Nat) : (flipBit l pos bit).length = l.length := by
  induction l generalizing pos with
  | nil => rfl
  | cons b bs ih =>
    cases pos with
    | zero => rfl
    | succ p => simp [flipBit, ih]

theorem flipBit_append_left (a b : List Nat) (pos bit : Nat) (hpos : pos < a.length) :
    flipBit (a ++ b) pos bit = flipBit a pos bit ++ b := by
  induction a generalizing pos with
  | nil => simp at hpos
  | cons x a ih =>
    cases pos with
    | zero => rfl
    | succ p =>
      have h1 : flipBit (x :: a ++ b) (p + 1) bit = x :: flipBit (a ++ b) p bit := rfl
      have h2 : flipBit (x :: a) (p + 1) bit = x :: flipBit a p bit := rfl
      rw [h1, h2, ih p (by simpa using hpos)]
      rfl

theorem leValue_flipBit_ne (l : List Nat) (pos bit : Nat) (hpos : pos < l.length) :
    leValue (flipBit l pos bit) ≠ leValue l := by
  induction l generalizing pos with
  | nil => simp at hpos
  | cons b bs ih =>
    cases pos with
    | zero =>
      have := xor_two_pow_ne b bit
      simp only [flipBit, leValue]
      omega
    | succ p =>
      have := ih p (by simpa using hpos)
      simp only [flipBit, leValue]
      omega

theorem run_ne_of_ne (H : Hasher) (hinj : H.Injective) (l : List Nat) (h h' : Nat)
    (hh : h < 2 ^ 64) (hh' : h' < 2 ^ 64) (hne : h ≠ h') : H.run h l ≠ H.run h' l := by
  induction l generalizing h h' with
  | nil => exact hne
  | cons b bs ih =>
    rw [Hasher.run_cons, Hasher.run_cons]
    exact ih _ _ (H.step_lt h b) (H.step_lt h' b) (fun heq => hne (hinj.1 h h' b hh hh' heq))

theorem run_flipBit_ne (H : Hasher) (hinj : H.Injective) (l : List Nat) (h pos bit : Nat)
    (hh : h < 2 ^ 64) (hpos : pos < l.length) (hbit : bit < 8) :
    H.run h (flipBit l pos bit) ≠ H.run h l := by
  induction l generalizing h pos with
  | nil => simp at hpos
  | cons b bs ih =>
    cases pos with
    | zero =>
      simp only [flipBit, Hasher.run_cons]
      exact run_ne_of_ne H hinj bs _ _ (H.step_lt _ _) (H.step_lt _ _) (hinj.2 h b bit hh hbit)
    | succ p =>
      simp only [flipBit, Hasher.run_cons]
      exact ih _ p (H.step_lt _ _) (by simpa using hpos)

/-- When the members are read and the word that follows is not the hash of the reader,
`Decode` returns absent and leaves the reader after the word, with the word hashed. -/
theorem Decode_mismatch (H : Hasher) (r : HashedFileReader) (d : StateDelta)
    (word rest : List Nat) (g : Nat)
    (hrec : StateDelta.DecodeRecord H r = (.next d, ⟨word ++ rest, g⟩))
    (hlen : word.length = 8) (hne : leValue word ≠ g) :
    StateDelta.Decode H r = (none, ⟨rest, H.run g word⟩) := by
  unfold StateDelta.Decode StateDelta.DecodeBody
  rw [DecodeM.bind_next _ _ _ _ _ hrec]
  have hv : StateDelta.VerifyHash H ⟨word ++ rest, g⟩ = (.failed, ⟨rest, H.run g word⟩) := by
    unfold StateDelta.VerifyHash HashedFileReader.ReadType HashedFileReader.Read
    simp only [List.length_append, hlen, Nat.le_add_right, if_true, List.take_left' hlen,
      List.drop_left' hlen]
    rw [if_pos (fun h => hne h.symm)]
  rw [DecodeM.bind_apply, hv]

theorem Decode_nil (H : Hasher) (h : Nat) :
    StateDelta.Decode H ⟨[], h⟩ = (none, ⟨[], h⟩) := by
  simp [StateDelta.Decode, StateDelta.DecodeBody, StateDelta.DecodeRecord, Decoder.ReadValue,
    readValueAux, DecodeM.bind_apply, readBytes, HashedFileReader.Read]

theorem DecodeSeq_nil (H : Hasher) (h n : Nat) :
    (DecodeSeq H n ⟨[], h⟩).1 = List.replicate n none := by
  induction n with
  | zero => rfl
  | succ n ih => rw [DecodeSeq_succ, Decode_nil]; simp [ih, List.replicate_succ]

/-- Once the hash of the reader differs from the hash the writer had at the same position,
every later record is rejected. -/
theorem DecodeSeq_desync (H : Hasher) (hinj : H.Injective) (ds : List StateDelta)
    (hw : ∀ d ∈ ds, d.wf) (g h : Nat) (hg : g < 2 ^ 64) (hh : h < 2 ^ 64) (hne : h ≠ g)
    (n : Nat) :
    (DecodeSeq H n ⟨streamBytes H g ds, h⟩).1 = List.replicate n none := by
  induction ds generalizing g h n with
  | nil => exact DecodeSeq_nil H h n
  | cons d ds ih =>
    have hd : d.wf := hw d (List.mem_cons_self _ _)
    have hds : ∀ d' ∈ ds, d'.wf := fun d' hd' => hw d' (List.mem_cons_of_mem _ hd')
    cases n with
    | zero => rfl
    | succ n =>
      rw [DecodeSeq_succ]
      simp only [streamBytes, StateDelta.recordBytes, List.append_assoc]
      have hrec := DecodeRecord_fieldBytes H d hd
        (leBytes 8 (H.run g d.fieldBytes) ++ streamBytes H
          (H.run g (d.fieldBytes ++ leBytes 8 (H.run g d.fieldBytes))) ds) h
      have hval : leValue (leBytes 8 (H.run g d.fieldBytes)) = H.run g d.fieldBytes := by
        rw [leValue_leBytes, Nat.mod_eq_of_lt (by simpa using H.run_lt g _ hg)]
      rw [Decode_mismatch H _ _ _ _ _ hrec (leBytes_length 8 _)
        (by rw [hval]; exact run_ne_of_ne H hinj _ _ _ hg hh (Ne.symm hne))]
      simp only [List.replicate_succ, List.cons.injEq, true_and]
      apply ih hds _ _ (H.run_lt g _ hg) (H.run_lt _ _ (H.run_lt h _ hh))
      rw [Hasher.run_append]
      exact run_ne_of_ne H hinj _ _ _ (H.run_lt h _ hh) (H.run_lt g _ hg)
        (run_ne_of_ne H hinj _ _ _ hh hg hne)

end database

namespace database

open durability communication.bolt

theorem xor_two_pow_mod_ne (b bit : Nat) (hbit : bit < 8) :
    (b ^^^ 2 ^ bit) % 2 ^ 64 ≠ b % 2 ^ 64 := by
  intro h
  have h1 : ((b ^^^ 2 ^ bit) % 2 ^ 64).testBit bit = (b % 2 ^ 64).testBit bit := by rw [h]
  rw [Nat.testBit_mod_two_pow, Nat.testBit_mod_two_pow, Nat.testBit_xor,
    Nat.testBit_two_pow_self] at h1
  have hlt : bit < 64 := by omega
  simp [hlt] at h1

theorem sampleHasher_injective : sampleHasher.Injective := by
  constructor
  · intro h h' b hh hh' heq
    simp only [Hasher.step, sampleHasher] at heq
    have h1 : h * 3137 + (b + 1) ≡ h' * 3137 + (b + 1) [MOD 2 ^ 64] := by
      simpa [Nat.ModEq, Nat.add_assoc] using heq
    have h2 : h * 3137 ≡ h' * 3137 [MOD 2 ^ 64] := Nat.ModEq.add_right_cancel' _ h1
    have h3 : h ≡ h' [MOD 2 ^ 64] :=
      Nat.ModEq.cancel_right_of_coprime (by norm_num) h2
    unfold Nat.ModEq at h3
    rwa [Nat.mod_eq_of_lt hh, Nat.mod_eq_of_lt hh'] at h3
  · intro h b bit _ hbit heq
    simp only [Hasher.step, sampleHasher] at heq
    have h1 : (h * 3137 + 1) + (b ^^^ 2 ^ bit) ≡ (h * 3137 + 1) + b [MOD 2 ^ 64] := by
      have e1 : h * 3137 + 1 + (b ^^^ 2 ^ bit) = h * 3137 + (b ^^^ 2 ^ bit) + 1 := by ring
      have e2 : h * 3137 + 1 + b = h * 3137 + b + 1 := by ring
      rw [e1, e2]
      exact heq
    have h2 : (b ^^^ 2 ^ bit) ≡ b [MOD 2 ^ 64] := Nat.ModEq.add_left_cancel' _ h1
    exact xor_two_pow_mod_ne b bit hbit h2

theorem fieldBytes_recordBytes_length (H : Hasher) (h : Nat) (d : StateDelta) :
    (d.recordBytes H h).length = d.fieldBytes.length + 8 := by
  simp [StateDelta.recordBytes, leBytes_length]

theorem flipped_word_rejected (H : Hasher) (hinj : H.Injective) (r : HashedFileReader)
    (d : StateDelta) (W rest : List Nat) (g j bit : Nat) (hg : g < 2 ^ 64)
    (hrec : StateDelta.DecodeRecord H r = (.next d, ⟨flipBit W j bit ++ rest, g⟩))
    (hlen : W.length = 8) (hval : leValue W = g) (hj : j < W.length) (hbit : bit < 8) :
    StateDelta.Decode H r = (none, ⟨rest, H.run g (flipBit W j bit)⟩) ∧
      H.run g (flipBit W j bit) ≠ H.run g W := by
  constructor
  · apply Decode_mismatch H r d (flipBit W j bit) rest g hrec
    · rw [flipBit_length, hlen]
    · rw [← hval]
      exact leValue_flipBit_ne W j bit hj
  · exact run_flipBit_ne H hinj W g j bit hg hj hbit

theorem flipped_fields_rejected (H : Hasher) (hinj : H.Injective) (r : HashedFileReader)
    (d : StateDelta) (F W rest : List Nat) (g p bit : Nat) (hg : g < 2 ^ 64)
    (hrec : StateDelta.DecodeRecord H r
      = (.next d, ⟨W ++ rest, H.run g (flipBit F p bit)⟩))
    (hlen : W.length = 8) (hval : leValue W = H.run g F) (hp : p < F.length)
    (hbit : bit < 8) :
    StateDelta.Decode H r = (none, ⟨rest, H.run (H.run g (flipBit F p bit)) W⟩) ∧
      H.run (H.run g (flipBit F p bit)) W ≠ H.run (H.run g F) W := by
  have hne : H.run g (flipBit F p bit) ≠ H.run g F := run_flipBit_ne H hinj F g p bit hg hp hbit
  constructor
  · apply Decode_mismatch H r d W rest _ hrec hlen
    rw [hval]
    exact Ne.symm hne
  · exact run_ne_of_ne H hinj W _ _ (H.run_lt g _ hg) (H.run_lt g _ hg) hne

/-- The record `k` of the stream, with one bit flipped so that the members are still read from
the same number of bytes, is rejected; the reader stops right after it with a hash that is not
the hash the writer had there. -/
theorem flipped_record_rejected (H : Hasher) (hinj : H.Injective) (d : StateDelta) (hw : d.wf)
    (g : Nat) (hg : g < 2 ^ 64) (rest : List Nat) (p bit : Nat)
    (hp : p < (d.recordBytes H g).length) (hbit : bit < 8)
    (hframe : d.fieldBytes.length ≤ p ∨
      ∃ d' mid, StateDelta.DecodeRecord H ⟨flipBit (d.recordBytes H g) p bit ++ rest, g⟩
          = (.next d', mid) ∧ mid.input.length = 8 + rest.length) :
    ∃ h', StateDelta.Decode H ⟨flipBit (d.recordBytes H g) p bit ++ rest, g⟩
        = (none, ⟨rest, h'⟩) ∧ h' < 2 ^ 64 ∧ h' ≠ H.run g (d.recordBytes H g) := by
  have hval : leValue (leBytes 8 (H.run g d.fieldBytes)) = H.run g d.fieldBytes := by
    rw [leValue_leBytes]
    exact Nat.mod_eq_of_lt (H.run_lt g _ hg)
  have hlen8 : (leBytes 8 (H.run g d.fieldBytes)).length = 8 := leBytes_length 8 _
  rw [fieldBytes_recordBytes_length] at hp
  unfold StateDelta.recordBytes at hframe ⊢
  generalize leBytes 8 (H.run g d.fieldBytes) = W at hval hlen8 hframe ⊢
  by_cases hword : d.fieldBytes.length ≤ p
  · have hB : flipBit (d.fieldBytes ++ W) p bit
        = d.fieldBytes ++ flipBit W (p - d.fieldBytes.length) bit :=
      flipBit_append_right _ _ _ _ hword
    have hp' : p - d.fieldBytes.length < W.length := by omega
    have hrec := DecodeRecord_fieldBytes H d hw
      (flipBit W (p - d.fieldBytes.length) bit ++ rest) g
    obtain ⟨h1, h2⟩ := flipped_word_rejected H hinj _ _ W rest _ _ bit (H.run_lt g _ hg)
      hrec hlen8 hval hp' hbit
    refine ⟨H.run (H.run g d.fieldBytes) (flipBit W (p - d.fieldBytes.length) bit), ?_,
      H.run_lt _ _ (H.run_lt g _ hg), ?_⟩
    · rw [hB, List.append_assoc]
      exact h1
    · rw [Hasher.run_append]
      exact h2
  · have hpF : p < d.fieldBytes.length := by omega
    rcases hframe with hcontra | ⟨d', mid, hrec, hmid⟩
    · exact absurd hcontra hword
    have hB : flipBit (d.fieldBytes ++ W) p bit = flipBit d.fieldBytes p bit ++ W :=
      flipBit_append_left _ _ _ _ hpF
    rw [hB] at hrec ⊢
    obtain ⟨c, hc, hhash⟩ := consumes_DecodeRecord H _ d' mid hrec
    simp only [List.append_assoc] at hc
    have hclen : (flipBit d.fieldBytes p bit).length = c.length := by
      have := congrArg List.length hc
      simp only [List.length_append, hlen8, hmid] at this
      omega
    obtain ⟨hc1, hc2⟩ := List.append_inj hc hclen
    have hmid' : mid = ⟨W ++ rest, H.run g (flipBit d.fieldBytes p bit)⟩ := by
      cases mid
      simp only at hc2 hhash
      rw [← hc2, hhash, ← hc1]
    rw [hmid'] at hrec
    obtain ⟨h1, h2⟩ := flipped_fields_rejected H hinj _ _ d.fieldBytes W rest g p bit hg
      hrec hlen8 hval hpF hbit
    refine ⟨H.run (H.run g (flipBit d.fieldBytes p bit)) W, h1,
      H.run_lt _ _ (H.run_lt g _ hg), ?_⟩
    rw [Hasher.run_append]
    exact h2

theorem DecodeSeq_length (H : Hasher) (n : Nat) (r : HashedFileReader) :
    (DecodeSeq H n r).1.length = n := by
  induction n generalizing r with
  | zero => rfl
  | succ n ih => rw [DecodeSeq_succ]; simp [ih]

theorem recordStart_eq (H : Hasher) (ds : List StateDelta) (k : Nat) :
    recordStart H ds k = (streamBytes H H.start (ds.take k)).length := by
  unfold recordStart
  rw [EncodeAll_out_fresh]

end database

namespace database

open durability communication.bolt

/-- The stream of the records `ds1`, a record `d` with one bit flipped so that its members
are still read from the same number of bytes, and the records `ds2`: every call of `Decode`
from record `d` on returns absent. -/
theorem DecodeSeq_flipped (H : Hasher) (hinj : H.Injective) (ds1 ds2 : List StateDelta)
    (d : StateDelta) (hw1 : ∀ x ∈ ds1, x.wf) (hwd : d.wf) (hw2 : ∀ x ∈ ds2, x.wf)
    (A C : List Nat) (g : Nat) (hA : A = streamBytes H H.start ds1) (hgA : g = H.run H.start A)
    (hC : C = streamBytes H (H.run g (d.recordBytes H g)) ds2)
    (p bit n : Nat) (hp : p < (d.recordBytes H g).length) (hbit : bit < 8)
    (hframe : d.fieldBytes.length ≤ p ∨
      ∃ d' mid, StateDelta.DecodeRecord H ⟨flipBit (d.recordBytes H g) p bit ++ C, g⟩
          = (.next d', mid) ∧ mid.input.length = 8 + C.length) :
    (DecodeSeq H n ⟨A ++ (flipBit (d.recordBytes H g) p bit ++ C), H.start⟩).1.drop ds1.length
      = List.replicate (n - ds1.length) none := by
  have hg : g < 2 ^ 64 := by rw [hgA]; exact H.run_lt _ _ H.start_lt
  by_cases hn : n < ds1.length
  · rw [List.drop_eq_nil_of_le (by rw [DecodeSeq_length]; omega)]
    have : n - ds1.length = 0 := by omega
    rw [this]
    rfl
  · obtain ⟨m, rfl⟩ : ∃ m, n = ds1.length + m := ⟨n - ds1.length, by omega⟩
    rw [hA, DecodeSeq_streamBytes H ds1 hw1 _ H.start H.start_lt m, ← hA, ← hgA]
    simp only [Nat.add_sub_cancel_left]
    rw [List.drop_left' (by simp)]
    cases m with
    | zero => rfl
    | succ m =>
      obtain ⟨h', hdec, hh', hne⟩ :=
        flipped_record_rejected H hinj d hwd g hg C p bit hp hbit hframe
      rw [DecodeSeq_succ, hdec]
      simp only [List.replicate_succ, List.cons.injEq, true_and]
      rw [hC]
      exact DecodeSeq_desync H hinj ds2 hw2 _ h' (H.run_lt g _ hg) hh' hne m

end database

/-! ## Lemmas: a flip that every hash accepts -/

namespace database

open durability communication.bolt

theorem encodeInt_length (i : Int) : (encodeInt i).length = 9 := by
  simp [encodeInt, beBytes_length]

theorem AddLabel_fieldBytes (name : List Nat) :
    (StateDelta.AddLabel 42 7 3 name).fieldBytes
      = (encodeInt 11 ++ encodeInt (toInt64 42) ++ encodeInt (toInt64 7) ++ encodeInt (toInt64 3))
        ++ encodeString name := by
  simp [StateDelta.fieldBytes, StateDelta.schedule, StateDelta.AddLabel, StateDelta.init,
    encodeFieldList, Field.encode, DeltaType.toInt64]

/-- For every hasher, the record of `craftedFor H name16` with bit 3 of its byte 37 flipped is
the record of `AddLabel(42, 7, 3, name16)` followed by eight more bytes, and `Decode` returns
that delta. -/
theorem flip_accepted_for_every_hash (H : Hasher) (name16 : List Nat)
    (hlen : name16.length = 16) :
    (StateDelta.Decode H (HashedFileReader.fresh H
        (flipBit ((craftedFor H name16).Encode H (HashedFileWriter.fresh H)).out 37 3))).1
      = some (StateDelta.AddLabel 42 7 3 name16).stored := by
  have hwf : (StateDelta.AddLabel 42 7 3 name16).wf := by
    simp only [StateDelta.wf, StateDelta.AddLabel, StateDelta.init, DeltaType.known, wfValue,
      List.length_nil, hlen]
    norm_num
  obtain ⟨X, hX⟩ : ∃ X, X = leBytes 8 (H.run H.start (StateDelta.AddLabel 42 7 3 name16).fieldBytes) :=
    ⟨_, rfl⟩
  have hXlen : X.length = 8 := by rw [hX]; exact leBytes_length 8 _
  obtain ⟨P, hP⟩ : ∃ P, P = encodeInt 11 ++ encodeInt (toInt64 42) ++ encodeInt (toInt64 7)
      ++ encodeInt (toInt64 3) := ⟨_, rfl⟩
  have hPlen : P.length = 36 := by
    rw [hP]
    simp only [List.length_append, encodeInt_length]
  have h24 : encodeString (name16 ++ X) = 0xD0 :: 24 :: (name16 ++ X) := by
    simp [encodeString, encodeTypeSize, hlen, hXlen, Marker8]
  have h16 : encodeString name16 = 0xD0 :: 16 :: name16 := by
    simp [encodeString, encodeTypeSize, hlen, Marker8]
  rw [Encode_eq]
  simp only [HashedFileWriter.Write, HashedFileWriter.fresh, HashedFileReader.fresh,
    List.nil_append]
  obtain ⟨W, hW⟩ : ∃ W, W = leBytes 8 (H.run H.start (craftedFor H name16).fieldBytes) :=
    ⟨_, rfl⟩
  have hrec : (craftedFor H name16).recordBytes H H.start
      = P ++ (0xD0 :: 24 :: (name16 ++ X)) ++ W := by
    unfold StateDelta.recordBytes
    rw [← hW]
    unfold craftedFor
    rw [AddLabel_fieldBytes, ← hX, ← hP, h24]
  have hflip : flipBit (P ++ (0xD0 :: 24 :: (name16 ++ X)) ++ W) 37 3
      = (StateDelta.AddLabel 42 7 3 name16).recordBytes H H.start ++ W := by
    have hX' := hX
    rw [AddLabel_fieldBytes, ← hP] at hX'
    rw [List.append_assoc, flipBit_append_right _ _ _ _ (by omega), hPlen]
    unfold StateDelta.recordBytes
    rw [AddLabel_fieldBytes, ← hP, ← hX', h16]
    simp [flipBit]
  rw [hrec, hflip, Decode_recordBytes H _ hwf W H.start H.start_lt]

end database

namespace database

open durability communication.bolt

/-- A discriminator that is none of the enumerators is kept by the conversion as it is. -/
theorem ofInt64_unknown (v : Int) (hu : (DeltaType.ofInt64 v).known = false) :
    DeltaType.ofInt64 v = .unknown (toInt32 v) := by
  unfold DeltaType.ofInt64 at hu ⊢
  simp only at hu ⊢
  generalize toInt32 v = w at hu ⊢
  by_cases h0 : w = 0
  · rw [if_pos h0] at hu
    exact absurd hu (by decide)
  rw [if_neg h0] at hu ⊢
  by_cases h1 : w = 1
  · rw [if_pos h1] at hu
    exact absurd hu (by decide)
  rw [if_neg h1] at hu ⊢
  by_cases h2 : w = 2
  · rw [if_pos h2] at hu
    exact absurd hu (by decide)
  rw [if_neg h2] at hu ⊢
  by_cases h3 : w = 3
  · rw [if_pos h3] at hu
    exact absurd hu (by decide)
  rw [if_neg h3] at hu ⊢
  by_cases h4 : w = 4
  · rw [if_pos h4] at hu
    exact absurd hu (by decide)
  rw [if_neg h4] at hu ⊢
  by_cases h5 : w = 5
  · rw [if_pos h5] at hu
    exact absurd hu (by decide)
  rw [if_neg h5] at hu ⊢
  by_cases h6 : w = 6
  · rw [if_pos h6] at hu
    exact absurd hu (by decide)
  rw [if_neg h6] at hu ⊢
  by_cases h7 : w = 7
  · rw [if_pos h7] at hu
    exact absurd hu (by decide)
  rw [if_neg h7] at hu ⊢
  by_cases h8 : w = 8
  · rw [if_pos h8] at hu
    exact absurd hu (by decide)
  rw [if_neg h8] at hu ⊢
  by_cases h9 : w = 9
  · rw [if_pos h9] at hu
    exact absurd hu (by decide)
  rw [if_neg h9] at hu ⊢
  by_cases h10 : w = 10
  · rw [if_pos h10] at hu
    exact absurd hu (by decide)
  rw [if_neg h10] at hu ⊢
  by_cases h11 : w = 11
  · rw [if_pos h11] at hu
    exact absurd hu (by decide)
  rw [if_neg h11] at hu ⊢
  by_cases h12 : w = 12
  · rw [if_pos h12] at hu
    exact absurd hu (by decide)
  rw [if_neg h12] at hu ⊢
  by_cases h13 : w = 13
  · rw [if_pos h13] at hu
    exact absurd hu (by decide)
  rw [if_neg h13] at hu ⊢
  by_cases h14 : w = 14
  · rw [if_pos h14] at hu
    exact absurd hu (by decide)
  rw [if_neg h14] at hu ⊢
  by_cases h15 : w = 15
  · rw [if_pos h15] at hu
    exact absurd hu (by decide)
  rw [if_neg h15] at hu ⊢

/-- The record part of `Decode` on a discriminator that is none of the enumerators followed by
a transaction id: no further field is read. -/
theorem DecodeRecord_unknown (H : Hasher) (v : Int) (tx : Nat) (rest : List Nat) (h : Nat)
    (hlo : -2 ^ 63 ≤ v) (hhi : v < 2 ^ 63) (hu : (DeltaType.ofInt64 v).known = false)
    (htx : tx < 2 ^ 64) :
    StateDelta.DecodeRecord H ⟨encodeInt v ++ (encodeInt (toInt64 tx) ++ rest), h⟩
      = (.next (StateDelta.init (DeltaType.ofInt64 v) tx),
          ⟨rest, H.run (H.run h (encodeInt v)) (encodeInt (toInt64 tx))⟩) := by
  unfold StateDelta.DecodeRecord
  rw [DecodeM.bind_next _ _ _ _ _ (ReadValue_encodeInt H _ _ h hlo hhi)]
  simp only [ValueInt]
  rw [DecodeM.bind_next _ _ _ _ _ (DecodeM.pure_apply _ _)]
  rw [DecodeM.bind_next _ _ _ _ _ (DECODE_MEMBER_INT_encode H _ _ _ htx)]
  rw [ofInt64_unknown v hu]
  simp only [StateDelta.DecodeFields, StateDelta.init, DecodeM.pure_apply]

/-- In the model, `Decode` on a discriminator that is none of the enumerators, a transaction id
and the correct hash word: the delta read and the reader afterwards. -/
theorem Decode_unknown (H : Hasher) (v : Int) (tx : Nat) (rest : List Nat) (h : Nat)
    (hlo : -2 ^ 63 ≤ v) (hhi : v < 2 ^ 63) (hu : (DeltaType.ofInt64 v).known = false)
    (htx : tx < 2 ^ 64) (hh : h < 2 ^ 64) :
    StateDelta.Decode H
        ⟨encodeInt v ++ encodeInt (toInt64 tx)
          ++ leBytes 8 (H.run h (encodeInt v ++ encodeInt (toInt64 tx))) ++ rest, h⟩
      = (some (StateDelta.init (.unknown (toInt32 v)) tx),
          ⟨rest, H.run h (encodeInt v ++ encodeInt (toInt64 tx)
            ++ leBytes 8 (H.run h (encodeInt v ++ encodeInt (toInt64 tx))))⟩) := by
  unfold StateDelta.Decode StateDelta.DecodeBody
  rw [List.append_assoc, List.append_assoc,
    DecodeM.bind_next _ _ _ _ _ (DecodeRecord_unknown H v tx _ h hlo hhi hu htx)]
  rw [← Hasher.run_append]
  rw [DecodeM.bind_next _ _ _ _ _ (VerifyHash_ok H _ rest (H.run_lt h _ hh))]
  rw [ofInt64_unknown v hu]
  simp only [DecodeM.pure_apply, Hasher.run_append]

/-- The switch of `Decode` on a delta whose type is none of the enumerators reads nothing and
assigns no member, whatever the members hold. -/
theorem DecodeFields_unknown (H : Hasher) (r_val : StateDelta) (reader : HashedFileReader)
    (hu : r_val.type.known = false) :
    StateDelta.DecodeFields H r_val reader = (.next r_val, reader) := by
  unfold StateDelta.DecodeFields
  rcases ht : r_val.type with _ | _ | _ | _ | _ | _ | _ | _ | _ | _ | _ | _ | _ | _ | _ | _ | u <;>
    first
      | (rw [ht] at hu; exact absurd hu (by decide))
      | rfl

end database

namespace durability

open communication.bolt database

/-! ## Snapshots -/

theorem foldl_append_flatMap {α β : Type} (g : α → List β) (l : List α) (init : List β) :
    l.foldl (fun acc x => acc ++ g x) init = init ++ l.flatMap g := by
  induction l generalizing init with
  | nil => simp
  | cons a l ih => simp [ih, List.flatMap_cons]

theorem flatMap_single {α β : Type} (g : α → β) (l : List α) :
    l.flatMap (fun x => [g x]) = l.map g := by
  induction l with
  | nil => rfl
  | cons a l ih =>
    rw [List.flatMap_cons, List.map_cons, ih]
    rfl

/-- A loop that writes the bytes of every element and counts the elements. -/
theorem foldl_write_count {α : Type} (H : Hasher) (f : α → List Nat) (l : List α)
    (w : HashedFileWriter) (n : Nat) :
    l.foldl (fun (st : HashedFileWriter × Nat) x => (st.1.Write H (f x), st.2 + 1)) (w, n)
      = (w.Write H (l.flatMap f), n + l.length) := by
  induction l generalizing w n with
  | nil => simp [Write_nil]
  | cons a l ih =>
    rw [List.foldl_cons, ih, Write_Write, List.flatMap_cons, List.length_cons]
    congr 1
    omega

/-- The bytes and the hash that the body of `Encode` leaves in the writer. -/
theorem EncodeBody_eq {V E : Type} (H : Hasher) (fmt : SnapshotFormat V E)
    (db : SnapshotView V E) (worker_id : Int) (w : HashedFileWriter) :
    EncodeBody H fmt db worker_id w
      = (w.Write H (snapshotLayout fmt db worker_id)).Write H
          (leBytes 8 (w.Write H (snapshotLayout fmt db worker_id)).hash) := by
  unfold EncodeBody snapshotLayout
  have hedges : (fun (st : HashedFileWriter × Nat) edge =>
      (PrimitiveEncoder.WriteInt H (st.1.Write H (fmt.WriteEdge edge)) (db.CypherId edge),
        st.2 + 1))
      = (fun (st : HashedFileWriter × Nat) edge =>
          (st.1.Write H (fmt.WriteEdge edge ++ encodeInt (db.CypherId edge)), st.2 + 1)) := by
    funext st edge
    simp only [PrimitiveEncoder.WriteInt, Write_Write]
  simp only [hedges, foldl_write_count, foldl_append_flatMap, flatMap_single,
    PrimitiveEncoder.WriteInt, PrimitiveEncoder.WriteList, HashedFileWriter.WriteValue,
    Write_Write, encodePropertyValue, kVersion, List.nil_append, List.append_assoc,
    Nat.zero_add, List.length_map]

/-- The signed 32-bit value of a count below `2 ^ 31` is the count. -/
theorem toInt32_of_lt (k : Nat) (hk : k < 2 ^ 31) : toInt32 (k : Int) = k := by
  unfold toInt32
  have h1 : (k : Int) % 2 ^ 32 = k := Int.emod_eq_of_lt (by omega) (by omega)
  rw [h1, if_pos (by omega)]

/-- The loop of `RemoveOldSnapshots` over positions inside the list removes the files at these
positions. -/
theorem removeLoop_range {P : Type} [DecidableEq P] (files : List P) (n s : Nat)
    (dir removed : List P) (h : s + n ≤ files.length) :
    removeLoop files (List.range' s n) dir removed
      = ⟨.returned, some (((files.drop s).take n).foldl List.erase dir),
          removed ++ (files.drop s).take n⟩ := by
  induction n generalizing s dir removed with
  | zero => simp [removeLoop]
  | succ n ih =>
    have hs : s < files.length := by omega
    rw [List.range'_succ, removeLoop, List.getElem?_eq_getElem hs]
    simp only [RemoveFile]
    rw [ih (s + 1) _ _ (by omega), List.drop_eq_getElem_cons hs, List.take_succ_cons,
      List.foldl_cons, List.append_assoc, List.singleton_append]

theorem filter_not_mem_left {P : Type} [DecidableEq P] (a b : List P) (h : (a ++ b).Nodup) :
    (a ++ b).filter (fun x => decide (x ∉ a)) = b := by
  rw [List.filter_append]
  have h1 : a.filter (fun x => decide (x ∉ a)) = [] := by
    rw [List.filter_eq_nil_iff]
    intro x hx
    simpa using hx
  have h2 : b.filter (fun x => decide (x ∉ a)) = b := by
    rw [List.filter_eq_self]
    intro x hx
    have hd := (List.nodup_append.mp h).2.2
    simpa using fun hxa => hd hxa hx
  rw [h1, h2, List.nil_append]

/-- Removing the first `n` files of the sorted listing from a directory without repeated
entries leaves a rearrangement of the other files of the sorted listing. -/
theorem filter_take_sorted_perm {P : Type} [LinearOrder P] (dir : List P) (hnd : dir.Nodup)
    (n : Nat) :
    (dir.filter (fun p => decide (p ∉ (dir.insertionSort (· ≤ ·)).take n))).Perm
      ((dir.insertionSort (· ≤ ·)).drop n) := by
  have hp : (dir.insertionSort (· ≤ ·)).Perm dir := List.perm_insertionSort _ dir
  have hnds : (dir.insertionSort (· ≤ ·)).Nodup := hp.nodup_iff.mpr hnd
  have h1 := hp.symm.filter (fun p => decide (p ∉ (dir.insertionSort (· ≤ ·)).take n))
  refine h1.trans ?_
  have h2 := filter_not_mem_left ((dir.insertionSort (· ≤ ·)).take n)
    ((dir.insertionSort (· ≤ ·)).drop n) (by rw [List.take_append_drop]; exact hnds)
  rw [List.take_append_drop] at h2
  rw [h2]

/-- What `RemoveOldSnapshots` does when more than `N` files are in the directory. -/
theorem RemoveOldSnapshots_more {P : Type} [LinearOrder P] (dir : List P) (N : Nat)
    (hk : dir.length < 2 ^ 31) (hN : N < dir.length) :
    RemoveOldSnapshots dir N
      = ⟨.returned,
          some (((dir.insertionSort (· ≤ ·)).take (dir.length - N)).foldl List.erase dir),
          (dir.insertionSort (· ≤ ·)).take (dir.length - N)⟩ := by
  unfold RemoveOldSnapshots
  have hne : ¬ ((N : Int) = -1) := by omega
  rw [if_neg hne]
  simp only [List.length_insertionSort]
  rw [toInt32_of_lt _ hk, if_neg (by omega), if_neg (by omega)]
  have hb : ((dir.length : Int) - (N : Int)).toNat = dir.length - N := by omega
  rw [hb, List.range_eq_range', removeLoop_range _ _ _ _ _
    (by rw [List.length_insertionSort]; omega)]
  simp

/-- What `RemoveOldSnapshots` does when at most `N` files are in the directory. -/
theorem RemoveOldSnapshots_few {P : Type} [LinearOrder P] (dir : List P) (N : Nat)
    (hk : dir.length < 2 ^ 31) (hN : dir.length ≤ N) :
    RemoveOldSnapshots dir N = ⟨.returned, some dir, []⟩ := by
  unfold RemoveOldSnapshots
  have hne : ¬ ((N : Int) = -1) := by omega
  rw [if_neg hne]
  simp only
  rw [toInt32_of_lt _ hk, if_pos (by omega)]

/-- The loop of `RemoveOldWals` over entries that are in the directory removes the entries
whose name parses to an id below the bound, and no other. -/
theorem walLoop_eq {P : Type} [DecidableEq P] (parse : P → Option Nat) (dcheck : Bool)
    (m : Nat) (rest dir removed : List P) (hnd : rest.Nodup) (hsub : ∀ f ∈ rest, f ∈ dir) :
    walLoop parse dcheck m rest dir removed
      = ⟨.returned,
          some ((rest.filter (fun f => (parse f).any (fun id => decide (id < m)))).foldl
            List.erase dir),
          removed ++ rest.filter (fun f => (parse f).any (fun id => decide (id < m)))⟩ := by
  induction rest generalizing dir removed with
  | nil => simp [walLoop]
  | cons f rest ih =>
    have hf : f ∈ dir := hsub f (List.mem_cons_self _ _)
    have hnd' : rest.Nodup := (List.nodup_cons.mp hnd).2
    have hnf : f ∉ rest := (List.nodup_cons.mp hnd).1
    have hsub' : ∀ g ∈ rest, g ∈ dir := fun g hg => hsub g (List.mem_cons_of_mem _ hg)
    rw [walLoop]
    rcases hp : parse f with _ | id
    · simp only [List.filter_cons, hp, Option.any_none, Bool.false_eq_true, if_false]
      exact ih dir removed hnd' hsub'
    · by_cases hlt : id < m
      · have herase : ∀ g ∈ rest, g ∈ dir.erase f := fun g hg =>
          (List.mem_erase_of_ne (fun (h : g = f) => hnf (h ▸ hg))).mpr (hsub' g hg)
        simp only [hlt, if_true, RemoveFile, hf, decide_True, Bool.not_true, Bool.and_false,
          Bool.false_eq_true, if_false, List.filter_cons, hp, Option.any_some,
          List.foldl_cons]
        rw [ih (dir.erase f) (removed ++ [f]) hnd' herase]
        simp
      · simp only [hlt, if_false, List.filter_cons, hp, Option.any_some, decide_False,
          Bool.false_eq_true]
        exact ih dir removed hnd' hsub'

/-- The least element of a snapshot together with `T + 1` is the front of the snapshot when it
is in ascending order and holds ids up to `T` only. -/
theorem minInteresting_eq (T : Nat) (S : List Nat) (hs : S.Sorted (· ≤ ·))
    (hle : ∀ x ∈ S, x ≤ T) :
    minInteresting T S = (match S with
      | [] => T + 1
      | front :: _ => front) := by
  have key : ∀ (l : List Nat) (a : Nat), (∀ x ∈ l, a ≤ x) → l.foldl min a = a := by
    intro l
    induction l with
    | nil => intro a _; rfl
    | cons b l ih =>
      intro a h
      rw [List.foldl_cons, Nat.min_eq_left (h b (List.mem_cons_self _ _))]
      exact ih a (fun x hx => h x (List.mem_cons_of_mem _ hx))
  unfold minInteresting
  cases S with
  | nil => rfl
  | cons front rest =>
    have hf : front ≤ T := hle front (List.mem_cons_self _ _)
    rw [List.foldl_cons, Nat.min_eq_right (by omega)]
    exact key rest front (fun x hx => List.rel_of_sorted_cons hs x hx)

end durability

namespace durability

open communication.bolt database

/-- What `RemoveOldWals` does on a directory of distinct paths: it returns, and the files it
removes are those whose name parses to an id below the bound of the spec. -/
theorem RemoveOldWals_some {P : Type} [DecidableEq P]
    (TransactionIdFromWalFilename : P → Option Nat) (dcheck : Bool) (files : List P)
    (T : Nat) (S : List Nat) (hnd : files.Nodup) (hs : S.Sorted (· ≤ ·))
    (hle : ∀ x ∈ S, x ≤ T) (hT : T + 1 < 2 ^ 64) :
    RemoveOldWals TransactionIdFromWalFilename dcheck (some files) T S
      = ⟨.returned,
          some ((files.filter (fun f => (TransactionIdFromWalFilename f).any
            (fun id => decide (id < minInteresting T S)))).foldl List.erase files),
          files.filter (fun f => (TransactionIdFromWalFilename f).any
            (fun id => decide (id < minInteresting T S)))⟩ := by
  unfold RemoveOldWals
  simp only
  rw [walLoop_eq _ _ _ _ _ _ hnd (fun f hf => hf), List.nil_append]
  have hm := minInteresting_eq T S hs hle
  cases S with
  | nil =>
    simp only at hm ⊢
    rw [hm, Nat.mod_eq_of_lt hT]
  | cons front rest =>
    simp only at hm ⊢
    rw [hm]

/-- The files left after removing from a directory of distinct paths those that satisfy a
condition. -/
theorem mem_foldl_erase_filter {P : Type} [DecidableEq P] (files : List P) (hnd : files.Nodup)
    (p : P → Bool) (f : P) :
    f ∈ (files.filter p).foldl List.erase files ↔ f ∈ files ∧ p f = false := by
  rw [← List.diff_eq_foldl, hnd.diff_eq_filter, List.mem_filter]
  simp only [decide_eq_true_eq, List.mem_filter, not_and, Bool.not_eq_true]
  constructor
  · rintro ⟨hf, h⟩
    exact ⟨hf, h hf⟩
  · rintro ⟨hf, h⟩
    exact ⟨hf, fun _ => h⟩

/-- When `MakeSnapshot` returns true, the WAL directory is the one `RemoveOldWals` leaves, for
the transaction of the snapshot. -/
theorem MakeSnapshot_wal_of_success {P V E : Type} [LinearOrder P] (H : Hasher)
    (fmt : SnapshotFormat V E) (disk : Disk) (TransactionIdFromWalFilename : P → Option Nat)
    (dcheck : Bool) (MakeSnapshotPath : Int → Nat → P) (db : SnapshotView V E)
    (worker_id : Int) (durability_dir : DurabilityDir P) (snapshot_max_retained : Int)
    (hout : (MakeSnapshot H fmt disk TransactionIdFromWalFilename dcheck MakeSnapshotPath db
      worker_id durability_dir snapshot_max_retained).outcome = .returned)
    (hres : (MakeSnapshot H fmt disk TransactionIdFromWalFilename dcheck MakeSnapshotPath db
      worker_id durability_dir snapshot_max_retained).result = true) :
    (MakeSnapshot H fmt disk TransactionIdFromWalFilename dcheck MakeSnapshotPath db
      worker_id durability_dir snapshot_max_retained).dir.wal
      = (RemoveOldWals TransactionIdFromWalFilename dcheck durability_dir.wal
          db.transaction_id db.snapshot).dir ∧
    SnapshotCall.RemoveOldWals ∈
      (MakeSnapshot H fmt disk TransactionIdFromWalFilename dcheck MakeSnapshotPath db
        worker_id durability_dir snapshot_max_retained).calls := by
  unfold MakeSnapshot at hout hres ⊢
  rcases hE : EnsureDir disk durability_dir.snapshots with ⟨b, od⟩
  rw [hE] at hout hres
  rcases b with _ | _
  · simp at hres
  rcases od with _ | files
  · simp at hres
  simp only at hout hres ⊢
  by_cases hex : FileExists files (MakeSnapshotPath worker_id db.transaction_id) = true
  · rw [if_pos hex] at hres
    simp at hres
  rw [if_neg hex] at hout hres ⊢
  rcases hEnc : Encode H fmt disk (MakeSnapshotPath worker_id db.transaction_id) db worker_id
    files with ⟨ok, written⟩
  rw [hEnc] at hout hres
  rcases ok with _ | _
  · simp at hres
  simp only at hout hres ⊢
  rcases hO : (RemoveOldSnapshots written snapshot_max_retained).outcome with _ | _ | _
  · simp
  · rw [hO] at hout
    simp at hout
  · rw [hO] at hout
    simp at hout

end durability

namespace communication

open durability database

/-- The conversion of a small count to `size_t` keeps it. -/
theorem toUInt64_natCast (i : Nat) (h : i < 2 ^ 64) : toUInt64 (i : Int) = i := by
  unfold toUInt64
  omega

/-- The call `OnData` with no connection, on a server whose index is a position among the
workers: nothing is assigned and the server is as before. -/
theorem OnData_none {C : Type} (dcheck : Bool) (n i : Nat) (hi : i < n) (hn : n < 2 ^ 31) :
    ConnectionAcceptor.OnData dcheck ⟨n, (i : Int)⟩ (none : Option C)
      = ⟨.returned, ⟨n, (i : Int)⟩, none⟩ := by
  unfold ConnectionAcceptor.OnData
  simp only
  rw [toUInt64_natCast i (by omega)]
  simp [hi]

/-- The call `OnData` with a connection, on a server whose index is a position among the
workers: the connection goes to the worker at the index, and the index moves on by one,
around the number of workers. -/
theorem OnData_some {C : Type} (dcheck : Bool) (n i : Nat) (hi : i < n) (hn : n < 2 ^ 31)
    (c : C) :
    ConnectionAcceptor.OnData dcheck ⟨n, (i : Int)⟩ (some c)
      = ⟨.returned, ⟨n, (((i + 1) % n : Nat) : Int)⟩, some (i, c)⟩ := by
  unfold ConnectionAcceptor.OnData
  simp only
  have h1 : toUInt64 ((i : Int) + 1) = i + 1 := by
    have := toUInt64_natCast (i + 1) (by omega)
    simpa using this
  have hlt : (i + 1) % n < n := Nat.mod_lt _ (by omega)
  rw [toUInt64_natCast i (by omega), h1, toInt32_of_lt _ (by omega)]
  have h2 : ¬ ((2 : Int) ^ 31 ≤ (i : Int) + 1) := by omega
  rw [if_neg h2]
  simp [hi]

/-- A sequence of calls of `OnData` from a server whose index is the position `s % n`: every
call returns, the connections accepted go, in order, to the positions `s % n`,
`(s + 1) % n`, and so on, and the index ends at the next position. -/
theorem run_from {C : Type} (dcheck : Bool) (n : Nat) (hn0 : 0 < n) (hn : n < 2 ^ 31)
    (events : List (Option C)) (s : Nat) :
    Server.run dcheck ⟨n, ((s % n : Nat) : Int)⟩ events
      = (.returned, ⟨n, (((s + events.reduceOption.length) % n : Nat) : Int)⟩,
          (events.reduceOption.enumFrom s).map (fun p => (p.1 % n, p.2))) := by
  induction events generalizing s with
  | nil => simp [Server.run]
  | cons ev rest ih =>
    have hs : s % n < n := Nat.mod_lt _ hn0
    cases ev with
    | none =>
      rw [Server.run, OnData_none dcheck n _ hs hn]
      simp only [ih s, List.reduceOption_cons_of_none, Option.toList, List.nil_append]
    | some c =>
      rw [Server.run, OnData_some dcheck n _ hs hn c]
      have hmod : (s % n + 1) % n = (s + 1) % n := by
        rw [Nat.add_mod, Nat.mod_mod, ← Nat.add_mod]
      have e : s + (rest.reduceOption.length + 1) = s + 1 + rest.reduceOption.length := by
        omega
      simp only [hmod, ih (s + 1), List.reduceOption_cons_of_some, List.length_cons,
        Option.toList, List.enumFrom_cons, List.map_cons, List.singleton_append, e]

end communication

namespace query

/-- The loop decides at the first position at which one of the two values compares less than
the other. -/
theorem compareLoop_first {T : Type} (lt : T → T → Bool) (i : Nat) :
    ∀ (c1 c2 : List T) (ordering : List Ordering) (a b : T) (o : Ordering),
      c1[i]? = some a → c2[i]? = some b → ordering[i]? = some o →
      (∀ j x y, j < i → c1[j]? = some x → c2[j]? = some y →
        lt x y = false ∧ lt y x = false) →
      compareLoop lt c1 c2 ordering
        = if lt a b then .returned (decide (o = .ASC))
          else if lt b a then .returned (decide (o = .DESC))
          else compareLoop lt (c1.drop (i + 1)) (c2.drop (i + 1)) (ordering.drop (i + 1)) := by
  induction i with
  | zero =>
    intro c1 c2 ordering a b o h1 h2 h3 _
    cases c1 with
    | nil => simp at h1
    | cons x c1 =>
      cases c2 with
      | nil => simp at h2
      | cons y c2 =>
        cases ordering with
        | nil => simp at h3
        | cons o1 ordering =>
          simp only [List.getElem?_cons_zero, Option.some.injEq] at h1 h2 h3
          subst h1 h2 h3
          rw [compareLoop]
          simp
  | succ i ih =>
    intro c1 c2 ordering a b o h1 h2 h3 hbefore
    cases c1 with
    | nil => simp at h1
    | cons x c1 =>
      cases c2 with
      | nil => simp at h2
      | cons y c2 =>
        cases ordering with
        | nil => simp at h3
        | cons o1 ordering =>
          simp only [List.getElem?_cons_succ] at h1 h2 h3
          have h0 := hbefore 0 x y (Nat.succ_pos i) (by simp) (by simp)
          rw [compareLoop, h0.1, h0.2]
          simp only [Bool.false_eq_true, if_false, List.drop_succ_cons]
          exact ih c1 c2 ordering a b o h1 h2 h3
            (fun j x' y' hj (hx : c1[j]? = some x') (hy : c2[j]? = some y') =>
              hbefore (j + 1) x' y' (by omega) (by simpa using hx) (by simpa using hy))

/-- When no position decides, the loop runs to the end of the shorter vector and the result is
whether the first vector is the shorter one. -/
theorem compareLoop_equal {T : Type} (lt : T → T → Bool) :
    ∀ (c1 c2 : List T) (ordering : List Ordering),
      c1.length ≤ ordering.length → c2.length ≤ ordering.length →
      (∀ (j : Nat) (x y : T), c1[j]? = some x → c2[j]? = some y →
        lt x y = false ∧ lt y x = false) →
      compareLoop lt c1 c2 ordering = .returned (decide (c1.length < c2.length)) := by
  intro c1
  induction c1 with
  | nil =>
    intro c2 ordering _ _ _
    cases c2 with
    | nil => simp [compareLoop]
    | cons y c2 => simp [compareLoop]
  | cons x c1 ih =>
    intro c2 ordering h1 h2 hall
    cases c2 with
    | nil => simp [compareLoop]
    | cons y c2 =>
      cases ordering with
      | nil => simp at h1
      | cons o ordering =>
        have h0 := hall 0 x y (by simp) (by simp)
        rw [compareLoop, h0.1, h0.2]
        simp only [Bool.false_eq_true, if_false, List.length_cons, Nat.add_lt_add_iff_right]
        exact ih c2 ordering (by simpa using h1) (by simpa using h2)
          (fun j x' y' (hx : c1[j]? = some x') (hy : c2[j]? = some y') =>
            hall (j + 1) x' y' (by simpa using hx) (by simpa using hy))

/-- The loop on a vector and itself returns false when no element compares less than
itself. -/
theorem compareLoop_self {T : Type} (lt : T → T → Bool) :
    ∀ (c : List T) (ordering : List Ordering), c.length ≤ ordering.length →
      (∀ a ∈ c, lt a a = false) → compareLoop lt c c ordering = .returned false := by
  intro c
  induction c with
  | nil => intro ordering _ _; simp [compareLoop]
  | cons x c ih =>
    intro ordering h hirr
    cases ordering with
    | nil => simp at h
    | cons o ordering =>
      rw [compareLoop, hirr x (List.mem_cons_self _ _)]
      simp only [Bool.false_eq_true, if_false]
      exact ih ordering (by simpa using h) (fun a ha => hirr a (List.mem_cons_of_mem _ ha))

/-- The loop does not return true both ways when no two elements compare less than each
other. -/
theorem compareLoop_asymm {T : Type} (lt : T → T → Bool) :
    ∀ (c1 c2 : List T) (ordering : List Ordering),
      (∀ a ∈ c1, ∀ b ∈ c2, ¬ (lt a b = true ∧ lt b a = true)) →
      ¬ (compareLoop lt c1 c2 ordering = .returned true ∧
          compareLoop lt c2 c1 ordering = .returned true) := by
  intro c1
  induction c1 with
  | nil =>
    intro c2 ordering _
    cases c2 with
    | nil => simp [compareLoop]
    | cons y c2 => simp [compareLoop]
  | cons x c1 ih =>
    intro c2 ordering hasym
    cases c2 with
    | nil => simp [compareLoop]
    | cons y c2 =>
      cases ordering with
      | nil => simp [compareLoop]
      | cons o ordering =>
        have h0 := hasym x (List.mem_cons_self _ _) y (List.mem_cons_self _ _)
        rw [compareLoop, compareLoop]
        by_cases hxy : lt x y = true
        · have hyx : lt y x = false := by
            rcases hb : lt y x with _ | _
            · rfl
            · exact absurd ⟨hxy, hb⟩ h0
          rw [hxy, hyx]
          cases o <;> simp
        · have hxy' : lt x y = false := by simpa using hxy
          rw [hxy']
          by_cases hyx : lt y x = true
          · rw [hyx]
            cases o <;> simp
          · have hyx' : lt y x = false := by simpa using hyx
            rw [hyx']
            simp only [Bool.false_eq_true, if_false]
            exact ih c2 ordering (fun a ha b hb =>
              hasym a (List.mem_cons_of_mem _ ha) b (List.mem_cons_of_mem _ hb))

end query

/-! ## The claims -/

namespace database

open durability communication.bolt

/-- C1: for every well-formed delta `d` of any of the sixteen kinds, the bytes that `Encode`
writes to a fresh hashed writer are decoded by `Decode` on a fresh hashed reader to a present
delta that has the kind and the transaction id of `d` and agrees with `d` on every field that
the kind requires. -/
theorem C1_decode_encode_roundtrip (H : Hasher) (d : StateDelta) (hw : d.wf) :
    ∃ r, (StateDelta.Decode H
            (HashedFileReader.fresh H (d.Encode H (HashedFileWriter.fresh H)).out)).1 = some r ∧
      d.agreesOnRequired r := by
  refine ⟨d.stored, ?_, agreesOnRequired_stored d⟩
  rw [Encode_eq]
  have h := Decode_recordBytes H d hw [] H.start H.start_lt
  simp only [List.append_nil] at h
  simp [HashedFileWriter.Write, HashedFileWriter.fresh, HashedFileReader.fresh, h]

theorem C1_decode_encode_roundtrip_witness :
    sampleDelta.wf ∧
    ∃ r, (StateDelta.Decode sampleHasher (HashedFileReader.fresh sampleHasher
            (sampleDelta.Encode sampleHasher (HashedFileWriter.fresh sampleHasher)).out)).1
          = some r ∧ sampleDelta.agreesOnRequired r :=
  ⟨by decide, C1_decode_encode_roundtrip sampleHasher sampleDelta (by decide)⟩

/-- C2: for every finite list of well-formed deltas written in order by `Encode` through one
hashed writer, as many successive calls of `Decode` on one hashed reader over the bytes
written return present deltas that agree, one by one and in the same order, with the deltas
written, and leave the reader at the end of the bytes. -/
theorem C2_stream_roundtrip (H : Hasher) (ds : List StateDelta) (hw : ∀ d ∈ ds, d.wf) :
    ∃ rs, (DecodeSeq H ds.length
            (HashedFileReader.fresh H (EncodeAll H ds (HashedFileWriter.fresh H)).out)).1
          = rs.map some ∧
      List.Forall₂ StateDelta.agreesOnRequired ds rs ∧
      (DecodeSeq H ds.length
            (HashedFileReader.fresh H (EncodeAll H ds (HashedFileWriter.fresh H)).out)).2.input
          = [] := by
  refine ⟨ds.map StateDelta.stored, ?_, forall2_agrees_stored ds, ?_⟩
  · rw [EncodeAll_out_fresh]
    have h := DecodeSeq_streamBytes H ds hw [] H.start H.start_lt 0
    simp only [List.append_nil, Nat.add_zero] at h
    simp [HashedFileReader.fresh, h, DecodeSeq]
  · rw [EncodeAll_out_fresh]
    have h := DecodeSeq_streamBytes H ds hw [] H.start H.start_lt 0
    simp only [List.append_nil, Nat.add_zero] at h
    simp [HashedFileReader.fresh, h, DecodeSeq]

theorem C2_stream_roundtrip_witness :
    (∀ d ∈ sampleLog, d.wf) ∧
    ∃ rs, (DecodeSeq sampleHasher sampleLog.length (HashedFileReader.fresh sampleHasher
            (EncodeAll sampleHasher sampleLog (HashedFileWriter.fresh sampleHasher)).out)).1
          = rs.map some ∧
      List.Forall₂ StateDelta.agreesOnRequired sampleLog rs ∧
      (DecodeSeq sampleHasher sampleLog.length (HashedFileReader.fresh sampleHasher
            (EncodeAll sampleHasher sampleLog (HashedFileWriter.fresh sampleHasher)).out)).2.input
          = [] :=
  ⟨by decide, C2_stream_roundtrip sampleHasher sampleLog (by decide)⟩

/-- C3: `Decode` returns a delta exactly when the members of the record are read and the
64-bit word that follows them equals the hash that the reader has accumulated over the bytes
consumed before that word: a returned delta comes with a split of the input into the bytes of
the fields, the eight bytes of the word and the bytes left, with the value of the word equal
to the hash over the fields. Whenever the members are read and the word that follows differs
from the hash of the reader at that point, `Decode` returns absent. -/
theorem C3_decode_iff_hash_matches (H : Hasher) (reader : HashedFileReader) :
    (∀ (d : StateDelta) (reader' : HashedFileReader),
      StateDelta.Decode H reader = (some d, reader') ↔
        ∃ fields word, reader.input = fields ++ word ++ reader'.input ∧ word.length = 8 ∧
          StateDelta.DecodeRecord H reader
            = (.next d, ⟨word ++ reader'.input, H.run reader.hash fields⟩) ∧
          leValue word = H.run reader.hash fields ∧
          reader'.hash = H.run reader.hash (fields ++ word)) ∧
    (∀ (d : StateDelta) (mid : HashedFileReader),
      StateDelta.DecodeRecord H reader = (.next d, mid) →
      leValue (mid.input.take 8) ≠ mid.hash →
      (StateDelta.Decode H reader).1 = none) := by
  constructor
  · intro d reader'
    rw [Decode_eq_some, DecodeBody_eq_next]
    constructor
    · rintro ⟨mid, h1, h2⟩
      obtain ⟨fields, hf, hh⟩ := consumes_DecodeRecord H reader d mid h1
      obtain ⟨h8, hv, hr⟩ := (VerifyHash_eq_next H mid reader').1 h2
      refine ⟨fields, mid.input.take 8, ?_, ?_, ?_, ?_, ?_⟩
      · rw [hf, hr, List.append_assoc, List.take_append_drop]
      · simp [h8]
      · rw [h1, hr, List.take_append_drop, ← hh]
      · rw [hv, hh]
      · rw [hr, Hasher.run_append, hh]
    · rintro ⟨fields, word, hin, hlen, hrec, hval, hhash⟩
      refine ⟨_, hrec, (VerifyHash_eq_next H _ _).2 ⟨by simp [hlen], ?_, ?_⟩⟩
      · simp only [List.take_left' hlen, hval]
      · simp only [List.take_left' hlen, List.drop_left' hlen]
        cases reader'
        simp_all [Hasher.run_append]
  · intro d mid hrec hne
    rcases hres : StateDelta.Decode H reader with ⟨o, r'⟩
    cases o with
    | none => rfl
    | some a =>
      exfalso
      obtain ⟨mid', h1, h2⟩ := (DecodeBody_eq_next H _ _ _).1 ((Decode_eq_some H _ _ _).1 hres)
      rw [hrec] at h1
      simp only [Prod.mk.injEq, Flow.next.injEq] at h1
      obtain ⟨_, rfl⟩ := h1
      exact hne ((VerifyHash_eq_next H _ _).1 h2).2.1

theorem C3_decode_iff_hash_matches_witness :
    StateDelta.DecodeRecord sampleHasher
        ⟨(StateDelta.TxBegin 42).fieldBytes ++ [1, 2, 3, 4, 5, 6, 7, 8], 0⟩
      = (.next (StateDelta.TxBegin 42).stored,
          ⟨[1, 2, 3, 4, 5, 6, 7, 8], sampleHasher.run 0 (StateDelta.TxBegin 42).fieldBytes⟩) ∧
    leValue ([1, 2, 3, 4, 5, 6, 7, 8].take 8)
      ≠ sampleHasher.run 0 (StateDelta.TxBegin 42).fieldBytes ∧
    (StateDelta.Decode sampleHasher
      ⟨(StateDelta.TxBegin 42).fieldBytes ++ [1, 2, 3, 4, 5, 6, 7, 8], 0⟩).1 = none :=
  ⟨DecodeRecord_fieldBytes sampleHasher (StateDelta.TxBegin 42) (by decide) _ 0, by decide!,
    (C3_decode_iff_hash_matches sampleHasher
      ⟨(StateDelta.TxBegin 42).fieldBytes ++ [1, 2, 3, 4, 5, 6, 7, 8], 0⟩).2 _ _
      (DecodeRecord_fieldBytes sampleHasher (StateDelta.TxBegin 42) (by decide) _ 0)
      (by decide!)⟩

/-- C4: for every well-formed delta `d` written by `Encode` through a writer, and every proper
initial segment (the empty one included) of the bytes written for `d`, `Decode` on a reader
positioned at the start of that segment, with the hash of the writer before the record,
returns absent. -/
theorem C4_truncated_record_rejected (H : Hasher) (d : StateDelta) (hw : d.wf)
    (w : HashedFileWriter) (hh : w.hash < 2 ^ 64) (n : Nat)
    (hn : n < (d.Encode H w).out.length - w.out.length) :
    (StateDelta.Decode H ⟨((d.Encode H w).out.drop w.out.length).take n, w.hash⟩).1 = none := by
  rw [Encode_eq] at hn ⊢
  simp only [HashedFileWriter.Write, List.length_append, Nat.add_sub_cancel_left,
    List.drop_left] at hn ⊢
  rcases hres : StateDelta.Decode H ⟨(d.recordBytes H w.hash).take n, w.hash⟩ with ⟨o, r'⟩
  cases o with
  | none => rfl
  | some a =>
    exfalso
    have hb := (Decode_eq_some H _ _ _).1 hres
    have he := extends_DecodeBody H _ a r' ((d.recordBytes H w.hash).drop n) hb
    simp only [List.take_append_drop] at he
    have hfull := Decode_recordBytes H d hw [] w.hash hh
    simp only [List.append_nil] at hfull
    rw [(Decode_eq_some H _ _ _).2 he] at hfull
    simp only [Prod.mk.injEq, HashedFileReader.mk.injEq, List.append_eq_nil] at hfull
    have hlen : ((d.recordBytes H w.hash).drop n).length = 0 := by rw [hfull.2.1.2]; rfl
    rw [List.length_drop] at hlen
    omega

theorem C4_truncated_record_rejected_witness :
    sampleDelta.wf ∧ (HashedFileWriter.fresh sampleHasher).hash < 2 ^ 64 ∧
    30 < (sampleDelta.Encode sampleHasher (HashedFileWriter.fresh sampleHasher)).out.length
          - (HashedFileWriter.fresh sampleHasher).out.length ∧
    (StateDelta.Decode sampleHasher
      ⟨((sampleDelta.Encode sampleHasher (HashedFileWriter.fresh sampleHasher)).out.drop
          (HashedFileWriter.fresh sampleHasher).out.length).take 30,
        (HashedFileWriter.fresh sampleHasher).hash⟩).1 = none :=
  ⟨by decide, by decide, by decide,
    C4_truncated_record_rejected sampleHasher sampleDelta (by decide)
      (HashedFileWriter.fresh sampleHasher) (by decide) 30 (by decide)⟩

end database

namespace database

open durability communication.bolt

/-- C5: for every stream of well-formed records written by `Encode` through a fresh writer and
every single-bit flip located in the bytes of record `k`, successive calls of `Decode` on the
modified stream return, for the records strictly before `k`, the same results as on the
unmodified stream. -/
theorem C5_records_before_flip_unchanged (H : Hasher) (ds : List StateDelta)
    (hw : ∀ d ∈ ds, d.wf) (k pos bit n : Nat) (hk : k < ds.length) (hbit : bit < 8)
    (hlo : (EncodeAll H (ds.take k) (HashedFileWriter.fresh H)).out.length ≤ pos)
    (hhi : pos < (EncodeAll H (ds.take (k + 1)) (HashedFileWriter.fresh H)).out.length) :
    (DecodeSeq H n (HashedFileReader.fresh H
        (flipBit (EncodeAll H ds (HashedFileWriter.fresh H)).out pos bit))).1.take k
      = (DecodeSeq H n (HashedFileReader.fresh H
          (EncodeAll H ds (HashedFileWriter.fresh H)).out)).1.take k := by
  have _ := hbit
  have _ := hhi
  rw [EncodeAll_out_fresh] at hlo ⊢
  have hsplit : ds = ds.take k ++ ds.drop k := (List.take_append_drop k ds).symm
  have hwk : ∀ d ∈ ds.take k, d.wf := fun d hd => hw d (List.mem_of_mem_take hd)
  have hlen : k ≤ (ds.take k).length := by simp; omega
  have hS : streamBytes H H.start ds
      = streamBytes H H.start (ds.take k)
        ++ streamBytes H (H.run H.start (streamBytes H H.start (ds.take k))) (ds.drop k) := by
    conv => lhs; rw [hsplit]
    exact streamBytes_append H H.start _ _
  rw [hS, flipBit_append_right _ _ _ _ hlo]
  simp only [HashedFileReader.fresh]
  rw [DecodeSeq_take H _ hwk _ H.start H.start_lt n k hlen,
    DecodeSeq_take H _ hwk _ H.start H.start_lt n k hlen]

theorem C5_records_before_flip_unchanged_witness :
    (∀ d ∈ sampleLog, d.wf) ∧ 1 < sampleLog.length ∧ 3 < 8 ∧
    (EncodeAll sampleHasher (sampleLog.take 1) (HashedFileWriter.fresh sampleHasher)).out.length
      ≤ 40 ∧
    40 < (EncodeAll sampleHasher (sampleLog.take (1 + 1))
            (HashedFileWriter.fresh sampleHasher)).out.length ∧
    (DecodeSeq sampleHasher 3 (HashedFileReader.fresh sampleHasher
        (flipBit (EncodeAll sampleHasher sampleLog (HashedFileWriter.fresh sampleHasher)).out
          40 3))).1.take 1
      = (DecodeSeq sampleHasher 3 (HashedFileReader.fresh sampleHasher
          (EncodeAll sampleHasher sampleLog (HashedFileWriter.fresh sampleHasher)).out)).1.take 1 :=
  ⟨by decide, by decide, by decide, by decide, by decide,
    C5_records_before_flip_unchanged sampleHasher sampleLog (by decide) 1 40 3 3
      (by decide) (by decide) (by decide) (by decide)⟩

end database

namespace database

open durability communication.bolt

/-- C6 (counterexample): the stream holds the single record of `craftedDelta`, written through
a fresh writer with the sample hash. Flipping bit 3 of byte 37, the size byte of the label
name, turns the size 24 into 16; `Decode` then reads a name of sixteen bytes, takes the next
eight bytes of the name for the hash word, finds them equal to its hash, and returns a delta
for the modified record instead of absent. -/
theorem C6_counterexample :
    craftedDelta.wf ∧ recordStart sampleHasher [craftedDelta] 0 ≤ 37 ∧
    37 < recordStart sampleHasher [craftedDelta] (0 + 1) ∧ 3 < 8 ∧
    (DecodeSeq sampleHasher 1 (HashedFileReader.fresh sampleHasher
        (flipBit (EncodeAll sampleHasher [craftedDelta]
          (HashedFileWriter.fresh sampleHasher)).out 37 3))).1.map
        (Option.map (fun d => (d.type, d.label_name)))
      = [some (DeltaType.ADD_LABEL,
          [80, 101, 114, 115, 111, 110, 95, 106, 108, 115, 120, 116, 109, 108, 104, 99])] := by
  refine ⟨by decide, by decide, by decide, by decide, ?_⟩
  decide!

end database

namespace database

open durability communication.bolt

/-- C6 (amended): for a hash whose update is injective in the running digest and changes with
every bit of the absorbed byte, for every stream of well-formed records written by `Encode`
through a fresh writer and every single-bit flip located in the bytes of record `k`: when the
flip is in the trailing hash word of record `k`, or is in its fields and `Decode` still reads
the members of record `k` from the same number of bytes, successive calls of `Decode` on the
modified stream return absent for record `k` and for every record after `k`. -/
theorem C6_flip_rejected_when_framing_kept (H : Hasher) (hinj : H.Injective)
    (ds : List StateDelta) (hw : ∀ d ∈ ds, d.wf) (k pos bit n : Nat) (hk : k < ds.length)
    (hbit : bit < 8) (hlo : recordStart H ds k ≤ pos) (hhi : pos < recordStart H ds (k + 1))
    (hframe : recordStart H ds (k + 1) - 8 ≤ pos ∨
      ∃ d' mid,
        StateDelta.DecodeRecord H
            (readerAt H (flipBit (EncodeAll H ds (HashedFileWriter.fresh H)).out pos bit)
              (recordStart H ds k))
          = (.next d', mid) ∧
        mid.input.length + (recordStart H ds (k + 1) - 8)
          = (EncodeAll H ds (HashedFileWriter.fresh H)).out.length) :
    (DecodeSeq H n (HashedFileReader.fresh H
        (flipBit (EncodeAll H ds (HashedFileWriter.fresh H)).out pos bit))).1.drop k
      = List.replicate (n - k) none := by
  have hdrop : ds.drop k = ds[k] :: ds.drop (k + 1) := List.drop_eq_getElem_cons hk
  have hsplit : ds = ds.take k ++ (ds[k] :: ds.drop (k + 1)) := by
    rw [← hdrop, List.take_append_drop]
  have htake1 : ds.take (k + 1) = ds.take k ++ [ds[k]] := by
    rw [List.take_succ, List.getElem?_eq_getElem hk]
    rfl
  have hwk : ∀ d ∈ ds.take k, d.wf := fun d hd => hw d (List.mem_of_mem_take hd)
  have hwd : ds[k].wf := hw _ (List.getElem_mem hk)
  have hwr : ∀ d ∈ ds.drop (k + 1), d.wf := fun d hd => hw d (List.mem_of_mem_drop hd)
  have hklen : (ds.take k).length = k := by simp; omega
  have hone : ∀ g, streamBytes H g [ds[k]] = ds[k].recordBytes H g := by
    intro g
    simp [streamBytes]
  rw [recordStart_eq] at hlo
  rw [recordStart_eq, htake1, streamBytes_append, hone] at hhi
  rw [recordStart_eq, recordStart_eq, htake1, streamBytes_append, hone, EncodeAll_out_fresh]
    at hframe
  rw [EncodeAll_out_fresh]
  have hS : streamBytes H H.start ds
      = streamBytes H H.start (ds.take k)
        ++ (ds[k].recordBytes H (H.run H.start (streamBytes H H.start (ds.take k)))
          ++ streamBytes H (H.run (H.run H.start (streamBytes H H.start (ds.take k)))
              (ds[k].recordBytes H (H.run H.start (streamBytes H H.start (ds.take k)))))
            (ds.drop (k + 1))) := by
    conv => lhs; rw [hsplit]
    rw [streamBytes_append]
    rfl
  rw [hS] at hframe ⊢
  obtain ⟨A, hA⟩ : ∃ A, A = streamBytes H H.start (ds.take k) := ⟨_, rfl⟩
  rw [← hA] at hlo hhi hframe ⊢
  obtain ⟨g, hgA⟩ : ∃ g, g = H.run H.start A := ⟨_, rfl⟩
  rw [← hgA] at hhi hframe ⊢
  obtain ⟨C, hC⟩ : ∃ C, C = streamBytes H (H.run g (ds[k].recordBytes H g)) (ds.drop (k + 1)) :=
    ⟨_, rfl⟩
  rw [← hC] at hframe ⊢
  simp only [List.length_append] at hhi hframe
  have hBlen := fieldBytes_recordBytes_length H g ds[k]
  have hp : pos - A.length < (ds[k].recordBytes H g).length := by omega
  rw [flipBit_append_right _ _ _ _ hlo, flipBit_append_left _ _ _ _ hp] at hframe ⊢
  have hreader : readerAt H (A ++ (flipBit (ds[k].recordBytes H g) (pos - A.length) bit ++ C))
      A.length = ⟨flipBit (ds[k].recordBytes H g) (pos - A.length) bit ++ C, g⟩ := by
    simp [readerAt, hgA]
  rw [hreader] at hframe
  have hfl := flipBit_length (ds[k].recordBytes H g) (pos - A.length) bit
  have hframe' : ds[k].fieldBytes.length ≤ pos - A.length ∨
      ∃ d' mid, StateDelta.DecodeRecord H
          ⟨flipBit (ds[k].recordBytes H g) (pos - A.length) bit ++ C, g⟩ = (.next d', mid) ∧
        mid.input.length = 8 + C.length := by
    rcases hframe with h1 | ⟨d', mid, h1, h2⟩
    · left
      omega
    · right
      refine ⟨d', mid, h1, ?_⟩
      omega
  have hmain := DecodeSeq_flipped H hinj (ds.take k) (ds.drop (k + 1)) ds[k] hwk hwd hwr A C g
    hA hgA hC (pos - A.length) bit n hp hbit hframe'
  rw [hklen] at hmain
  simp only [HashedFileReader.fresh]
  exact hmain

end database

namespace database

open durability communication.bolt

theorem C6_flip_rejected_when_framing_kept_witness :
    sampleHasher.Injective ∧ (∀ d ∈ sampleLog, d.wf) ∧ 1 < sampleLog.length ∧ 2 < 8 ∧
    recordStart sampleHasher sampleLog 1 ≤ 55 ∧ 55 < recordStart sampleHasher sampleLog (1 + 1) ∧
    recordStart sampleHasher sampleLog (1 + 1) - 8 ≤ 55 ∧
    (DecodeSeq sampleHasher 3 (HashedFileReader.fresh sampleHasher
        (flipBit (EncodeAll sampleHasher sampleLog (HashedFileWriter.fresh sampleHasher)).out
          55 2))).1.drop 1
      = List.replicate (3 - 1) none :=
  ⟨sampleHasher_injective, by decide, by decide, by decide, by decide, by decide, by decide,
    C6_flip_rejected_when_framing_kept sampleHasher sampleHasher_injective sampleLog
      (by decide) 1 55 2 3 (by decide) (by decide) (by decide) (by decide)
      (Or.inl (by decide))⟩

end database

namespace database

open durability communication.bolt

/-- C7: for every delta, `Encode` writes `Int(kind)`, `Int(transaction_id)`, then exactly the
fields of the schedule of its kind, in order, and finally one raw 64-bit word equal to the
hash of the writer after those fields; nothing else is written. -/
theorem C7_encode_layout (H : Hasher) (d : StateDelta) (w : HashedFileWriter) :
    d.Encode H w
        = (w.Write H (encodeFieldList
              (.Int d.type.toInt64 :: .Int (toInt64 d.transaction_id) :: d.schedule))).WriteValue H
            (w.Write H (encodeFieldList
              (.Int d.type.toInt64 :: .Int (toInt64 d.transaction_id) :: d.schedule))).hash ∧
    (d.Encode H w).out
        = w.out
          ++ encodeFieldList
              (.Int d.type.toInt64 :: .Int (toInt64 d.transaction_id) :: d.schedule)
          ++ leBytes 8 (H.run w.hash (encodeFieldList
              (.Int d.type.toInt64 :: .Int (toInt64 d.transaction_id) :: d.schedule))) := by
  constructor
  · rw [Encode_eq]
    simp [StateDelta.recordBytes, StateDelta.fieldBytes, HashedFileWriter.WriteValue,
      HashedFileWriter.Write, Hasher.run_append]
  · rw [Encode_eq]
    simp [StateDelta.recordBytes, StateDelta.fieldBytes, HashedFileWriter.Write]

/-- C8: two deltas that have the same kind, the same transaction id and equal values in the
fields that the kind requires are written by `Encode`, from the same writer state, as the same
bytes with the same resulting hash, whatever their remaining members hold. -/
theorem C8_encode_ignores_other_fields (H : Hasher) (d1 d2 : StateDelta)
    (w : HashedFileWriter) (h : d1.agreesOnRequired d2) : d1.Encode H w = d2.Encode H w := by
  obtain ⟨ht, htx, hf⟩ := h
  have hs : d2.schedule = d1.schedule := by
    unfold StateDelta.schedule
    rw [ht]
    split <;> simp_all
  rw [Encode_eq, Encode_eq]
  simp only [StateDelta.recordBytes, StateDelta.fieldBytes, ht, htx, hs]

theorem C8_encode_ignores_other_fields_witness :
    (StateDelta.CreateVertex 42 7).agreesOnRequired sampleDeltaPadded ∧
    (StateDelta.CreateVertex 42 7).Encode sampleHasher (HashedFileWriter.fresh sampleHasher)
      = sampleDeltaPadded.Encode sampleHasher (HashedFileWriter.fresh sampleHasher) :=
  ⟨⟨rfl, rfl, rfl⟩,
    C8_encode_ignores_other_fields sampleHasher (StateDelta.CreateVertex 42 7)
      sampleDeltaPadded (HashedFileWriter.fresh sampleHasher) ⟨rfl, rfl, rfl⟩⟩

/-- C9: the factories `AddOutEdge` and `AddInEdge` return a delta if and only if both the
address of the peer vertex and the address of the edge are global, `RemoveOutEdge` and
`RemoveInEdge` return a delta if and only if the address of the edge is global, and every delta
that one of the four returns has the kind of the factory and carries only global addresses. -/
theorem C9_half_edge_factories_global (is_remote : Nat → Bool)
    (tx_id vertex_id peer edge_address edge_type : Nat) :
    ((StateDelta.AddOutEdge is_remote tx_id vertex_id peer edge_address edge_type).isSome = true
      ↔ (is_remote peer = true ∧ is_remote edge_address = true)) ∧
    ((StateDelta.AddInEdge is_remote tx_id vertex_id peer edge_address edge_type).isSome = true
      ↔ (is_remote peer = true ∧ is_remote edge_address = true)) ∧
    ((StateDelta.RemoveOutEdge is_remote tx_id vertex_id edge_address).isSome = true
      ↔ is_remote edge_address = true) ∧
    ((StateDelta.RemoveInEdge is_remote tx_id vertex_id edge_address).isSome = true
      ↔ is_remote edge_address = true) ∧
    (StateDelta.AddOutEdge is_remote tx_id vertex_id peer edge_address edge_type).all
      (fun d => decide (d.type = .ADD_OUT_EDGE) && is_remote d.vertex_to_address
        && is_remote d.edge_address) = true ∧
    (StateDelta.AddInEdge is_remote tx_id vertex_id peer edge_address edge_type).all
      (fun d => decide (d.type = .ADD_IN_EDGE) && is_remote d.vertex_from_address
        && is_remote d.edge_address) = true ∧
    (StateDelta.RemoveOutEdge is_remote tx_id vertex_id edge_address).all
      (fun d => decide (d.type = .REMOVE_OUT_EDGE) && is_remote d.edge_address) = true ∧
    (StateDelta.RemoveInEdge is_remote tx_id vertex_id edge_address).all
      (fun d => decide (d.type = .REMOVE_IN_EDGE) && is_remote d.edge_address) = true := by
  unfold StateDelta.AddOutEdge StateDelta.AddInEdge StateDelta.RemoveOutEdge
    StateDelta.RemoveInEdge
  cases hp : is_remote peer <;> cases he : is_remote edge_address <;>
    simp [StateDelta.init, hp, he]

/-- C10: for every delta whose kind is TxBegin, TxCommit, TxAbort, AddOutEdge, RemoveOutEdge,
AddInEdge or RemoveInEdge, and for every accessor and database state, `Apply` ends fatally,
makes no call on the accessor and leaves the database state as it was. -/
theorem C10_apply_rejects_control_and_half_edges {σ V E : Type} (dcheck : Bool)
    (dba : GraphDbAccessor σ V E) (d : StateDelta) (s : σ)
    (hk : d.type = .TRANSACTION_BEGIN ∨ d.type = .TRANSACTION_COMMIT ∨
      d.type = .TRANSACTION_ABORT ∨ d.type = .ADD_OUT_EDGE ∨ d.type = .REMOVE_OUT_EDGE ∨
      d.type = .ADD_IN_EDGE ∨ d.type = .REMOVE_IN_EDGE) :
    (d.Apply dcheck dba s).outcome = .fatal ∧ (d.Apply dcheck dba s).calls = [] ∧
      (d.Apply dcheck dba s).state = s := by
  unfold StateDelta.Apply
  rcases hk with h | h | h | h | h | h | h <;> rw [h] <;> exact ⟨rfl, rfl, rfl⟩

theorem C10_apply_rejects_control_and_half_edges_witness :
    ((StateDelta.TxCommit 42).type = .TRANSACTION_BEGIN ∨
      (StateDelta.TxCommit 42).type = .TRANSACTION_COMMIT ∨
      (StateDelta.TxCommit 42).type = .TRANSACTION_ABORT ∨
      (StateDelta.TxCommit 42).type = .ADD_OUT_EDGE ∨
      (StateDelta.TxCommit 42).type = .REMOVE_OUT_EDGE ∨
      (StateDelta.TxCommit 42).type = .ADD_IN_EDGE ∨
      (StateDelta.TxCommit 42).type = .REMOVE_IN_EDGE) ∧
    ((StateDelta.TxCommit 42).Apply true sampleAccessor [7]).outcome = .fatal ∧
    ((StateDelta.TxCommit 42).Apply true sampleAccessor [7]).calls = [] ∧
    ((StateDelta.TxCommit 42).Apply true sampleAccessor [7]).state = [7] :=
  ⟨Or.inr (Or.inl rfl),
    C10_apply_rejects_control_and_half_edges true sampleAccessor (StateDelta.TxCommit 42) [7]
      (Or.inr (Or.inl rfl))⟩

end database

namespace database

open durability communication.bolt

/-- C11 (counterexample): `Apply` on the delta `BuildIndex(77, 1, "L", 2, "p")` does not return
normally and makes no call on the accessor: it ends in `LOG(FATAL)`. -/
theorem C11_counterexample :
    sampleBuildIndex.type = .BUILD_INDEX ∧
    (sampleBuildIndex.Apply true sampleAccessor [7]).outcome ≠ .returned ∧
    (sampleBuildIndex.Apply true sampleAccessor [7]).outcome = .fatal ∧
    (sampleBuildIndex.Apply true sampleAccessor [7]).calls.length = 0 := by
  decide

/-- C11 (amended): for every BuildIndex delta, every accessor and every database state,
`Apply` ends fatally, makes no call on the accessor and leaves the database state as it was:
BuildIndex is not a legal input to `Apply`. -/
theorem C11_apply_rejects_build_index {σ V E : Type} (dcheck : Bool)
    (dba : GraphDbAccessor σ V E) (d : StateDelta) (s : σ) (hk : d.type = .BUILD_INDEX) :
    (d.Apply dcheck dba s).outcome = .fatal ∧ (d.Apply dcheck dba s).calls = [] ∧
      (d.Apply dcheck dba s).state = s := by
  unfold StateDelta.Apply
  rw [hk]
  exact ⟨rfl, rfl, rfl⟩

theorem C11_apply_rejects_build_index_witness :
    sampleBuildIndex.type = .BUILD_INDEX ∧
    (sampleBuildIndex.Apply false sampleAccessor [7]).outcome = .fatal ∧
    (sampleBuildIndex.Apply false sampleAccessor [7]).calls = [] ∧
    (sampleBuildIndex.Apply false sampleAccessor [7]).state = [7] :=
  ⟨rfl, C11_apply_rejects_build_index false sampleAccessor sampleBuildIndex [7] rfl⟩

/-- C12 (counterexample): in a build without `DCHECK`, `Apply` on `CreateEdge(42, 10, 7, 8, 0,
"E")` over a database that holds vertex 7 and no vertex 8 does not end fatally: the check is
compiled out and the empty result of the second lookup is dereferenced. -/
theorem C12_counterexample :
    sampleCreateEdge.type = .CREATE_EDGE ∧
    sampleAccessor.FindVertex [7] sampleCreateEdge.vertex_to_id true = none ∧
    (sampleCreateEdge.Apply false sampleAccessor [7]).outcome ≠ .fatal ∧
    (sampleCreateEdge.Apply false sampleAccessor [7]).outcome = .undefined := by
  decide

/-- C12 (amended): for every CreateEdge delta, `Apply` first looks up both endpoint vertices by
`vertex_from_id` and `vertex_to_id`. If either lookup finds no vertex then, in a build with
`DCHECK` compiled in, `Apply` ends fatally, makes no further call (`InsertEdge` is not called)
and leaves the database state as it was. If both are found, `Apply` returns after resolving the
edge type from its name and inserting exactly one edge, from the first vertex to the second,
with the recorded `edge_id`. -/
theorem C12_create_edge_lookups {σ V E : Type} (dcheck : Bool)
    (dba : GraphDbAccessor σ V E) (d : StateDelta) (s : σ) (hk : d.type = .CREATE_EDGE) :
    (d.Apply dcheck dba s).calls.take 2
        = [.FindVertex d.vertex_from_id true, .FindVertex d.vertex_to_id true] ∧
    (dcheck = true →
      (dba.FindVertex s d.vertex_from_id true = none ∨
        dba.FindVertex s d.vertex_to_id true = none) →
      (d.Apply dcheck dba s).outcome = .fatal ∧
      (d.Apply dcheck dba s).calls
        = [.FindVertex d.vertex_from_id true, .FindVertex d.vertex_to_id true] ∧
      (d.Apply dcheck dba s).state = s) ∧
    (∀ src dst, dba.FindVertex s d.vertex_from_id true = some src →
      dba.FindVertex s d.vertex_to_id true = some dst →
      (d.Apply dcheck dba s).outcome = .returned ∧
      (d.Apply dcheck dba s).calls
        = [.FindVertex d.vertex_from_id true, .FindVertex d.vertex_to_id true,
            .EdgeType d.edge_type_name,
            .InsertEdge src dst (dba.EdgeType s d.edge_type_name).1 d.edge_id] ∧
      (d.Apply dcheck dba s).state
        = dba.InsertEdge (dba.EdgeType s d.edge_type_name).2 src dst
            (dba.EdgeType s d.edge_type_name).1 d.edge_id) := by
  unfold StateDelta.Apply
  rw [hk]
  rcases hf : dba.FindVertex s d.vertex_from_id true with _ | src <;>
    rcases ht : dba.FindVertex s d.vertex_to_id true with _ | dst <;>
    simp [dcheckFailed]

theorem C12_create_edge_lookups_witness :
    sampleCreateEdge.type = .CREATE_EDGE ∧
    (true = true ∧
      (sampleAccessor.FindVertex [7] sampleCreateEdge.vertex_from_id true = none ∨
        sampleAccessor.FindVertex [7] sampleCreateEdge.vertex_to_id true = none) ∧
      (sampleCreateEdge.Apply true sampleAccessor [7]).outcome = .fatal ∧
      (sampleCreateEdge.Apply true sampleAccessor [7]).calls
        = [.FindVertex sampleCreateEdge.vertex_from_id true,
            .FindVertex sampleCreateEdge.vertex_to_id true] ∧
      (sampleCreateEdge.Apply true sampleAccessor [7]).state = [7]) ∧
    (sampleAccessor.FindVertex [7, 8] sampleCreateEdge.vertex_from_id true = some 7 ∧
      sampleAccessor.FindVertex [7, 8] sampleCreateEdge.vertex_to_id true = some 8 ∧
      (sampleCreateEdge.Apply true sampleAccessor [7, 8]).outcome = .returned) :=
  ⟨rfl,
    ⟨rfl, Or.inr rfl,
      (C12_create_edge_lookups true sampleAccessor sampleCreateEdge [7] rfl).2.1 rfl
        (Or.inr rfl)⟩,
    ⟨rfl, rfl,
      ((C12_create_edge_lookups true sampleAccessor sampleCreateEdge [7, 8] rfl).2.2 7 8
        rfl rfl).1⟩⟩

/-- C13: `Apply` resolves edge types, properties and labels from the recorded names only: a delta
and the same delta with any other values in the integer fields `edge_type`, `property` and
`label` make `Apply` end in the same way, with the same sequence of accessor calls with the
same arguments and the same resulting database state, on every accessor and state. -/
theorem C13_apply_ignores_integer_ids {σ V E : Type} (dcheck : Bool)
    (dba : GraphDbAccessor σ V E) (d : StateDelta) (s : σ) (edge_type property label : Nat) :
    ({ d with edge_type := edge_type, property := property, label := label }).Apply
        dcheck dba s
      = d.Apply dcheck dba s := by
  obtain ⟨type, tx, f1, f2, f3, f4, f5, f6, f7, f8, f9, f10, f11, f12, f13, f14⟩ := d
  cases type <;> rfl

/-- C14: for every delta of a kind that `Apply` carries out (CreateVertex, CreateEdge,
SetPropertyVertex, SetPropertyEdge, AddLabel, RemoveLabel, RemoveVertex, RemoveEdge) whose
referenced vertex or edge exists, `Apply` returns, and exactly one of its accessor calls is a
mutation: the one that corresponds to the kind, on the vertex or edge found for the recorded
id, with the property or label resolved from the recorded name and the recorded value (Null
included). The resulting database state is the one the calls made produce. -/
theorem C14_apply_one_mutation {σ V E : Type} (dcheck : Bool)
    (dba : GraphDbAccessor σ V E) (d : StateDelta) (s : σ) (m : DbaCall V E)
    (hm : expectedMutation dba d s = some m) :
    (d.Apply dcheck dba s).outcome = .returned ∧
    (d.Apply dcheck dba s).calls.filter DbaCall.isMutation = [m] ∧
    (d.Apply dcheck dba s).calls.getLast? = some m ∧
    (d.Apply dcheck dba s).state = (d.Apply dcheck dba s).calls.foldl (runCall dba) s := by
  unfold expectedMutation at hm
  unfold StateDelta.Apply
  split at hm
  case h_1 ht =>
    rw [ht]
    simp only [Option.some.injEq] at hm
    subst hm
    simp [DbaCall.isMutation, runCall]
  case h_2 ht =>
    rw [ht]
    rcases hf : dba.FindVertex s d.vertex_from_id true with _ | src <;>
      rcases hto : dba.FindVertex s d.vertex_to_id true with _ | dst <;>
      simp only [hf, hto, Option.some.injEq] at hm <;>
      first
        | exact absurd hm (by simp)
        | (subst hm; simp [DbaCall.isMutation, runCall])
  case h_3 ht =>
    rw [ht]
    rcases hf : dba.FindVertex s d.vertex_id true with _ | v <;>
      simp only [hf, Option.map_none', Option.map_some', Option.some.injEq] at hm <;>
      first
        | exact absurd hm (by simp)
        | (subst hm; simp [DbaCall.isMutation, runCall])
  case h_4 ht =>
    rw [ht]
    rcases hf : dba.FindEdge s d.edge_id true with _ | v <;>
      simp only [hf, Option.map_none', Option.map_some', Option.some.injEq] at hm <;>
      first
        | exact absurd hm (by simp)
        | (subst hm; simp [DbaCall.isMutation, runCall])
  case h_5 ht =>
    rw [ht]
    rcases hf : dba.FindVertex s d.vertex_id true with _ | v <;>
      simp only [hf, Option.map_none', Option.map_some', Option.some.injEq] at hm <;>
      first
        | exact absurd hm (by simp)
        | (subst hm; simp [DbaCall.isMutation, runCall])
  case h_6 ht =>
    rw [ht]
    rcases hf : dba.FindVertex s d.vertex_id true with _ | v <;>
      simp only [hf, Option.map_none', Option.map_some', Option.some.injEq] at hm <;>
      first
        | exact absurd hm (by simp)
        | (subst hm; simp [DbaCall.isMutation, runCall])
  case h_7 ht =>
    rw [ht]
    rcases hf : dba.FindVertex s d.vertex_id true with _ | v <;>
      simp only [hf, Option.map_none', Option.map_some', Option.some.injEq] at hm <;>
      first
        | exact absurd hm (by simp)
        | (subst hm; simp [DbaCall.isMutation, runCall])
  case h_8 ht =>
    rw [ht]
    rcases hf : dba.FindEdge s d.edge_id true with _ | v <;>
      simp only [hf, Option.map_none', Option.map_some', Option.some.injEq] at hm <;>
      first
        | exact absurd hm (by simp)
        | (subst hm; simp [DbaCall.isMutation, runCall])
  case h_9 => simp at hm

theorem C14_apply_one_mutation_witness :
    expectedMutation sampleAccessor (StateDelta.RemoveVertex 42 7) [7, 8]
      = some (.DetachRemoveVertex 7) ∧
    ((StateDelta.RemoveVertex 42 7).Apply true sampleAccessor [7, 8]).outcome = .returned ∧
    ((StateDelta.RemoveVertex 42 7).Apply true sampleAccessor [7, 8]).calls.filter
        DbaCall.isMutation = [.DetachRemoveVertex 7] ∧
    ((StateDelta.RemoveVertex 42 7).Apply true sampleAccessor [7, 8]).calls.getLast?
      = some (.DetachRemoveVertex 7) ∧
    ((StateDelta.RemoveVertex 42 7).Apply true sampleAccessor [7, 8]).state
      = ((StateDelta.RemoveVertex 42 7).Apply true sampleAccessor [7, 8]).calls.foldl
          (runCall sampleAccessor) [7, 8] :=
  ⟨rfl, C14_apply_one_mutation true sampleAccessor (StateDelta.RemoveVertex 42 7) [7, 8]
    (.DetachRemoveVertex 7) rfl⟩

end database

namespace database

open durability communication.bolt

/-- C15 (counterexample): the record `Int(16)`, `Int(42)` followed by the correct hash word has a
kind discriminator that is none of the sixteen enumerators, and `Decode` does not reject it: it
returns a present delta whose type is the out-of-range value 16 and whose transaction id
is 42. -/
theorem C15_counterexample :
    (DeltaType.unknown 16).known = false ∧
    ((StateDelta.Decode sampleHasher (HashedFileReader.fresh sampleHasher unknownKindRecord)).1.map
        (fun d => (d.type, d.transaction_id))) = some (DeltaType.unknown 16, 42) ∧
    (StateDelta.Decode sampleHasher
        (HashedFileReader.fresh sampleHasher unknownKindRecord)).1.isSome = true := by
  refine ⟨by decide, ?_, ?_⟩
  · decide!
  · decide!

/-- C15 (amended): `Decode` does not check the kind discriminator against the enumerated kinds.
For every 64-bit integer that narrows to none of the enumerators, followed by an integer
transaction id and the correct hash word, `Decode` returns a present delta that carries the
out-of-range type value and the transaction id, and the reader stops right after the hash
word: no further field is read. For such a type the switch of `Decode` reads nothing and
assigns no member, whatever the other members hold. -/
theorem C15_unknown_kind_accepted (H : Hasher) (v : Int) (tx : Nat) (rest : List Nat) (h : Nat)
    (hlo : -2 ^ 63 ≤ v) (hhi : v < 2 ^ 63) (hu : (DeltaType.ofInt64 v).known = false)
    (htx : tx < 2 ^ 64) (hh : h < 2 ^ 64) :
    (StateDelta.Decode H
        ⟨encodeInt v ++ encodeInt (toInt64 tx)
          ++ leBytes 8 (H.run h (encodeInt v ++ encodeInt (toInt64 tx))) ++ rest, h⟩).1.map
        (fun d => (d.type, d.transaction_id))
      = some (DeltaType.unknown (toInt32 v), tx) ∧
    (StateDelta.Decode H
        ⟨encodeInt v ++ encodeInt (toInt64 tx)
          ++ leBytes 8 (H.run h (encodeInt v ++ encodeInt (toInt64 tx))) ++ rest, h⟩).2
      = ⟨rest, H.run h (encodeInt v ++ encodeInt (toInt64 tx)
          ++ leBytes 8 (H.run h (encodeInt v ++ encodeInt (toInt64 tx))))⟩ ∧
    (∀ (r_val : StateDelta) (reader : HashedFileReader),
      r_val.type = DeltaType.ofInt64 v →
      StateDelta.DecodeFields H r_val reader = (.next r_val, reader)) := by
  rw [Decode_unknown H v tx rest h hlo hhi hu htx hh]
  refine ⟨rfl, rfl, ?_⟩
  intro r_val reader ht
  exact DecodeFields_unknown H r_val reader (by rw [ht]; exact hu)

theorem C15_unknown_kind_accepted_witness :
    (-2 ^ 63 ≤ (16 : Int) ∧ (16 : Int) < 2 ^ 63 ∧ (DeltaType.ofInt64 16).known = false ∧
      42 < 2 ^ 64 ∧ sampleHasher.start < 2 ^ 64) ∧
    (StateDelta.Decode sampleHasher
        ⟨encodeInt 16 ++ encodeInt (toInt64 42)
          ++ leBytes 8 (sampleHasher.run sampleHasher.start
              (encodeInt 16 ++ encodeInt (toInt64 42))) ++ [], sampleHasher.start⟩).1.map
        (fun d => (d.type, d.transaction_id))
      = some (DeltaType.unknown (toInt32 16), 42) :=
  ⟨⟨by decide, by decide, by decide, by decide, by decide⟩,
    (C15_unknown_kind_accepted sampleHasher 16 42 [] sampleHasher.start (by decide) (by decide)
      (by decide) (by decide) (by decide)).1⟩

/-- C16: `Decode` surfaces every failure as an absent result and never raises. Its result is
present exactly when the body of its `try` block runs to the end, and is absent both when the
body returns `nullopt` early (a value cannot be read, the hash does not match) and when the body
raises either exception; the reader is left where the body left it. In particular a first value
that is not an integer, on which the accessor `ValueInt` raises, gives an absent result. -/
theorem C16_decode_never_raises (H : Hasher) (reader : HashedFileReader) :
    StateDelta.Decode H reader
        = (match (StateDelta.DecodeBody H reader).1 with
            | .next r_val => some r_val
            | .failed => none
            | .raised _ => none,
           (StateDelta.DecodeBody H reader).2) ∧
    (∀ e, (StateDelta.DecodeBody H reader).1 = .raised e →
      (StateDelta.Decode H reader).1 = none) ∧
    ((StateDelta.DecodeBody H reader).1 = .failed → (StateDelta.Decode H reader).1 = none) ∧
    (∀ dv r1, Decoder.ReadValue H reader = (.next dv, r1) → (∀ i, dv ≠ .int i) →
      StateDelta.DecodeBody H reader = (.raised .DecodedValueException, r1) ∧
        StateDelta.Decode H reader = (none, r1)) := by
  have main : StateDelta.Decode H reader
        = (match (StateDelta.DecodeBody H reader).1 with
            | .next r_val => some r_val
            | .failed => none
            | .raised _ => none,
           (StateDelta.DecodeBody H reader).2) := by
    unfold StateDelta.Decode
    rcases hb : StateDelta.DecodeBody H reader with ⟨fl, r1⟩
    cases fl with
    | next a => rfl
    | failed => rfl
    | raised e => cases e <;> rfl
  refine ⟨main, ?_, ?_, ?_⟩
  · intro e he
    rw [main, he]
  · intro he
    rw [main, he]
  · intro dv r1 hread hni
    have hrec : StateDelta.DecodeRecord H reader = (.raised .DecodedValueException, r1) := by
      unfold StateDelta.DecodeRecord
      rw [DecodeM.bind_apply, hread]
      cases dv with
      | int i => exact absurd rfl (hni i)
      | _ => rfl
    have hbody : StateDelta.DecodeBody H reader = (.raised .DecodedValueException, r1) := by
      unfold StateDelta.DecodeBody
      rw [DecodeM.bind_apply, hrec]
    refine ⟨hbody, ?_⟩
    rw [main, hbody]

theorem C16_decode_never_raises_witness :
    Decoder.ReadValue sampleHasher ⟨[0xC0], sampleHasher.start⟩
      = (.next .null, ⟨[], sampleHasher.run sampleHasher.start [0xC0]⟩) ∧
    StateDelta.DecodeBody sampleHasher ⟨[0xC0], sampleHasher.start⟩
      = (.raised .DecodedValueException, ⟨[], sampleHasher.run sampleHasher.start [0xC0]⟩) ∧
    StateDelta.Decode sampleHasher ⟨[0xC0], sampleHasher.start⟩
      = (none, ⟨[], sampleHasher.run sampleHasher.start [0xC0]⟩) :=
  ⟨rfl,
    (C16_decode_never_raises sampleHasher ⟨[0xC0], sampleHasher.start⟩).2.2.2 .null
      ⟨[], sampleHasher.run sampleHasher.start [0xC0]⟩ rfl
      (fun _ h => PropertyValue.noConfusion h)⟩

end database

namespace durability

open communication.bolt database

/-- C17: for every database state, the bytes that the snapshot `Encode` writes to a fresh writer
are, in this order: the magic bytes; the version 6; the worker id; the vertex-generator count;
the edge-generator count; the id of the snapshotting transaction; the list of the transaction
ids of its snapshot, in snapshot order; the flat list of 2k strings for the k index keys
(label name, then property name, key by key); every vertex record; every edge record, each
followed by its Cypher id; the number of vertex records; the number of edge records; and the
hash of the writer over all the bytes before the hash word. -/
theorem C17_snapshot_layout {V E : Type} (H : Hasher) (fmt : SnapshotFormat V E)
    (db : SnapshotView V E) (worker_id : Int) :
    (EncodeBody H fmt db worker_id (HashedFileWriter.fresh H)).out
      = snapshotLayout fmt db worker_id
          ++ leBytes 8 (H.run H.start (snapshotLayout fmt db worker_id)) ∧
    (db.GetIndicesKeys.flatMap (fun key =>
        [PropertyValue.string (db.LabelName key.1),
          PropertyValue.string (db.PropertyName key.2)])).length
      = 2 * db.GetIndicesKeys.length := by
  constructor
  · rw [EncodeBody_eq]
    simp [HashedFileWriter.Write, HashedFileWriter.fresh]
  · induction db.GetIndicesKeys with
    | nil => rfl
    | cons key keys ih =>
      rw [List.flatMap_cons, List.length_append, ih, List.length_cons]
      simp only [List.length_cons, List.length_nil]
      omega

/-- C18: if a write of the snapshot raises, at whatever number of bytes, `MakeSnapshot` returns
false, the snapshot directory is as it was before the call, so the partial snapshot file no
longer exists and every snapshot file that was there still is, the WAL directory is as it
was, and neither `RemoveOldSnapshots` nor `RemoveOldWals` is run. -/
theorem C18_failed_write_leaves_no_file {P V E : Type} [LinearOrder P] (H : Hasher)
    (fmt : SnapshotFormat V E) (disk : Disk) (TransactionIdFromWalFilename : P → Option Nat)
    (dcheck : Bool) (MakeSnapshotPath : Int → Nat → P) (db : SnapshotView V E)
    (worker_id : Int) (durability_dir : DurabilityDir P) (snapshot_max_retained : Int)
    (files : List P) (c : Nat)
    (hdir : EnsureDir disk durability_dir.snapshots = (true, some files))
    (hnew : MakeSnapshotPath worker_id db.transaction_id ∉ files)
    (hcap : disk.capacity = some c)
    (hfail : c < (EncodeBody H fmt db worker_id (HashedFileWriter.fresh H)).out.length) :
    MakeSnapshot H fmt disk TransactionIdFromWalFilename dcheck MakeSnapshotPath db worker_id
        durability_dir snapshot_max_retained
      = ⟨.returned, false, ⟨some files, durability_dir.wal⟩,
          [.EnsureDir, .Encode (MakeSnapshotPath worker_id db.transaction_id),
            .remove (MakeSnapshotPath worker_id db.transaction_id)]⟩ ∧
    SnapshotCall.RemoveOldSnapshots ∉
      (MakeSnapshot H fmt disk TransactionIdFromWalFilename dcheck MakeSnapshotPath db
        worker_id durability_dir snapshot_max_retained).calls ∧
    SnapshotCall.RemoveOldWals ∉
      (MakeSnapshot H fmt disk TransactionIdFromWalFilename dcheck MakeSnapshotPath db
        worker_id durability_dir snapshot_max_retained).calls := by
  have hE : Encode H fmt disk (MakeSnapshotPath worker_id db.transaction_id) db worker_id files
      = (false, files) := by
    unfold Encode
    simp only [hcap, hnew, if_false, hfail, decide_True, if_true, FileExists, RemoveFile,
      List.mem_append, List.mem_singleton, or_true]
    rw [List.erase_append_right _ hnew]
    simp
  have key : MakeSnapshot H fmt disk TransactionIdFromWalFilename dcheck MakeSnapshotPath db
        worker_id durability_dir snapshot_max_retained
      = ⟨.returned, false, ⟨some files, durability_dir.wal⟩,
          [.EnsureDir, .Encode (MakeSnapshotPath worker_id db.transaction_id),
            .remove (MakeSnapshotPath worker_id db.transaction_id)]⟩ := by
    unfold MakeSnapshot
    rw [hdir]
    simp only [FileExists, hnew, decide_False, Bool.false_eq_true, if_false, hE, RemoveFile,
      List.erase_of_not_mem hnew]
  rw [key]
  exact ⟨rfl, by simp, by simp⟩

theorem C18_failed_write_leaves_no_file_witness :
    (EnsureDir ⟨true, some 10⟩ sampleDir.snapshots = (true, some [30, 10, 20]) ∧
      samplePath 0 sampleView.transaction_id ∉ [30, 10, 20] ∧
      (10 : Nat) < (EncodeBody sampleHasher sampleFormat sampleView 0
        (HashedFileWriter.fresh sampleHasher)).out.length) ∧
    MakeSnapshot sampleHasher sampleFormat ⟨true, some 10⟩ sampleWalId true samplePath
        sampleView 0 sampleDir 2
      = ⟨.returned, false, ⟨some [30, 10, 20], sampleDir.wal⟩,
          [.EnsureDir, .Encode (samplePath 0 sampleView.transaction_id),
            .remove (samplePath 0 sampleView.transaction_id)]⟩ :=
  ⟨⟨rfl, by decide, by decide!⟩,
    (C18_failed_write_leaves_no_file sampleHasher sampleFormat ⟨true, some 10⟩ sampleWalId true
      samplePath sampleView 0 sampleDir 2 [30, 10, 20] 10 rfl (by decide) rfl (by decide!)).1⟩

/-- C19: for every snapshot directory that holds k files (distinct paths, fewer than 2^31) and
every `max_retained = N ≥ 0`, `RemoveOldSnapshots` returns; it removes nothing when k ≤ N, and
otherwise it removes exactly the k − N smallest paths, in sorted order, so that N files remain
and every file that remains is greater than every file removed. With `max_retained = -1` it
removes no file, whatever the directory holds. -/
theorem C19_remove_old_snapshots {P : Type} [LinearOrder P] (snapshot_dir : List P) (N : Nat)
    (hk : snapshot_dir.length < 2 ^ 31) (hnd : snapshot_dir.Nodup) :
    (RemoveOldSnapshots snapshot_dir N).outcome = .returned ∧
    (snapshot_dir.length ≤ N →
      (RemoveOldSnapshots snapshot_dir N).removed = [] ∧
      (RemoveOldSnapshots snapshot_dir N).dir = some snapshot_dir) ∧
    (N < snapshot_dir.length →
      (RemoveOldSnapshots snapshot_dir N).removed
        = (snapshot_dir.insertionSort (· ≤ ·)).take (snapshot_dir.length - N) ∧
      ∃ kept, (RemoveOldSnapshots snapshot_dir N).dir = some kept ∧
        kept = snapshot_dir.filter
          (fun p => decide (p ∉ (RemoveOldSnapshots snapshot_dir N).removed)) ∧
        kept.length = N ∧
        ∀ a ∈ (RemoveOldSnapshots snapshot_dir N).removed, ∀ b ∈ kept, a < b) ∧
    RemoveOldSnapshots snapshot_dir (-1) = ⟨.returned, some snapshot_dir, []⟩ := by
  refine ⟨?_, ?_, ?_, ?_⟩
  · rcases Nat.lt_or_ge N snapshot_dir.length with h | h
    · rw [RemoveOldSnapshots_more _ _ hk h]
    · rw [RemoveOldSnapshots_few _ _ hk h]
  · intro h
    rw [RemoveOldSnapshots_few _ _ hk h]
    exact ⟨rfl, rfl⟩
  · intro h
    rw [RemoveOldSnapshots_more _ _ hk h]
    refine ⟨rfl, _, rfl, ?_, ?_, ?_⟩
    · rw [← List.diff_eq_foldl, hnd.diff_eq_filter]
    · rw [← List.diff_eq_foldl, hnd.diff_eq_filter]
      rw [(filter_take_sorted_perm snapshot_dir hnd _).length_eq, List.length_drop,
        List.length_insertionSort]
      omega
    · intro a ha b hb
      rw [← List.diff_eq_foldl, hnd.diff_eq_filter] at hb
      have hb' := (filter_take_sorted_perm snapshot_dir hnd _).subset hb
      have hnot : b ∉ (snapshot_dir.insertionSort (· ≤ ·)).take (snapshot_dir.length - N) := by
        simpa using (List.mem_filter.mp hb).2
      have hs : (snapshot_dir.insertionSort (· ≤ ·)).Sorted (· ≤ ·) :=
        List.sorted_insertionSort _ _
      rw [← List.take_append_drop (snapshot_dir.length - N)
        (snapshot_dir.insertionSort (· ≤ ·))] at hs
      have hle : a ≤ b := (List.pairwise_append.mp hs).2.2 a ha b hb'
      exact lt_of_le_of_ne hle (fun hab => hnot (hab ▸ ha))
  · unfold RemoveOldSnapshots
    rw [if_pos rfl]

theorem C19_remove_old_snapshots_witness :
    ([30, 10, 20].length < 2 ^ 31 ∧ [30, 10, 20].Nodup ∧ 2 < [30, 10, 20].length) ∧
    (RemoveOldSnapshots [30, 10, 20] ((2 : Nat) : Int)).removed = [10] :=
  ⟨⟨by decide, by decide, by decide⟩,
    ((C19_remove_old_snapshots [30, 10, 20] 2 (by decide) (by decide)).2.2.1
      (by decide)).1.trans (by decide)⟩

/-- C20: for every snapshot transaction with id T and snapshot S (ids in ascending order, all at
most T, with T + 1 a 64-bit value) and every WAL directory (distinct paths), `RemoveOldWals`
returns, and it deletes a file of the directory if and only if its filename parses to a first
transaction id that is strictly less than min(S ∪ {T + 1}); every other file stays. When the
directory does not exist nothing is deleted. -/
theorem C20_remove_old_wals {P : Type} [DecidableEq P]
    (TransactionIdFromWalFilename : P → Option Nat) (dcheck : Bool) (files : List P)
    (T : Nat) (S : List Nat) (hnd : files.Nodup) (hs : S.Sorted (· ≤ ·))
    (hle : ∀ x ∈ S, x ≤ T) (hT : T + 1 < 2 ^ 64) :
    (RemoveOldWals TransactionIdFromWalFilename dcheck (some files) T S).outcome = .returned ∧
    (∀ f, f ∈ (RemoveOldWals TransactionIdFromWalFilename dcheck (some files) T S).removed ↔
      f ∈ files ∧
        ∃ id, TransactionIdFromWalFilename f = some id ∧ id < minInteresting T S) ∧
    (∃ kept, (RemoveOldWals TransactionIdFromWalFilename dcheck (some files) T S).dir
        = some kept ∧
      ∀ f, f ∈ kept ↔
        f ∈ files ∧
          ¬ ∃ id, TransactionIdFromWalFilename f = some id ∧ id < minInteresting T S) ∧
    RemoveOldWals TransactionIdFromWalFilename dcheck none T S = ⟨.returned, none, []⟩ := by
  have hcond : ∀ f, (TransactionIdFromWalFilename f).any
        (fun id => decide (id < minInteresting T S)) = true ↔
      ∃ id, TransactionIdFromWalFilename f = some id ∧ id < minInteresting T S := by
    intro f
    rcases TransactionIdFromWalFilename f with _ | id <;> simp
  have key : RemoveOldWals TransactionIdFromWalFilename dcheck (some files) T S
      = ⟨.returned,
          some ((files.filter (fun f => (TransactionIdFromWalFilename f).any
            (fun id => decide (id < minInteresting T S)))).foldl List.erase files),
          files.filter (fun f => (TransactionIdFromWalFilename f).any
            (fun id => decide (id < minInteresting T S)))⟩ := by
    unfold RemoveOldWals
    simp only
    rw [walLoop_eq _ _ _ _ _ _ hnd (fun f hf => hf), List.nil_append]
    have hm := minInteresting_eq T S hs hle
    cases S with
    | nil =>
      simp only at hm ⊢
      rw [hm, Nat.mod_eq_of_lt hT]
    | cons front rest =>
      simp only at hm ⊢
      rw [hm]
  rw [key]
  refine ⟨rfl, ?_, ⟨_, rfl, ?_⟩, rfl⟩
  · intro f
    rw [List.mem_filter, hcond]
  · intro f
    rw [← List.diff_eq_foldl, hnd.diff_eq_filter, List.mem_filter]
    simp only [decide_eq_true_eq, List.mem_filter, hcond, not_and]
    constructor
    · rintro ⟨hf, h⟩
      exact ⟨hf, h hf⟩
    · rintro ⟨hf, h⟩
      exact ⟨hf, fun _ => h⟩

theorem C20_remove_old_wals_witness :
    ([45, 12, 1001, 39].Nodup ∧ [40, 41].Sorted (· ≤ ·) ∧ (∀ x ∈ [40, 41], x ≤ 50) ∧
      50 + 1 < 2 ^ 64) ∧
    (RemoveOldWals sampleWalId true (some [45, 12, 1001, 39]) 50 [40, 41]).outcome
      = .returned ∧
    (12 ∈ (RemoveOldWals sampleWalId true (some [45, 12, 1001, 39]) 50 [40, 41]).removed ↔
      12 ∈ [45, 12, 1001, 39] ∧ ∃ id, sampleWalId 12 = some id ∧ id < minInteresting 50 [40, 41]) :=
  ⟨⟨by decide, by decide, by decide, by decide⟩,
    (C20_remove_old_wals sampleWalId true [45, 12, 1001, 39] 50 [40, 41] (by decide)
      (by decide) (by decide) (by decide)).1,
    (C20_remove_old_wals sampleWalId true [45, 12, 1001, 39] 50 [40, 41] (by decide)
      (by decide) (by decide) (by decide)).2.1 12⟩

end durability

namespace durability

open communication.bolt database

/-- C21: after a successful snapshot (`MakeSnapshot` returns true) whose transaction has id T
(with T + 1 a 64-bit value) and an empty snapshot set, on a WAL directory of distinct paths, the
files no longer in the WAL directory are exactly the files whose filename parses to a first
transaction id below T + 1: every such file is deleted, and every other file (a larger id, or a
name that does not parse) is left in place. -/
theorem C21_wal_frame_after_snapshot {P V E : Type} [LinearOrder P] (H : Hasher)
    (fmt : SnapshotFormat V E) (disk : Disk) (TransactionIdFromWalFilename : P → Option Nat)
    (dcheck : Bool) (MakeSnapshotPath : Int → Nat → P) (db : SnapshotView V E)
    (worker_id : Int) (durability_dir : DurabilityDir P) (snapshot_max_retained : Int)
    (wals : List P) (hwal : durability_dir.wal = some wals) (hnd : wals.Nodup)
    (hS : db.snapshot = []) (hT : db.transaction_id + 1 < 2 ^ 64)
    (hout : (MakeSnapshot H fmt disk TransactionIdFromWalFilename dcheck MakeSnapshotPath db
      worker_id durability_dir snapshot_max_retained).outcome = .returned)
    (hres : (MakeSnapshot H fmt disk TransactionIdFromWalFilename dcheck MakeSnapshotPath db
      worker_id durability_dir snapshot_max_retained).result = true) :
    ∃ kept,
      (MakeSnapshot H fmt disk TransactionIdFromWalFilename dcheck MakeSnapshotPath db
        worker_id durability_dir snapshot_max_retained).dir.wal = some kept ∧
      (∀ f, f ∈ kept ↔
        f ∈ wals ∧
          ¬ ∃ id, TransactionIdFromWalFilename f = some id ∧ id < db.transaction_id + 1) ∧
      (∀ f ∈ wals, f ∉ kept ↔
        ∃ id, TransactionIdFromWalFilename f = some id ∧ id < db.transaction_id + 1) := by
  have hw := (MakeSnapshot_wal_of_success H fmt disk TransactionIdFromWalFilename dcheck
    MakeSnapshotPath db worker_id durability_dir snapshot_max_retained hout hres).1
  rw [hwal, hS, RemoveOldWals_some _ _ _ _ _ hnd List.sorted_nil (by simp) hT] at hw
  have hmin : minInteresting db.transaction_id [] = db.transaction_id + 1 := rfl
  rw [hmin] at hw
  have hcond : ∀ f, (TransactionIdFromWalFilename f).any
        (fun id => decide (id < db.transaction_id + 1)) = false ↔
      ¬ ∃ id, TransactionIdFromWalFilename f = some id ∧ id < db.transaction_id + 1 := by
    intro f
    rcases TransactionIdFromWalFilename f with _ | id <;> simp
  have hmem : ∀ f, f ∈ (wals.filter (fun f => (TransactionIdFromWalFilename f).any
        (fun id => decide (id < db.transaction_id + 1)))).foldl List.erase wals ↔
      f ∈ wals ∧
        ¬ ∃ id, TransactionIdFromWalFilename f = some id ∧ id < db.transaction_id + 1 := by
    intro f
    rw [mem_foldl_erase_filter wals hnd, hcond]
  refine ⟨_, hw, hmem, ?_⟩
  intro f hf
  rw [hmem]
  constructor
  · intro h
    by_contra hne
    exact h ⟨hf, hne⟩
  · intro h hk
    exact hk.2 h

theorem C21_wal_frame_after_snapshot_witness :
    (sampleDir.wal = some [45, 12, 1001, 39] ∧ [45, 12, 1001, 39].Nodup ∧
      sampleViewIdle.snapshot = [] ∧ sampleViewIdle.transaction_id + 1 < 2 ^ 64 ∧
      (MakeSnapshot sampleHasher sampleFormat ⟨true, none⟩ sampleWalId true samplePath
        sampleViewIdle 0 sampleDir 2).outcome = .returned ∧
      (MakeSnapshot sampleHasher sampleFormat ⟨true, none⟩ sampleWalId true samplePath
        sampleViewIdle 0 sampleDir 2).result = true) ∧
    ∃ kept,
      (MakeSnapshot sampleHasher sampleFormat ⟨true, none⟩ sampleWalId true samplePath
        sampleViewIdle 0 sampleDir 2).dir.wal = some kept ∧
      (∀ f, f ∈ kept ↔
        f ∈ [45, 12, 1001, 39] ∧
          ¬ ∃ id, sampleWalId f = some id ∧ id < sampleViewIdle.transaction_id + 1) ∧
      (∀ f ∈ [45, 12, 1001, 39], f ∉ kept ↔
        ∃ id, sampleWalId f = some id ∧ id < sampleViewIdle.transaction_id + 1) :=
  ⟨⟨rfl, by decide, rfl, by decide, by decide, by decide⟩,
    C21_wal_frame_after_snapshot sampleHasher sampleFormat ⟨true, none⟩ sampleWalId true
      samplePath sampleViewIdle 0 sampleDir 2 [45, 12, 1001, 39] rfl (by decide) rfl
      (by decide) (by decide) (by decide)⟩

/-- C28 (failing input): with `max_retained = -2` and a directory that holds one file,
`RemoveOldSnapshots` removes the file and then reads the sorted list at position 1, outside
the list; on an empty directory it reads position 0 of an empty list. -/
theorem C28_reads_outside_the_list :
    (RemoveOldSnapshots [10] (-2)).outcome = .undefined ∧
    (RemoveOldSnapshots [10] (-2)).removed = [10] ∧
    ([10].insertionSort (· ≤ ·))[1]? = none ∧
    (RemoveOldSnapshots ([] : List Nat) (-2)).outcome = .undefined := by
  decide

end durability

namespace communication.raft

/-- C22: for every request with tag REQUEST_VOTE or APPEND_ENTRIES, the handler registered by
`Start` returns a reply whose tag is the tag of the request and whose payload for that tag is
the result of the handler of the member for that tag on the payload of the request; that
handler is the only one called, its state is the state of the member afterwards, and the other
payload of the reply is as constructed. -/
theorem C22_handler_dispatch {σ RV RVR AE AER : Type} (member : RaftMember σ RV RVR AE AER)
    (made : PeerRpcReply RVR AER) (s : σ) (request : PeerRpcRequest RV AE) :
    (request.type = .REQUEST_VOTE →
      RpcNetwork.StartHandler member made s request
        = ⟨some ⟨request.type, (member.OnRequestVote s request.request_vote).1,
              made.append_entries⟩,
            (member.OnRequestVote s request.request_vote).2,
            [.OnRequestVote request.request_vote]⟩) ∧
    (request.type = .APPEND_ENTRIES →
      RpcNetwork.StartHandler member made s request
        = ⟨some ⟨request.type, made.request_vote,
              (member.OnAppendEntries s request.append_entries).1⟩,
            (member.OnAppendEntries s request.append_entries).2,
            [.OnAppendEntries request.append_entries]⟩) := by
  constructor
  · intro h
    unfold RpcNetwork.StartHandler
    rw [h]
  · intro h
    unfold RpcNetwork.StartHandler
    rw [h]

theorem C22_handler_dispatch_witness :
    (⟨.REQUEST_VOTE, 4, 0⟩ : PeerRpcRequest Nat Nat).type = .REQUEST_VOTE ∧
    RpcNetwork.StartHandler sampleMember sampleReply 5 ⟨.REQUEST_VOTE, 4, 0⟩
      = ⟨some ⟨.REQUEST_VOTE, (sampleMember.OnRequestVote 5 4).1, sampleReply.append_entries⟩,
          (sampleMember.OnRequestVote 5 4).2, [.OnRequestVote 4]⟩ :=
  ⟨rfl, (C22_handler_dispatch sampleMember sampleReply 5 ⟨.REQUEST_VOTE, 4, 0⟩).1 rfl⟩

/-- C23 (counterexample): on a request whose tag is the value 7, neither REQUEST_VOTE nor
APPEND_ENTRIES, the handler registered by `Start` does return a reply. -/
theorem C23_counterexample :
    (RpcType.unknown 7 ≠ .REQUEST_VOTE ∧ RpcType.unknown 7 ≠ .APPEND_ENTRIES) ∧
    (RpcNetwork.StartHandler sampleMember sampleReply 5 ⟨.unknown 7, 4, 0⟩).reply.isSome
      = true ∧
    ((RpcNetwork.StartHandler sampleMember sampleReply 5 ⟨.unknown 7, 4, 0⟩).reply.map
      (fun reply => reply.type)) = some (.unknown 7) := by
  decide

/-- C23 (amended): for every request whose tag is neither REQUEST_VOTE nor APPEND_ENTRIES, the
handler registered by `Start` logs the unknown tag, calls neither `OnRequestVote` nor
`OnAppendEntries`, leaves the member as it is, and returns a reply whose tag is the tag of the
request and whose payloads are as constructed. -/
theorem C23_unknown_tag_reply {σ RV RVR AE AER : Type} (member : RaftMember σ RV RVR AE AER)
    (made : PeerRpcReply RVR AER) (s : σ) (request : PeerRpcRequest RV AE)
    (h1 : request.type ≠ .REQUEST_VOTE) (h2 : request.type ≠ .APPEND_ENTRIES) :
    RpcNetwork.StartHandler member made s request
      = ⟨some ⟨request.type, made.request_vote, made.append_entries⟩, s,
          [.LogError request.type]⟩ := by
  unfold RpcNetwork.StartHandler
  rcases ht : request.type with _ | _ | v
  · exact absurd ht h1
  · exact absurd ht h2
  · rfl

theorem C23_unknown_tag_reply_witness :
    ((⟨.unknown 7, 4, 0⟩ : PeerRpcRequest Nat Nat).type ≠ .REQUEST_VOTE ∧
      (⟨.unknown 7, 4, 0⟩ : PeerRpcRequest Nat Nat).type ≠ .APPEND_ENTRIES) ∧
    RpcNetwork.StartHandler sampleMember sampleReply 5 ⟨.unknown 7, 4, 0⟩
      = ⟨some ⟨.unknown 7, sampleReply.request_vote, sampleReply.append_entries⟩, 5,
          [.LogError (.unknown 7)]⟩ :=
  ⟨⟨by decide, by decide⟩,
    C23_unknown_tag_reply sampleMember sampleReply 5 ⟨.unknown 7, 4, 0⟩ (by decide)
      (by decide)⟩

/-- C24: `SendRequestVote` (resp. `SendAppendEntries`) returns true if and only if the call on
the client produced a response; when it returns false the reply of the caller is left as it
was, and when the call produced a response the reply of the caller is the `request_vote`
(resp. `append_entries`) payload of that response. The request sent carries the tag and the
payload of the function. -/
theorem C24_send_true_iff_response {κ M D RV RVR AE AER : Type}
    (Call : κ → M → D → PeerRpcRequest RV AE → Option (PeerRpcReply RVR AER) × κ)
    (req : PeerRpcRequest RV AE) (rep : PeerRpcReply RVR AER) (clients : κ) (recipient : M)
    (timeout : D) (vote : RV) (entries : AE) (vote_reply : RVR) (entries_reply : AER) :
    ((RpcNetwork.SendRequestVote Call req rep clients recipient vote vote_reply timeout).1
        = true ↔
      (Call clients recipient timeout
        { req with type := .REQUEST_VOTE, request_vote := vote }).1.isSome = true) ∧
    ((RpcNetwork.SendRequestVote Call req rep clients recipient vote vote_reply timeout).1
        = false →
      (RpcNetwork.SendRequestVote Call req rep clients recipient vote vote_reply timeout).2.1
        = vote_reply) ∧
    (∀ response, (Call clients recipient timeout
        { req with type := .REQUEST_VOTE, request_vote := vote }).1 = some response →
      (RpcNetwork.SendRequestVote Call req rep clients recipient vote vote_reply timeout).1
        = true ∧
      (RpcNetwork.SendRequestVote Call req rep clients recipient vote vote_reply timeout).2.1
        = response.request_vote) ∧
    ((RpcNetwork.SendAppendEntries Call req rep clients recipient entries entries_reply
        timeout).1 = true ↔
      (Call clients recipient timeout
        { req with type := .APPEND_ENTRIES, append_entries := entries }).1.isSome = true) ∧
    ((RpcNetwork.SendAppendEntries Call req rep clients recipient entries entries_reply
        timeout).1 = false →
      (RpcNetwork.SendAppendEntries Call req rep clients recipient entries entries_reply
        timeout).2.1 = entries_reply) ∧
    (∀ response, (Call clients recipient timeout
        { req with type := .APPEND_ENTRIES, append_entries := entries }).1 = some response →
      (RpcNetwork.SendAppendEntries Call req rep clients recipient entries entries_reply
        timeout).1 = true ∧
      (RpcNetwork.SendAppendEntries Call req rep clients recipient entries entries_reply
        timeout).2.1 = response.append_entries) := by
  unfold RpcNetwork.SendRequestVote RpcNetwork.SendAppendEntries RpcNetwork.SendRpc
  rcases hv : Call clients recipient timeout
    { req with type := .REQUEST_VOTE, request_vote := vote } with ⟨_ | r1, k1⟩ <;>
  rcases he : Call clients recipient timeout
    { req with type := .APPEND_ENTRIES, append_entries := entries } with ⟨_ | r2, k2⟩ <;>
  simp [hv, he]

theorem C24_send_true_iff_response_witness :
    (RpcNetwork.SendRequestVote sampleCall sampleRequest sampleReply 5 2 4 false 100).1
      = false ∧
    (RpcNetwork.SendRequestVote sampleCall sampleRequest sampleReply 5 2 4 false 100).2.1
      = false ∧
    (RpcNetwork.SendRequestVote sampleCall sampleRequest sampleReply 5 1 4 false 100).1
      = true ∧
    (RpcNetwork.SendRequestVote sampleCall sampleRequest sampleReply 5 1 4 false 100).2.1
      = true :=
  ⟨by decide,
    (C24_send_true_iff_response sampleCall sampleRequest sampleReply 5 2 100 4 0 false 0).2.1
      (by decide),
    (C24_send_true_iff_response sampleCall sampleRequest sampleReply 5 1 100 4 0 false 0).1.mpr
      (by decide),
    by decide⟩

end communication.raft

namespace communication

open durability database

/-- C25: for a server with n workers, 1 ≤ n < 2^31, and every sequence of accepts, every call of
`OnData` returns, and the k-th connection accepted (counting from 0) is handed to worker
k mod n; an accept that yields no connection assigns nothing and leaves the rotation where it
is. -/
theorem C25_round_robin {C : Type} (dcheck : Bool) (n : Nat) (hn0 : 1 ≤ n) (hn : n < 2 ^ 31)
    (events : List (Option C)) :
    (Server.run dcheck (Server.init n) events).1 = .returned ∧
    (Server.run dcheck (Server.init n) events).2.2
      = events.reduceOption.enum.map (fun p => (p.1 % n, p.2)) ∧
    (∀ i : Nat, i < n →
      ConnectionAcceptor.OnData dcheck ⟨n, (i : Int)⟩ (none : Option C)
        = ⟨.returned, ⟨n, (i : Int)⟩, none⟩) := by
  have h := run_from dcheck n hn0 hn events 0
  rw [Nat.zero_mod] at h
  have hinit : Server.init n = ⟨n, ((0 : Nat) : Int)⟩ := rfl
  rw [hinit, h]
  exact ⟨rfl, rfl, fun i hi => OnData_none dcheck n i hi hn⟩

theorem C25_round_robin_witness :
    (1 ≤ 3 ∧ 3 < 2 ^ 31) ∧
    (Server.run true (Server.init 3) [some 10, none, some 11, some 12, none, some 13]).2.2
      = [(0, 10), (1, 11), (2, 12), (0, 13)] :=
  ⟨⟨by decide, by decide⟩,
    (C25_round_robin true 3 (by decide) (by decide)
      [some 10, none, some 11, some 12, none, some 13]).2.1.trans (by decide)⟩

/-- C30: for a server with n workers, 1 ≤ n < 2^31, the rotation index `idx_` satisfies
0 ≤ idx_ < n initially and after every call of `OnData`, whatever the accepts yield: with the
`DCHECK` compiled in no call ends in it, and every subscript `workers_[idx_]` is a position
among the workers. -/
theorem C30_idx_in_range {C : Type} (n : Nat) (hn0 : 1 ≤ n) (hn : n < 2 ^ 31)
    (events : List (Option C)) :
    (0 ≤ (Server.init n).idx_ ∧ (Server.init n).idx_ < n) ∧
    (Server.run true (Server.init n) events).1 = .returned ∧
    (Server.run true (Server.init n) events).2.1.workers_size = n ∧
    0 ≤ (Server.run true (Server.init n) events).2.1.idx_ ∧
    (Server.run true (Server.init n) events).2.1.idx_ < n ∧
    toUInt64 (Server.run true (Server.init n) events).2.1.idx_ < n := by
  have h := run_from true n hn0 hn events 0
  rw [Nat.zero_mod] at h
  have hinit : Server.init n = ⟨n, ((0 : Nat) : Int)⟩ := rfl
  have hlt : (0 + events.reduceOption.length) % n < n := Nat.mod_lt _ hn0
  refine ⟨⟨by simp [Server.init], by simp [Server.init]; omega⟩, ?_⟩
  rw [hinit, h]
  have hlt' : (((0 + events.reduceOption.length) % n : Nat) : Int) < (n : Int) := by
    exact_mod_cast hlt
  refine ⟨rfl, rfl, Int.ofNat_nonneg _, hlt', ?_⟩
  simp only
  rw [toUInt64_natCast _ (by omega)]
  exact hlt

theorem C30_idx_in_range_witness :
    (1 ≤ 3 ∧ 3 < 2 ^ 31) ∧
    (Server.run true (Server.init 3) [some 10, none, some 11, some 12, none, some 13]).1
      = .returned ∧
    (Server.run true (Server.init 3)
      [some 10, none, some 11, some 12, none, some 13]).2.1.idx_ < 3 :=
  ⟨⟨by decide, by decide⟩,
    (C30_idx_in_range 3 (by decide) (by decide)
      [some 10, none, some 11, some 12, none, some 13]).2.1,
    (C30_idx_in_range 3 (by decide) (by decide)
      [some 10, none, some 11, some 12, none, some 13]).2.2.2.2.1⟩

end communication

namespace query

/-- C27: `TypedValueVectorCompare` orders vectors lexicographically under the orderings of the
positions. For all vectors c1, c2 no longer than the ordering vector: if i is the first
position of both vectors at which one of the two values compares less than the other, the
result is (ordering[i] = ASC) when c1[i] compares less, and (ordering[i] = DESC) when c2[i]
compares less and c1[i] does not; if there is no such position, the result is true exactly
when c1 is strictly shorter than c2. -/
theorem C27_lexicographic {T : Type} (TypedValueCompare : T → T → Bool)
    (ordering_ : List Ordering) (c1 c2 : List T)
    (h1 : c1.length ≤ ordering_.length) (h2 : c2.length ≤ ordering_.length) :
    (∀ (i : Nat) (a b : T) (o : Ordering),
      c1[i]? = some a → c2[i]? = some b → ordering_[i]? = some o →
      (∀ (j : Nat) (x y : T), j < i → c1[j]? = some x → c2[j]? = some y →
        TypedValueCompare x y = false ∧ TypedValueCompare y x = false) →
      (TypedValueCompare a b = true →
        TypedValueVectorCompare TypedValueCompare ordering_ c1 c2
          = .returned (decide (o = .ASC))) ∧
      (TypedValueCompare a b = false → TypedValueCompare b a = true →
        TypedValueVectorCompare TypedValueCompare ordering_ c1 c2
          = .returned (decide (o = .DESC)))) ∧
    ((∀ (j : Nat) (x y : T), c1[j]? = some x → c2[j]? = some y →
        TypedValueCompare x y = false ∧ TypedValueCompare y x = false) →
      TypedValueVectorCompare TypedValueCompare ordering_ c1 c2
        = .returned (decide (c1.length < c2.length))) := by
  unfold TypedValueVectorCompare
  rw [if_pos ⟨h1, h2⟩]
  constructor
  · intro i a b o ha hb ho hbefore
    rw [compareLoop_first TypedValueCompare i c1 c2 ordering_ a b o ha hb ho hbefore]
    constructor
    · intro hab
      rw [if_pos hab]
    · intro hab hba
      rw [hab, if_pos hba]
      simp
  · intro hall
    exact compareLoop_equal TypedValueCompare c1 c2 ordering_ h1 h2 hall

theorem C27_lexicographic_witness :
    ([1, 5, 2].length ≤ [Ordering.ASC, Ordering.DESC, Ordering.ASC].length ∧
      [1, 7].length ≤ [Ordering.ASC, Ordering.DESC, Ordering.ASC].length) ∧
    TypedValueVectorCompare (fun a b : Nat => decide (a < b))
        [Ordering.ASC, Ordering.DESC, Ordering.ASC] [1, 5, 2] [1, 7]
      = .returned (decide (Ordering.DESC = Ordering.ASC)) :=
  ⟨⟨by decide, by decide⟩,
    ((C27_lexicographic (fun a b : Nat => decide (a < b))
        [Ordering.ASC, Ordering.DESC, Ordering.ASC] [1, 5, 2] [1, 7] (by decide)
        (by decide)).1 1 5 7 Ordering.DESC rfl rfl rfl
      (fun j x y hj hx hy => by
        have hj0 : j = 0 := by omega
        subst hj0
        simp only [List.getElem?_cons_zero, Option.some.injEq] at hx hy
        subst hx hy
        decide)).1 (by decide)⟩

/-- C29: whenever no element involved compares less than itself and no two elements involved
compare less than each other both ways, `TypedValueVectorCompare` is irreflexive and
asymmetric on vectors no longer than the ordering vector, for every choice of orderings:
cmp(c, c) is false, and cmp(c1, c2) and cmp(c2, c1) are never both true. -/
theorem C29_irreflexive_asymmetric {T : Type} (TypedValueCompare : T → T → Bool)
    (ordering_ : List Ordering) (c c1 c2 : List T)
    (hc : c.length ≤ ordering_.length)
    (h1 : c1.length ≤ ordering_.length) (h2 : c2.length ≤ ordering_.length)
    (hirr : ∀ a ∈ c, TypedValueCompare a a = false)
    (hasym : ∀ a ∈ c1, ∀ b ∈ c2,
      ¬ (TypedValueCompare a b = true ∧ TypedValueCompare b a = true)) :
    TypedValueVectorCompare TypedValueCompare ordering_ c c = .returned false ∧
    ¬ (TypedValueVectorCompare TypedValueCompare ordering_ c1 c2 = .returned true ∧
        TypedValueVectorCompare TypedValueCompare ordering_ c2 c1 = .returned true) := by
  unfold TypedValueVectorCompare
  rw [if_pos ⟨hc, hc⟩, if_pos ⟨h1, h2⟩, if_pos ⟨h2, h1⟩]
  exact ⟨compareLoop_self TypedValueCompare c ordering_ hc hirr,
    compareLoop_asymm TypedValueCompare c1 c2 ordering_ hasym⟩

theorem C29_irreflexive_asymmetric_witness :
    ([1, 2].length ≤ [Ordering.ASC, Ordering.DESC].length ∧
      (∀ a ∈ [1, 2], decide (a < a) = false) ∧
      (∀ a ∈ [1, 2], ∀ b ∈ [1, 3], ¬ (decide (a < b) = true ∧ decide (b < a) = true))) ∧
    TypedValueVectorCompare (fun a b : Nat => decide (a < b)) [Ordering.ASC, Ordering.DESC]
        [1, 2] [1, 2] = .returned false ∧
    ¬ (TypedValueVectorCompare (fun a b : Nat => decide (a < b)) [Ordering.ASC, Ordering.DESC]
          [1, 2] [1, 3] = .returned true ∧
        TypedValueVectorCompare (fun a b : Nat => decide (a < b)) [Ordering.ASC, Ordering.DESC]
          [1, 3] [1, 2] = .returned true) :=
  ⟨⟨by decide, by decide, by decide⟩,
    C29_irreflexive_asymmetric (fun a b : Nat => decide (a < b)) [Ordering.ASC, Ordering.DESC]
      [1, 2] [1, 2] [1, 3] (by decide) (by decide) (by decide) (by decide) (by decide)⟩

end query
